import Mathlib

/-!
# P-256 arithmetic core: 256-bit field layer (`ff.h`) and curve layer (`ec.h`)

A shallow embedding of the C sources.  An `ff_t` is the array `words[FF_WORDS]`
of `uint32_t` limbs, little-endian, modelled as a list of naturals; every
`uint32_t` operation is written with an explicit `% 2 ^ 32`.  `for` loops over
the limbs become recursion over the limb list (ascending loops) or over the
loop counter (descending loops and the `while (shift >= 0)` loops).
-/

namespace P256

/-! ## Data model -/

/-- The macro `FF_SIZE` of `ff.h`. -/
def FF_SIZE : Nat := 256

/-- The macro `FF_WORDS = FF_SIZE / 32`. -/
def FF_WORDS : Nat := FF_SIZE / 32

/-- The macro `FF_LAST_WORD = FF_WORDS - 1`. -/
def FF_LAST_WORD : Nat := FF_WORDS - 1

/-- The struct `ff_t`: the limb array `words`, least significant limb first. -/
abbrev ff_t := List Nat

/-- Well-formed `ff_t`: exactly `FF_WORDS` limbs, each a `uint32_t`. -/
def ff_wf (a : ff_t) : Prop := a.length = 8 ∧ ∀ x ∈ a, x < 2 ^ 32

instance (a : ff_t) : Decidable (ff_wf a) := by
  unfold ff_wf; exact inferInstance

/-- Every limb of a limb list is a `uint32_t`. -/
def limbs_ok (l : List Nat) : Prop := ∀ x ∈ l, x < 2 ^ 32

/-- The value an `ff_t` represents: the sum of `words[i] * 2^(32*i)`. -/
def ff_val : ff_t → Nat
  | [] => 0
  | w :: ws => w + 2 ^ 32 * ff_val ws

/-- Little-endian limbs of a natural number, `k` limbs (the inverse of `ff_val`). -/
def limbs : Nat → Nat → ff_t
  | 0, _ => []
  | k + 1, v => v % 2 ^ 32 :: limbs k (v / 2 ^ 32)

/-- The `ff_t` holding the low 256 bits of `v`. -/
def ff_of_nat (v : Nat) : ff_t := limbs 8 v

/-- Read `a->words[i]`. -/
def word (a : ff_t) (i : Nat) : Nat := a.getD i 0

/-- Subtraction of two `uint32_t` values (wraps modulo 2^32). -/
def u32_sub (x y : Nat) : Nat := (x + 2 ^ 32 - y) % 2 ^ 32

/-! ## Constructors and predicates (`ff.h` lines 16-65) -/

/-- Source function `ff_from_u32`: limb 0 is `value`, the other limbs are 0. -/
def ff_from_u32 (value : Nat) : ff_t := (value % 2 ^ 32) :: List.replicate (FF_WORDS - 1) 0

/-- Source function `ff_zero`: all limbs 0. -/
def ff_zero : ff_t := List.replicate FF_WORDS 0

/-- Source function `ff_eq`: 1 (true) iff no limb differs; the loop stops at the first difference. -/
def ff_eq : ff_t → ff_t → Bool
  | x :: xs, y :: ys => if x ≠ y then false else ff_eq xs ys
  | _, _ => true

/-- Source function `ff_is_zero`: 0 (false) at the first non-zero limb, otherwise 1. -/
def ff_is_zero : ff_t → Bool
  | x :: xs => if x ≠ 0 then false else ff_is_zero xs
  | [] => true

/-- Source function `ff_is_negative`: `(words[FF_LAST_WORD] >> 31) & 1`. -/
def ff_is_negative (a : ff_t) : Nat := (word a FF_LAST_WORD >>> 31) &&& 1

/-- The loop of `ff_cmp`, `i` running from `k - 1` down to 0. -/
def ff_cmp_loop (a b : ff_t) : Nat → Int
  | 0 => 0
  | i + 1 =>
    if word a i > word b i then 1
    else if word a i < word b i then -1
    else ff_cmp_loop a b i

/-- Source function `ff_cmp`: -1, 0 or 1, comparing from the most significant limb down. -/
def ff_cmp (a b : ff_t) : Int := ff_cmp_loop a b FF_WORDS

/-! ## Shifts and leading zeros (`ff.h` lines 67-151) -/

/-- Source function `ff_shl`: left shift by `n` bits.  Each result limb is
assigned once by the loops of the source; limb `i` is listed here with the value
it is assigned.  The loops run from the top limb down and read only limbs at or
below the one they write, so the in-place calls (`result == a`) of `ff_mod`
compute the same limbs. -/
def ff_shl (a : ff_t) (n : Int) : ff_t :=
  if n ≥ 256 ∨ n ≤ 0 then
    if n = 0 then a else ff_zero
  else
    let word_shift := n.toNat / 32
    let bit_shift := n.toNat % 32
    if bit_shift = 0 then
      (List.range FF_WORDS).map fun i =>
        if i ≥ word_shift then word a (i - word_shift) else 0
    else
      (List.range FF_WORDS).map fun i =>
        if i ≥ word_shift + 1 then
          ((word a (i - word_shift) <<< bit_shift) % 2 ^ 32) |||
            (word a (i - word_shift - 1) >>> (32 - bit_shift))
        else if i = word_shift then (word a 0 <<< bit_shift) % 2 ^ 32
        else 0

/-- Source function `ff_shr`: right shift by `n` bits, limb `i` listed with the
value the loops of the source assign to it.  The loops run from limb 0 up and
read only limbs at or above the one they write, so the in-place calls
(`result == a`) of `ff_mod` and `ff_div` compute the same limbs. -/
def ff_shr (a : ff_t) (n : Int) : ff_t :=
  if n ≥ 256 ∨ n ≤ 0 then
    if n = 0 then a else ff_zero
  else
    let word_shift := n.toNat / 32
    let bit_shift := n.toNat % 32
    if bit_shift = 0 then
      (List.range FF_WORDS).map fun i =>
        if i < FF_WORDS - word_shift then word a (i + word_shift) else 0
    else
      (List.range FF_WORDS).map fun i =>
        if i < FF_LAST_WORD - word_shift then
          (word a (i + word_shift) >>> bit_shift) |||
            ((word a (i + word_shift + 1) <<< (32 - bit_shift)) % 2 ^ 32)
        else if i = FF_LAST_WORD - word_shift then word a FF_LAST_WORD >>> bit_shift
        else 0

/-- First loop of `ff_clz`: skip the zero limbs from the top; returns the index
`i + 1` of the loop variable on exit (0 when `i < 0`) and `total`. -/
def ff_clz_words (a : ff_t) : Nat → Nat → Nat × Nat
  | 0, total => (0, total)
  | i + 1, total => if word a i = 0 then ff_clz_words a i (total + 32) else (i + 1, total)

/-- Second loop of `ff_clz`: count the zero bits of `w` from bit `b - 1` down. -/
def ff_clz_bits (w : Nat) : Nat → Nat → Nat
  | 0, total => total
  | b + 1, total => if w &&& (1 <<< b) ≠ 0 then total else ff_clz_bits w b (total + 1)

/-- Source function `ff_clz`: number of leading zero bits, `FF_SIZE` for zero. -/
def ff_clz (a : ff_t) : Nat :=
  match ff_clz_words a FF_WORDS 0 with
  | (0, _) => FF_SIZE
  | (i + 1, total) => ff_clz_bits (word a i) 32 total

/-! ## Addition, subtraction, multiplication (`ff.h` lines 211-250) -/

/-- The carry predicate of `ff_add`:
`(sum < a->words[i]) || ((sum == a->words[i]) && (b->words[i] > 0))`. -/
def ff_add_carry (ai bi sum : Nat) : Nat :=
  if sum < ai ∨ (sum = ai ∧ bi > 0) then 1 else 0

/-- The loop of `ff_add` from limb `i` on, `carry` being the carry into limb `i`. -/
def ff_add_loop : ff_t → ff_t → Nat → ff_t
  | ai :: as, bi :: bs, carry =>
    let sum := (ai + bi + carry) % 2 ^ 32
    let carry := ff_add_carry ai bi sum
    sum :: ff_add_loop as bs carry
  | _, _, _ => []

/-- Source function `ff_add`: limb-wise addition with carry propagation. -/
def ff_add (a b : ff_t) : ff_t := ff_add_loop a b 0

/-- The borrow predicate of `ff_sub`:
`(diff > a->words[i]) || ((diff == a->words[i]) && (b->words[i] > 0))`. -/
def ff_sub_borrow (ai bi diff : Nat) : Nat :=
  if diff > ai ∨ (diff = ai ∧ bi > 0) then 1 else 0

/-- The loop of `ff_sub` from limb `i` on, `borrow` being the borrow into limb `i`. -/
def ff_sub_loop : ff_t → ff_t → Nat → ff_t
  | ai :: as, bi :: bs, borrow =>
    let diff := u32_sub (u32_sub ai bi) borrow
    let borrow := ff_sub_borrow ai bi diff
    diff :: ff_sub_loop as bs borrow
  | _, _, _ => []

/-- Source function `ff_sub`: limb-wise subtraction with borrow propagation. -/
def ff_sub (a b : ff_t) : ff_t := ff_sub_loop a b 0

/-- Inner loop of `ff_mul` for a fixed `i`: `j` runs over the limbs of `b`
while `i + j < FF_WORDS`; the second list is `temp.words[i ..]`.  The variable
`product` is a `uint64_t`, the stored limb and `carry` are `uint32_t`. -/
def ff_mul_row (ai : Nat) : ff_t → List Nat → Nat → List Nat
  | bj :: bs, t :: ts, carry =>
    let product := (ai * bj + t + carry) % 2 ^ 64
    (product % 2 ^ 32) :: ff_mul_row ai bs ts ((product / 2 ^ 32) % 2 ^ 32)
  | _, ts, _ => ts

/-- Outer loop of `ff_mul` from limb `i` of `a` on; the last list is
`temp.words[i ..]`.  Row `i` rewrites `temp.words[i + j]` for `j < FF_WORDS - i`,
that is the whole of `temp.words[i ..]`; later rows touch only limbs above `i`,
so limb `i` is final after row `i` and the loop goes on with `temp.words[i+1 ..]`. -/
def ff_mul_loop : ff_t → ff_t → List Nat → List Nat
  | ai :: as, b, temp =>
    match ff_mul_row ai b temp 0 with
    | [] => []
    | t :: ts => t :: ff_mul_loop as b ts
  | [], _, temp => temp

/-- Source function `ff_mul`: schoolbook multiplication into a zeroed `temp`, then copy. -/
def ff_mul (a b : ff_t) : ff_t := ff_mul_loop a b ff_zero

/-! ## Modular reduction and modular arithmetic (`ff.h` lines 252-306) -/

/-- First loop of `ff_mod`: `while (ff_cmp(&shifted_mod, &temp) <= 0 && shift < FF_SIZE - 1)`.
The first argument is `FF_SIZE - 1 - shift`, so it is 0 exactly when the guard
`shift < FF_SIZE - 1` fails. -/
def ff_mod_align (temp : ff_t) : Nat → ff_t → Int → ff_t × Int
  | 0, shifted_mod, shift => (shifted_mod, shift)
  | k + 1, shifted_mod, shift =>
    if ff_cmp shifted_mod temp ≤ 0 then
      ff_mod_align temp k (ff_shl shifted_mod 1) (shift + 1)
    else (shifted_mod, shift)

/-- Second loop of `ff_mod`: `while (shift >= 0)`; the first argument is
`shift + 1`, the number of iterations left. -/
def ff_mod_reduce : Nat → ff_t → ff_t → ff_t
  | 0, temp, _ => temp
  | k + 1, temp, shifted_mod =>
    let temp := if ff_cmp temp shifted_mod ≥ 0 then ff_sub temp shifted_mod else temp
    ff_mod_reduce k temp (ff_shr shifted_mod 1)

/-- Source function `ff_mod`: shift-and-subtract reduction of `a` by `modulus`. -/
def ff_mod (a modulus : ff_t) : ff_t :=
  if ff_cmp a modulus < 0 then a
  else
    let temp := a
    let aligned := ff_mod_align temp (FF_SIZE - 1) modulus 0
    let shifted_mod := ff_shr aligned.1 1
    let shift := aligned.2 - 1
    ff_mod_reduce (shift + 1).toNat temp shifted_mod

/-- Source function `ff_mod_add`: `ff_add`, then `ff_mod`. -/
def ff_mod_add (a b modulus : ff_t) : ff_t := ff_mod (ff_add a b) modulus

/-- Source function `ff_mod_sub`: `ff_sub`, then `ff_mod`. -/
def ff_mod_sub (a b modulus : ff_t) : ff_t := ff_mod (ff_sub a b) modulus

/-- Source function `ff_mod_mul`: `ff_mul`, then `ff_mod`. -/
def ff_mod_mul (a b modulus : ff_t) : ff_t := ff_mod (ff_mul a b) modulus

/-! ## Division with remainder (`ff.h` lines 335-379) -/

/-- The statement `quotient->words[shift / 32] |= 1U << (shift % 32)`. -/
def ff_set_bit (quotient : ff_t) (shift : Nat) : ff_t :=
  quotient.set (shift / 32) (word quotient (shift / 32) ||| ((1 <<< (shift % 32)) % 2 ^ 32))

/-- Main loop of `ff_div`: `while (shift >= 0)`; the first argument is
`shift + 1`, so the pattern variable is the loop's `shift`. -/
def ff_div_loop : Nat → ff_t → ff_t → ff_t → ff_t × ff_t
  | 0, quotient, remainder, _ => (quotient, remainder)
  | shift + 1, quotient, remainder, shifted_divisor =>
    if ff_cmp remainder shifted_divisor ≥ 0 then
      ff_div_loop shift (ff_set_bit quotient shift) (ff_sub remainder shifted_divisor)
        (ff_shr shifted_divisor 1)
    else
      ff_div_loop shift quotient remainder (ff_shr shifted_divisor 1)

/-- Source function `ff_div`: returns `(quotient, remainder)`. -/
def ff_div (dividend divisor : ff_t) : ff_t × ff_t :=
  if ff_is_zero divisor then
    (List.replicate FF_WORDS 0xFFFFFFFF, List.replicate FF_WORDS 0xFFFFFFFF)
  else if ff_cmp dividend divisor < 0 then (ff_zero, dividend)
  else
    let remainder := dividend
    let quotient := ff_zero
    let shift : Int := (ff_clz divisor : Int) - (ff_clz remainder : Int)
    let shifted_divisor := ff_shl divisor shift
    ff_div_loop (shift + 1).toNat quotient remainder shifted_divisor

/-! ## Curve constants and modular inverse (`ec.h` lines 17-98) -/

/-- The curve prime `p`. -/
def p : ff_t :=
  [0xffffffff, 0xffffffff, 0xffffffff, 0x00000000, 0x00000000, 0x00000000, 0x00000001, 0xffffffff]

/-- The curve coefficient `a`. -/
def a : ff_t :=
  [0xfffffffc, 0xffffffff, 0xffffffff, 0x00000000, 0x00000000, 0x00000000, 0x00000001, 0xffffffff]

/-- The curve coefficient `b`. -/
def b : ff_t :=
  [0x27d2604b, 0x3bce3c3e, 0xcc53b0f6, 0x651d06b0, 0x769886bc, 0xb3ebbd55, 0xaa3a93e7, 0x5ac635d8]

/-- The generator's x coordinate. -/
def gx : ff_t :=
  [0xd898c296, 0xf4a13945, 0x2deb33a0, 0x77037d81, 0x63a440f2, 0xf8bce6e5, 0xe12c4247, 0x6b17d1f2]

/-- The generator's y coordinate. -/
def gy : ff_t :=
  [0x37bf51f5, 0xcbb64068, 0x6b315ece, 0x2bce3357, 0x7c0f9e16, 0x8ee7eb4a, 0xfe1a7f9b, 0x4fe342e2]

/-- The generator order `n`. -/
def n : ff_t :=
  [0xfc632551, 0xf3b9cac2, 0xa7179e84, 0xbce6faad, 0xffffffff, 0xffffffff, 0x00000000, 0xffffffff]

/-- State of the extended Euclid loop of `ff_mod_inv`. -/
structure InvState where
  r : ff_t
  old_r : ff_t
  s : ff_t
  old_s : ff_t
  t : ff_t
  old_t : ff_t
deriving DecidableEq, Repr

/-- One iteration of the body of `while (!ff_is_zero(&r))`. -/
def ff_mod_inv_step (st : InvState) : InvState :=
  let temp_r := st.r
  let temp_s := st.s
  let temp_t := st.t
  let qr := ff_div st.old_r st.r
  let quotient := qr.1
  let remainder := qr.2
  let s := ff_sub st.old_s (ff_mul quotient st.s)
  let t := ff_sub st.old_t (ff_mul quotient st.t)
  { r := remainder, old_r := temp_r, s := s, old_s := temp_s, t := t, old_t := temp_t }

/-- The loop `while (!ff_is_zero(&r))`; `none` when the fuel runs out first. -/
def ff_mod_inv_euclid : Nat → InvState → Option InvState
  | 0, st => if ff_is_zero st.r then some st else none
  | fuel + 1, st =>
    if ff_is_zero st.r then some st else ff_mod_inv_euclid fuel (ff_mod_inv_step st)

/-- The loop `while (ff_is_negative(&old_s)) ff_add(&old_s, &old_s, &p)`. -/
def ff_mod_inv_lift : Nat → ff_t → Option ff_t
  | 0, old_s => if ff_is_negative old_s ≠ 0 then none else some old_s
  | fuel + 1, old_s =>
    if ff_is_negative old_s ≠ 0 then ff_mod_inv_lift fuel (ff_add old_s p) else some old_s

/-- The loop `while (ff_cmp(&old_s, &p) >= 0) ff_sub(&old_s, &old_s, &p)`. -/
def ff_mod_inv_lower : Nat → ff_t → Option ff_t
  | 0, old_s => if ff_cmp old_s p ≥ 0 then none else some old_s
  | fuel + 1, old_s =>
    if ff_cmp old_s p ≥ 0 then ff_mod_inv_lower fuel (ff_sub old_s p) else some old_s

/-- Source function `ff_mod_inv`: extended Euclid modulo `p`.  Each of the three `while` loops
may run `fuel` times; `none` means a loop did not finish within the fuel. -/
def ff_mod_inv (fuel : Nat) (x : ff_t) : Option ff_t :=
  if ff_is_zero x then some ff_zero
  else
    let reduced_a := ff_mod x p
    let init : InvState :=
      { r := p, old_r := reduced_a, s := ff_from_u32 0, old_s := ff_from_u32 1,
        t := ff_from_u32 1, old_t := ff_from_u32 0 }
    match ff_mod_inv_euclid fuel init with
    | none => none
    | some st =>
      match ff_mod_inv_lift fuel st.old_s with
      | none => none
      | some old_s =>
        match ff_mod_inv_lower fuel old_s with
        | none => none
        | some old_s =>
          let temp := ff_mod (ff_mul reduced_a old_s) p
          let one := ff_from_u32 1
          if !ff_eq temp one then some ff_zero else some old_s

/-! ## Curve points (`ec.h` lines 7-12, 100-177) -/

/-- The struct `ECPoint`. -/
structure ECPoint where
  x : ff_t
  y : ff_t
  is_infinity : Int
deriving DecidableEq, Repr

/-- The generator point `g`. -/
def g : ECPoint := { x := gx, y := gy, is_infinity := 0 }

/-- Source function `ec_init_point`. -/
def ec_init_point (x y : ff_t) : ECPoint := { x := x, y := y, is_infinity := 0 }

/-- Source function `ec_set_infinity`. -/
def ec_set_infinity : ECPoint := { x := ff_zero, y := ff_zero, is_infinity := 1 }

/-- Slope of the doubling branch of `ec_add`: `(3x^2 + a) / (2y)`. -/
def ec_add_slope_double (fuel : Nat) (P1 : ECPoint) : Option ff_t :=
  let temp := ff_mul P1.x P1.x
  let temp := ff_mod temp p
  let num := ff_from_u32 3
  let num := ff_mod_mul num temp p
  let num := ff_mod_add num a p
  let denom := ff_from_u32 2
  let denom := ff_mod_mul denom P1.y p
  match ff_mod_inv fuel denom with
  | none => none
  | some temp => some (ff_mod_mul num temp p)

/-- Slope of the general branch of `ec_add`: `(y2 - y1) / (x2 - x1)`. -/
def ec_add_slope_add (fuel : Nat) (P1 P2 : ECPoint) : Option ff_t :=
  let num := ff_sub P2.y P1.y
  let denom := ff_sub P2.x P1.x
  match ff_mod_inv fuel denom with
  | none => none
  | some temp => some (ff_mod_mul num temp p)

/-- Source function `ec_add`; `none` when a loop of `ff_mod_inv` did not finish within `fuel`. -/
def ec_add (fuel : Nat) (P1 P2 : ECPoint) : Option ECPoint :=
  if P1.is_infinity ≠ 0 then some P2
  else if P2.is_infinity ≠ 0 then some P1
  else
    let neg_y := ff_sub p P2.y
    if ff_eq P1.x P2.x && ff_eq P1.y neg_y then some ec_set_infinity
    else
      let slope :=
        if ff_eq P1.x P2.x && ff_eq P1.y P2.y then ec_add_slope_double fuel P1
        else ec_add_slope_add fuel P1 P2
      match slope with
      | none => none
      | some m =>
        let x3 := ff_mod_mul m m p
        let x3 := ff_mod_sub x3 P1.x p
        let x3 := ff_mod_sub x3 P2.x p
        let temp := ff_sub P1.x x3
        let y3 := ff_mod_mul m temp p
        let y3 := ff_mod_sub y3 P1.y p
        some { x := x3, y := y3, is_infinity := 0 }

/-! ## Auxiliary recursions used in the proofs about the shifts -/

/-- Limbs `word_shift + 1 ..` of a left shift by `bit_shift` bits, as a recursion:
each limb joins the low bits of a word with the high bits of the word below it. -/
def shl_pairs (bit_shift : Nat) : Nat → List Nat → List Nat
  | _, [] => []
  | prev, w :: ws =>
    (((w <<< bit_shift) % 2 ^ 32) ||| (prev >>> (32 - bit_shift))) :: shl_pairs bit_shift w ws

/-- Limbs of a right shift by `bit_shift` bits, as a recursion: each limb joins
the high bits of a word with the low bits of the word above it. -/
def shr_pairs (bit_shift : Nat) : List Nat → List Nat
  | [] => []
  | [w] => [w >>> bit_shift]
  | w :: v :: ws =>
    ((w >>> bit_shift) ||| ((v <<< (32 - bit_shift)) % 2 ^ 32)) :: shr_pairs bit_shift (v :: ws)

/-! ## Scalar multiplication (`ec.h` lines 179-198) -/

/-- Body of the loop of `ec_scalar_mul` for bit `i`: double `R`, then add
`temp` when bit `i` of `k` is set.  The in-place calls `ec_add(&R, &R, ...)` read
their arguments before the result is written. -/
def ec_scalar_mul_step (fuel : Nat) (temp : ECPoint) (k : ff_t) (i : Nat) (R : ECPoint) :
    Option ECPoint :=
  let word_idx := i / 32
  let bit_idx := i % 32
  match ec_add fuel R R with
  | none => none
  | some R =>
    if (word k word_idx >>> bit_idx) &&& 1 ≠ 0 then ec_add fuel R temp else some R

/-- The loop `for (int i = 0; i < FF_SIZE; i++)` of `ec_scalar_mul`; the first
argument is the number of iterations left. -/
def ec_scalar_mul_loop (fuel : Nat) (temp : ECPoint) (k : ff_t) :
    Nat → Nat → ECPoint → Option ECPoint
  | 0, _, R => some R
  | cnt + 1, i, R =>
    match ec_scalar_mul_step fuel temp k i R with
    | none => none
    | some R => ec_scalar_mul_loop fuel temp k cnt (i + 1) R

/-- Source function `ec_scalar_mul`; `none` when a loop of `ff_mod_inv` did not
finish within `fuel`. -/
def ec_scalar_mul (fuel : Nat) (P : ECPoint) (k : ff_t) : Option ECPoint :=
  ec_scalar_mul_loop fuel P k FF_SIZE 0 ec_set_infinity

/-! ## Hex codec (`ff.h` lines 153-202)

A C string or byte buffer is a list of byte values. -/

/-- The bytes of a string literal. -/
def c_string (s : String) : List Nat := s.toList.map Char.toNat

/-- The conversion `v < 10 ? v + '0' : v - 10 + 'a'` of `ff_to_hex`, as a `uint8_t`. -/
def ff_to_hex_char (v : Nat) : Nat := (if v < 10 then v + 48 else v - 10 + 97) % 256

/-- Inner loop body of `ff_to_hex`: the two characters of byte `j` of the word. -/
def ff_to_hex_byte (w j : Nat) : List Nat :=
  let byte := (w >>> (j * 8)) &&& 0xFF
  let high := byte >>> 4
  let low := byte &&& 0xF
  [ff_to_hex_char high, ff_to_hex_char low]

/-- Inner loop of `ff_to_hex`, `j` from 3 down to 0. -/
def ff_to_hex_word (w : Nat) : List Nat :=
  ff_to_hex_byte w 3 ++ ff_to_hex_byte w 2 ++ ff_to_hex_byte w 1 ++ ff_to_hex_byte w 0

/-- Outer loop of `ff_to_hex`, `i` from `k - 1` down to 0. -/
def ff_to_hex_loop (a : ff_t) : Nat → List Nat
  | 0 => []
  | i + 1 => ff_to_hex_word (word a i) ++ ff_to_hex_loop a i

/-- Source function `ff_to_hex`: the 64 bytes written to `buffer`.  The position
`(FF_LAST_WORD - i) * 8 + (3 - j) * 2` grows by 2 with every inner iteration, so
the buffer is the characters in the order the loops write them. -/
def ff_to_hex (a : ff_t) : List Nat := ff_to_hex_loop a FF_WORDS

/-- The `if`/`else if` chain of `ff_from_hex` on one character: the nibble
value, or `none` where the source does `continue`. -/
def ff_from_hex_digit (c : Nat) : Option Nat :=
  if c ≥ 48 ∧ c ≤ 57 then some (c - 48)
  else if c ≥ 97 ∧ c ≤ 102 then some (c - 97 + 10)
  else if c ≥ 65 ∧ c ≤ 70 then some (c - 65 + 10)
  else none

/-- The loop of `ff_from_hex` over the characters from `hex[len - 1]` down to
`hex[0]` (the list is the string reversed).  A write to `result->words[word_idx]`
with `word_idx >= FF_WORDS` is outside the array: `none`. -/
def ff_from_hex_loop : List Nat → ff_t → Nat → Nat → Option ff_t
  | [], result, _, _ => some result
  | c :: rest, result, word_idx, shift =>
    match ff_from_hex_digit c with
    | none => ff_from_hex_loop rest result word_idx shift
    | some val =>
      if word_idx < FF_WORDS then
        let result := result.set word_idx (word result word_idx ||| ((val <<< shift) % 2 ^ 32))
        if shift + 4 = 32 then ff_from_hex_loop rest result (word_idx + 1) 0
        else ff_from_hex_loop rest result word_idx (shift + 4)
      else none

/-- Source function `ff_from_hex`: `len` is the number of bytes before the
first NUL. -/
def ff_from_hex (hex : List Nat) : Option ff_t :=
  let len := (hex.takeWhile fun c => c ≠ 0).length
  ff_from_hex_loop (hex.take len).reverse ff_zero 0 0

/-- Source function `ff_equals_hex`. -/
def ff_equals_hex (a : ff_t) (hex : List Nat) : Option Bool :=
  match ff_from_hex hex with
  | none => none
  | some expected => some (ff_eq a expected)

/-! ## Specification-side definitions -/

/-- Value of a hex-digit character, `none` for any other character. -/
def hex_digit_value (c : Nat) : Option Nat :=
  if 48 ≤ c ∧ c ≤ 57 then some (c - 48)
  else if 97 ≤ c ∧ c ≤ 102 then some (10 + (c - 97))
  else if 65 ≤ c ∧ c ≤ 70 then some (10 + (c - 65))
  else none

/-- The integer whose base-16 digits are the hex-digit characters of the string
in order, most significant first; other characters are ignored. -/
def hex_string_value (s : List Nat) : Nat :=
  s.foldl (fun acc c => match hex_digit_value c with
    | some d => 16 * acc + d
    | none => acc) 0

/-- A lowercase hex character: `0`-`9` or `a`-`f`. -/
def is_lower_hex (c : Nat) : Prop := (48 ≤ c ∧ c ≤ 57) ∨ (97 ≤ c ∧ c ≤ 102)

instance (c : Nat) : Decidable (is_lower_hex c) := by
  unfold is_lower_hex; exact inferInstance

/-- Value of a list of base-16 digits, least significant first. -/
def lsb_value : List Nat → Nat
  | [] => 0
  | d :: ds => d + 16 * lsb_value ds

/-- The `k` low base-16 digits of `v`, least significant first. -/
def nibbles_le : Nat → Nat → List Nat
  | _, 0 => []
  | v, k + 1 => v % 16 :: nibbles_le (v / 16) k

/-- Value-level mirror of the alignment loop of `ff_mod`. -/
def nat_mod_align (temp : Nat) : Nat → Nat → Nat → Nat × Nat
  | 0, sm, shift => (sm, shift)
  | k + 1, sm, shift =>
    if sm ≤ temp then nat_mod_align temp k (sm * 2 % 2 ^ 256) (shift + 1) else (sm, shift)

/-- Value-level mirror of the subtraction loop of `ff_mod`. -/
def nat_mod_reduce : Nat → Nat → Nat → Nat
  | 0, temp, _ => temp
  | k + 1, temp, sm => nat_mod_reduce k (if sm ≤ temp then temp - sm else temp) (sm / 2)

/-- Value-level mirror of `ff_mod`. -/
def nat_mod (x m : Nat) : Nat :=
  if x < m then x
  else nat_mod_reduce (nat_mod_align x 255 m 0).2 x ((nat_mod_align x 255 m 0).1 / 2)

/-- Value-level mirror of `ff_sub`: wrap-around subtraction modulo `2^256`. -/
def nat_sub (x y : Nat) : Nat := (x + 2 ^ 256 - y) % 2 ^ 256

/-- Value-level mirror of `ff_mod_add`. -/
def nat_mod_add (x y m : Nat) : Nat := nat_mod ((x + y) % 2 ^ 256) m

/-- Value-level mirror of `ff_mod_sub`. -/
def nat_mod_sub (x y m : Nat) : Nat := nat_mod (nat_sub x y) m

/-- Value-level mirror of `ff_mod_mul`. -/
def nat_mod_mul (x y m : Nat) : Nat := nat_mod (x * y % 2 ^ 256) m

/-- Value-level mirror of the Euclid loop of `ff_mod_inv` on `r`, `old_r`, `s`,
`old_s` (the coefficients `t`, `old_t` do not reach the result); returns `old_s`. -/
def nat_inv_euclid : Nat → Nat → Nat → Nat → Nat → Option Nat
  | 0, r, _, _, old_s => if r = 0 then some old_s else none
  | fuel + 1, r, old_r, s, old_s =>
    if r = 0 then some old_s
    else nat_inv_euclid fuel (old_r % r) r (nat_sub old_s (old_r / r * s % 2 ^ 256)) s

/-- Value-level closed form of the loop `while (ff_is_negative(&old_s))` of
`ff_mod_inv`: adding `p` modulo `2^256` subtracts `2^256 - p`, and the loop
runs until the value is below `2^255`. -/
def nat_inv_lift (fuel v : Nat) : Option Nat :=
  if v < 2 ^ 255 then some v
  else
    if (v - 2 ^ 255) / (2 ^ 256 - ff_val p) + 1 ≤ fuel then
      some (v - ((v - 2 ^ 255) / (2 ^ 256 - ff_val p) + 1) * (2 ^ 256 - ff_val p))
    else none

/-- Value-level mirror of `ff_mod_inv` (the loop `while (ff_cmp(&old_s, &p) >= 0)`
never runs, its input being below `2^255`). -/
def nat_mod_inv (fuel x : Nat) : Option Nat :=
  if x = 0 then some 0
  else
    match nat_inv_euclid fuel (ff_val p) (nat_mod x (ff_val p)) 0 1 with
    | none => none
    | some old_s =>
      match nat_inv_lift fuel old_s with
      | none => none
      | some old_s =>
        if nat_mod (nat_mod x (ff_val p) * old_s % 2 ^ 256) (ff_val p) = 1 then some old_s
        else some 0

/-- Value-level point: the values of `x` and `y`, and the flag. -/
structure NatPoint where
  x : Nat
  y : Nat
  is_infinity : Int
deriving DecidableEq, Repr

/-- The value-level point of an `ECPoint`. -/
def point_val (P : ECPoint) : NatPoint :=
  { x := ff_val P.x, y := ff_val P.y, is_infinity := P.is_infinity }

/-- Both coordinates of the point are well-formed `ff_t`. -/
def point_wf (P : ECPoint) : Prop := ff_wf P.x ∧ ff_wf P.y

instance (P : ECPoint) : Decidable (point_wf P) := by
  unfold point_wf; exact inferInstance

/-- Value-level mirror of `ec_add_slope_double`. -/
def nat_slope_double (fuel : Nat) (P1 : NatPoint) : Option Nat :=
  match nat_mod_inv fuel (nat_mod_mul 2 P1.y (ff_val p)) with
  | none => none
  | some temp =>
    some (nat_mod_mul
      (nat_mod_add (nat_mod_mul 3 (nat_mod (P1.x * P1.x % 2 ^ 256) (ff_val p)) (ff_val p))
        (ff_val a) (ff_val p))
      temp (ff_val p))

/-- Value-level mirror of `ec_add_slope_add`. -/
def nat_slope_add (fuel : Nat) (P1 P2 : NatPoint) : Option Nat :=
  match nat_mod_inv fuel (nat_sub P2.x P1.x) with
  | none => none
  | some temp => some (nat_mod_mul (nat_sub P2.y P1.y) temp (ff_val p))

/-- Value-level mirror of `ec_add`. -/
def nat_ec_add (fuel : Nat) (P1 P2 : NatPoint) : Option NatPoint :=
  if P1.is_infinity ≠ 0 then some P2
  else if P2.is_infinity ≠ 0 then some P1
  else
    if (P1.x == P2.x) && (P1.y == nat_sub (ff_val p) P2.y) then
      some { x := 0, y := 0, is_infinity := 1 }
    else
      let slope :=
        if (P1.x == P2.x) && (P1.y == P2.y) then nat_slope_double fuel P1
        else nat_slope_add fuel P1 P2
      match slope with
      | none => none
      | some m =>
        some { x := nat_mod_sub (nat_mod_sub (nat_mod_mul m m (ff_val p)) P1.x (ff_val p))
                 P2.x (ff_val p),
               y := nat_mod_sub
                 (nat_mod_mul m
                   (nat_sub P1.x
                     (nat_mod_sub (nat_mod_sub (nat_mod_mul m m (ff_val p)) P1.x (ff_val p))
                       P2.x (ff_val p)))
                   (ff_val p))
                 P1.y (ff_val p),
               is_infinity := 0 }

/-- Value-level mirror of `ec_scalar_mul_step`. -/
def nat_scalar_mul_step (fuel : Nat) (temp : NatPoint) (k : ff_t) (i : Nat) (R : NatPoint) :
    Option NatPoint :=
  match nat_ec_add fuel R R with
  | none => none
  | some R =>
    if (word k (i / 32) >>> (i % 32)) &&& 1 ≠ 0 then nat_ec_add fuel R temp else some R

/-- Value-level mirror of `ec_scalar_mul_loop`. -/
def nat_scalar_mul_loop (fuel : Nat) (temp : NatPoint) (k : ff_t) :
    Nat → Nat → NatPoint → Option NatPoint
  | 0, _, R => some R
  | cnt + 1, i, R =>
    match nat_scalar_mul_step fuel temp k i R with
    | none => none
    | some R => nat_scalar_mul_loop fuel temp k cnt (i + 1) R

/-- Value-level mirror of `ec_scalar_mul`. -/
def nat_scalar_mul (fuel : Nat) (P : NatPoint) (k : ff_t) : Option NatPoint :=
  nat_scalar_mul_loop fuel P k 256 0 { x := 0, y := 0, is_infinity := 1 }

/-! ## Modular exponentiation (`ff.h` lines 308-333) -/

/-- Innermost loop of `ff_mod_pow`: `for (int k = 0; k < 4; k++)`, each pass
`ff_mod_mul(&temp, &temp, &temp, modulus)`; the first argument is the number of
passes left. -/
def ff_mod_pow_square (modulus : ff_t) : Nat → ff_t → ff_t
  | 0, temp => temp
  | k + 1, temp => ff_mod_pow_square modulus k (ff_mod_mul temp temp modulus)

/-- Body of the loop over `j` in `ff_mod_pow`: four squarings, then
`window = (word >> j) & 0xF` and, when it is non-zero, one multiplication by
`base_copy`. -/
def ff_mod_pow_window (base_copy modulus : ff_t) (w j : Nat) (temp : ff_t) : ff_t :=
  let temp := ff_mod_pow_square modulus 4 temp
  let window := (w >>> j) &&& 0xF
  if window ≠ 0 then ff_mod_mul temp base_copy modulus else temp

/-- The loop `for (int j = 28; j >= 0; j -= 4)` of `ff_mod_pow`; the first
argument is `j / 4 + 1`, the number of windows left in the word. -/
def ff_mod_pow_word (base_copy modulus : ff_t) (w : Nat) : Nat → ff_t → ff_t
  | 0, temp => temp
  | c + 1, temp =>
    ff_mod_pow_word base_copy modulus w c (ff_mod_pow_window base_copy modulus w (4 * c) temp)

/-- The loop `for (int i = FF_LAST_WORD; i >= 0; i--)` of `ff_mod_pow`; the
first argument is `i + 1`. -/
def ff_mod_pow_loop (base_copy exp modulus : ff_t) : Nat → ff_t → ff_t
  | 0, temp => temp
  | i + 1, temp =>
    ff_mod_pow_loop base_copy exp modulus i (ff_mod_pow_word base_copy modulus (word exp i) 8 temp)

/-- Source function `ff_mod_pow`. -/
def ff_mod_pow (base exp modulus : ff_t) : ff_t :=
  ff_mod_pow_loop base exp modulus FF_WORDS (ff_from_u32 1)

/-! ## PRNG and random scalar (`prng.h` lines 14-38, `ec.h` lines 200-206) -/

/-- The generator state `static uint32_t s[4]`. -/
structure RandState where
  s0 : Nat
  s1 : Nat
  s2 : Nat
  s3 : Nat
deriving DecidableEq, Repr

/-- Source function `rotl`: `(x << k) | (x >> (32 - k))` on `uint32_t`. -/
def rotl (x k : Nat) : Nat := ((x <<< k) % 2 ^ 32) ||| (x >>> (32 - k))

/-- Source function `nextRand`: the returned word and the updated state. -/
def nextRand (s : RandState) : Nat × RandState :=
  let result := (s.s0 + s.s3) % 2 ^ 32
  let t := (s.s1 <<< 9) % 2 ^ 32
  let s2 := s.s2 ^^^ s.s0
  let s3 := s.s3 ^^^ s.s1
  let s1 := s.s1 ^^^ s2
  let s0 := s.s0 ^^^ s3
  let s2 := s2 ^^^ t
  let s3 := rotl s3 11
  (result, { s0 := s0, s1 := s1, s2 := s2, s3 := s3 })

/-- The loop of `ec_init_random_k`: `temp.words[i] = nextRand()` for ascending
`i`; the first argument is the number of limbs still to draw. -/
def ec_init_random_k_loop : Nat → RandState → List Nat × RandState
  | 0, s => ([], s)
  | cnt + 1, s =>
    let r := nextRand s
    let rest := ec_init_random_k_loop cnt r.2
    (r.1 :: rest.1, rest.2)

/-- Source function `ec_init_random_k`: eight words from the generator, reduced
by `ff_mod` with the group order `n`; returns the scalar and the new state. -/
def ec_init_random_k (s : RandState) : ff_t × RandState :=
  let temp := ec_init_random_k_loop FF_WORDS s
  (ff_mod temp.1 n, temp.2)

/-! ## Repeated doubling (specification side) -/

/-- The point `R` doubled `cnt` times with `ec_add R R`. -/
def ec_double_times (fuel : Nat) : Nat → ECPoint → Option ECPoint
  | 0, R => some R
  | cnt + 1, R =>
    match ec_add fuel R R with
    | none => none
    | some R => ec_double_times fuel cnt R

/-! ## The exponent applied by `ff_mod_pow` (specification side) -/

/-- What one window of `ff_mod_pow` adds to the exponent: 1 when the window
`(w >> j) & 0xF` is non-zero, whatever its value, and 0 otherwise. -/
def ff_mod_pow_window_exp (w j : Nat) : Nat := if (w >>> j) &&& 0xF ≠ 0 then 1 else 0

/-- The exponent after the windows `c - 1, ..., 0` of the word `w`, from `E`. -/
def ff_mod_pow_word_exp (w : Nat) : Nat → Nat → Nat
  | 0, E => E
  | c + 1, E => ff_mod_pow_word_exp w c (16 * E + ff_mod_pow_window_exp w (4 * c))

/-- The exponent after the words `i - 1, ..., 0` of `exp`, from `E`. -/
def ff_mod_pow_loop_exp (exp : ff_t) : Nat → Nat → Nat
  | 0, E => E
  | i + 1, E => ff_mod_pow_loop_exp exp i (ff_mod_pow_word_exp (word exp i) 8 E)

/-- The exponent `ff_mod_pow` raises the base to: `exp` with every non-zero
hex digit replaced by 1. -/
def ff_mod_pow_exp (exp : ff_t) : Nat := ff_mod_pow_loop_exp exp FF_WORDS 0

/-! ## Limb lists and their values -/

theorem limbs_ok_nil : limbs_ok [] := by
  intro x hx; cases hx

theorem limbs_ok_cons {x : Nat} {l : List Nat} :
    limbs_ok (x :: l) ↔ x < 2 ^ 32 ∧ limbs_ok l := by
  simp [limbs_ok]

theorem ff_wf_iff (l : ff_t) : ff_wf l ↔ l.length = 8 ∧ limbs_ok l := Iff.rfl

theorem ff_val_lt : ∀ l : List Nat, limbs_ok l → ff_val l < 2 ^ (32 * l.length)
  | [], _ => by simp [ff_val]
  | x :: l, h => by
    have hx := (limbs_ok_cons.1 h).1
    have ih := ff_val_lt l (limbs_ok_cons.1 h).2
    have e : (2:Nat) ^ (32 * (x :: l).length) = 2 ^ 32 * 2 ^ (32 * l.length) := by
      rw [List.length_cons, Nat.mul_succ, Nat.pow_add, Nat.mul_comm]
    rw [e, ff_val]
    nlinarith

theorem ff_val_lt_of_wf {l : ff_t} (h : ff_wf l) : ff_val l < 2 ^ 256 := by
  have := ff_val_lt l h.2
  rw [h.1] at this
  exact this

theorem ff_val_inj : ∀ l₁ l₂ : List Nat, l₁.length = l₂.length → limbs_ok l₁ → limbs_ok l₂ →
    ff_val l₁ = ff_val l₂ → l₁ = l₂
  | [], [], _, _, _, _ => rfl
  | [], _ :: _, h, _, _, _ => by simp at h
  | _ :: _, [], h, _, _, _ => by simp at h
  | x :: l₁, y :: l₂, hl, h₁, h₂, hv => by
    have hx := (limbs_ok_cons.1 h₁).1
    have hy := (limbs_ok_cons.1 h₂).1
    simp only [ff_val] at hv
    have hxy : x = y := by omega
    have hv2 : ff_val l₁ = ff_val l₂ := by omega
    have := ff_val_inj l₁ l₂ (by simpa using hl) (limbs_ok_cons.1 h₁).2 (limbs_ok_cons.1 h₂).2 hv2
    rw [hxy, this]

theorem ff_val_inj_of_wf {x y : ff_t} (hx : ff_wf x) (hy : ff_wf y)
    (h : ff_val x = ff_val y) : x = y :=
  ff_val_inj x y (hx.1.trans hy.1.symm) hx.2 hy.2 h

theorem ff_val_replicate_zero (k : Nat) : ff_val (List.replicate k 0) = 0 := by
  induction k with
  | zero => rfl
  | succ k ih => simp [List.replicate_succ, ff_val, ih]

theorem ff_val_zero : ff_val ff_zero = 0 := ff_val_replicate_zero _

theorem ff_wf_zero : ff_wf ff_zero := by decide

theorem ff_wf_from_u32 (v : Nat) : ff_wf (ff_from_u32 v) := by
  refine ⟨by simp [ff_from_u32, FF_WORDS, FF_SIZE], ?_⟩
  intro x hx
  simp only [ff_from_u32, List.mem_cons, List.mem_replicate] at hx
  rcases hx with rfl | ⟨_, rfl⟩
  · exact Nat.mod_lt _ (by norm_num)
  · norm_num

theorem ff_val_from_u32 (v : Nat) : ff_val (ff_from_u32 v) = v % 2 ^ 32 := by
  simp [ff_from_u32, ff_val, ff_val_replicate_zero]

/-! ## Addition -/

/-- The carry predicate is the carry out of the limb, for both incoming carries. -/
theorem ff_add_carry_eq (ai bi carry : Nat) (ha : ai < 2 ^ 32) (hb : bi < 2 ^ 32)
    (hc : carry ≤ 1) :
    ff_add_carry ai bi ((ai + bi + carry) % 2 ^ 32) = (ai + bi + carry) / 2 ^ 32 := by
  unfold ff_add_carry
  split <;> omega

theorem ff_add_loop_spec : ∀ (x y : List Nat) (c : Nat), x.length = y.length →
    limbs_ok x → limbs_ok y → c ≤ 1 →
    (ff_add_loop x y c).length = x.length ∧ limbs_ok (ff_add_loop x y c) ∧
    ∃ cout, cout ≤ 1 ∧
      ff_val (ff_add_loop x y c) + 2 ^ (32 * x.length) * cout = ff_val x + ff_val y + c
  | [], [], c, _, _, _, hc => by
    refine ⟨rfl, limbs_ok_nil, c, hc, ?_⟩
    simp [ff_add_loop, ff_val]
  | [], _ :: _, _, h, _, _, _ => by simp at h
  | _ :: _, [], _, h, _, _, _ => by simp at h
  | ai :: x, bi :: y, c, hl, hx, hy, hc => by
    have hai := (limbs_ok_cons.1 hx).1
    have hbi := (limbs_ok_cons.1 hy).1
    have hcar := ff_add_carry_eq ai bi c hai hbi hc
    have hc' : ff_add_carry ai bi ((ai + bi + c) % 2 ^ 32) ≤ 1 := by rw [hcar]; omega
    obtain ⟨ihl, ihok, cout, hcout, ih⟩ :=
      ff_add_loop_spec x y (ff_add_carry ai bi ((ai + bi + c) % 2 ^ 32)) (by simpa using hl)
        (limbs_ok_cons.1 hx).2 (limbs_ok_cons.1 hy).2 hc'
    refine ⟨by simp only [ff_add_loop, List.length_cons, ihl], ?_, cout, hcout, ?_⟩
    · simp only [ff_add_loop]
      exact limbs_ok_cons.2 ⟨Nat.mod_lt _ (by norm_num), ihok⟩
    · have e : (2:Nat) ^ (32 * (ai :: x).length) = 2 ^ 32 * 2 ^ (32 * x.length) := by
        rw [List.length_cons, Nat.mul_succ, Nat.pow_add, Nat.mul_comm]
      simp only [ff_add_loop, ff_val]
      rw [e, hcar] at *
      have hm := Nat.div_add_mod (ai + bi + c) (2 ^ 32)
      nlinarith

theorem ff_add_wf {x y : ff_t} (hx : ff_wf x) (hy : ff_wf y) : ff_wf (ff_add x y) := by
  obtain ⟨hl, hok, _⟩ := ff_add_loop_spec x y 0 (hx.1.trans hy.1.symm) hx.2 hy.2 (by omega)
  exact ⟨hl.trans hx.1, hok⟩

theorem ff_add_val {x y : ff_t} (hx : ff_wf x) (hy : ff_wf y) :
    ff_val (ff_add x y) = (ff_val x + ff_val y) % 2 ^ 256 := by
  obtain ⟨hl, hok, cout, hcout, h⟩ :=
    ff_add_loop_spec x y 0 (hx.1.trans hy.1.symm) hx.2 hy.2 (by omega)
  have hlt := ff_val_lt_of_wf (ff_add_wf hx hy)
  rw [hx.1] at h
  unfold ff_add at *
  omega

/-! ## Subtraction -/

/-- The borrow predicate is the borrow out of the limb, for both incoming borrows. -/
theorem ff_sub_borrow_eq (ai bi borrow : Nat) (ha : ai < 2 ^ 32) (hb : bi < 2 ^ 32)
    (hc : borrow ≤ 1) :
    u32_sub (u32_sub ai bi) borrow + bi + borrow =
      ai + 2 ^ 32 * ff_sub_borrow ai bi (u32_sub (u32_sub ai bi) borrow) ∧
    ff_sub_borrow ai bi (u32_sub (u32_sub ai bi) borrow) ≤ 1 := by
  unfold ff_sub_borrow u32_sub
  split <;> omega

theorem ff_sub_loop_spec : ∀ (x y : List Nat) (c : Nat), x.length = y.length →
    limbs_ok x → limbs_ok y → c ≤ 1 →
    (ff_sub_loop x y c).length = x.length ∧ limbs_ok (ff_sub_loop x y c) ∧
    ∃ bout, bout ≤ 1 ∧
      ff_val (ff_sub_loop x y c) + ff_val y + c = ff_val x + 2 ^ (32 * x.length) * bout
  | [], [], c, _, _, _, hc => by
    refine ⟨rfl, limbs_ok_nil, c, hc, ?_⟩
    simp [ff_sub_loop, ff_val]
  | [], _ :: _, _, h, _, _, _ => by simp at h
  | _ :: _, [], _, h, _, _, _ => by simp at h
  | ai :: x, bi :: y, c, hl, hx, hy, hc => by
    have hai := (limbs_ok_cons.1 hx).1
    have hbi := (limbs_ok_cons.1 hy).1
    obtain ⟨hbor, hc'⟩ := ff_sub_borrow_eq ai bi c hai hbi hc
    obtain ⟨ihl, ihok, bout, hbout, ih⟩ :=
      ff_sub_loop_spec x y (ff_sub_borrow ai bi (u32_sub (u32_sub ai bi) c)) (by simpa using hl)
        (limbs_ok_cons.1 hx).2 (limbs_ok_cons.1 hy).2 hc'
    refine ⟨by simp only [ff_sub_loop, List.length_cons, ihl], ?_, bout, hbout, ?_⟩
    · simp only [ff_sub_loop]
      exact limbs_ok_cons.2 ⟨Nat.mod_lt _ (by norm_num), ihok⟩
    · have e : (2:Nat) ^ (32 * (ai :: x).length) = 2 ^ 32 * 2 ^ (32 * x.length) := by
        rw [List.length_cons, Nat.mul_succ, Nat.pow_add, Nat.mul_comm]
      simp only [ff_sub_loop, ff_val]
      rw [e]
      nlinarith

theorem ff_sub_wf {x y : ff_t} (hx : ff_wf x) (hy : ff_wf y) : ff_wf (ff_sub x y) := by
  obtain ⟨hl, hok, _⟩ := ff_sub_loop_spec x y 0 (hx.1.trans hy.1.symm) hx.2 hy.2 (by omega)
  exact ⟨hl.trans hx.1, hok⟩

theorem ff_sub_val {x y : ff_t} (hx : ff_wf x) (hy : ff_wf y) :
    ff_val (ff_sub x y) = (ff_val x + 2 ^ 256 - ff_val y) % 2 ^ 256 := by
  obtain ⟨hl, hok, bout, hbout, h⟩ :=
    ff_sub_loop_spec x y 0 (hx.1.trans hy.1.symm) hx.2 hy.2 (by omega)
  have hlt := ff_val_lt_of_wf (ff_sub_wf hx hy)
  have hy' := ff_val_lt_of_wf hy
  rw [hx.1] at h
  unfold ff_sub at *
  omega

theorem ff_sub_val_of_le {x y : ff_t} (hx : ff_wf x) (hy : ff_wf y) (h : ff_val y ≤ ff_val x) :
    ff_val (ff_sub x y) = ff_val x - ff_val y := by
  have := ff_sub_val hx hy
  have hx' := ff_val_lt_of_wf hx
  omega

theorem ff_sub_val_int (a b : Nat) (ha : a < 2 ^ 256) (hb : b < 2 ^ 256) :
    (((a + 2 ^ 256 - b) % 2 ^ 256 : Nat) : Int) = ((a : Int) - (b : Int)) % 2 ^ 256 := by
  have h1 : (2:Int) ^ 256 = ((2 ^ 256 : Nat) : Int) := by norm_num
  rw [h1]
  omega

/-! ## Claims C1 and C2 -/

/-- C1: for well-formed 256-bit values `x` and `y`, `ff_add x y` is the 256-bit
value `(x + y) mod 2^256`, and the per-limb carry predicate of the loop equals
the true carry out of the limb for both incoming carries 0 and 1. -/
theorem ff_add_correct (x y : ff_t) (hx : ff_wf x) (hy : ff_wf y) :
    ff_wf (ff_add x y) ∧ ff_val (ff_add x y) = (ff_val x + ff_val y) % 2 ^ 256 ∧
    ∀ ai bi carry : Nat, ai < 2 ^ 32 → bi < 2 ^ 32 → carry ≤ 1 →
      ff_add_carry ai bi ((ai + bi + carry) % 2 ^ 32) = (ai + bi + carry) / 2 ^ 32 :=
  ⟨ff_add_wf hx hy, ff_add_val hx hy, ff_add_carry_eq⟩

theorem ff_add_correct_witness :
    ff_wf (ff_of_nat 0xffffffff) ∧ ff_wf (ff_of_nat 1) ∧
    ff_add (ff_of_nat 0xffffffff) (ff_of_nat 1) = ff_of_nat 0x100000000 ∧
    ff_val (ff_add (ff_of_nat 0xffffffff) (ff_of_nat 1)) =
      (ff_val (ff_of_nat 0xffffffff) + ff_val (ff_of_nat 1)) % 2 ^ 256 :=
  ⟨by decide, by decide, by decide,
    (ff_add_correct (ff_of_nat 0xffffffff) (ff_of_nat 1) (by decide) (by decide)).2.1⟩

/-- C2: for well-formed 256-bit values `x` and `y`, `ff_sub x y` is the 256-bit
value `(x - y) mod 2^256` (two's-complement wraparound when `x < y`);
consequently `ff_sub x x = 0` and `ff_add x (ff_sub 0 x) = 0`. -/
theorem ff_sub_correct (x y : ff_t) (hx : ff_wf x) (hy : ff_wf y) :
    ff_wf (ff_sub x y) ∧
    (ff_val (ff_sub x y) : Int) = ((ff_val x : Int) - (ff_val y : Int)) % 2 ^ 256 ∧
    ff_sub x x = ff_zero ∧ ff_add x (ff_sub ff_zero x) = ff_zero := by
  have hxlt := ff_val_lt_of_wf hx
  have hylt := ff_val_lt_of_wf hy
  refine ⟨ff_sub_wf hx hy, ?_, ?_, ?_⟩
  · rw [ff_sub_val hx hy]
    exact ff_sub_val_int _ _ hxlt hylt
  · apply ff_val_inj_of_wf (ff_sub_wf hx hx) ff_wf_zero
    rw [ff_sub_val hx hx, ff_val_zero]
    omega
  · have hn := ff_sub_wf ff_wf_zero hx
    apply ff_val_inj_of_wf (ff_add_wf hx hn) ff_wf_zero
    rw [ff_add_val hx hn, ff_sub_val ff_wf_zero hx, ff_val_zero]
    omega

theorem ff_sub_correct_witness :
    ff_wf (ff_of_nat 5) ∧ ff_wf (ff_of_nat 8) ∧
    ff_sub (ff_of_nat 5) (ff_of_nat 8) = ff_of_nat (2 ^ 256 - 3) ∧
    (ff_val (ff_sub (ff_of_nat 5) (ff_of_nat 8)) : Int) =
      ((ff_val (ff_of_nat 5) : Int) - (ff_val (ff_of_nat 8) : Int)) % 2 ^ 256 :=
  ⟨by decide, by decide, by decide,
    (ff_sub_correct (ff_of_nat 5) (ff_of_nat 8) (by decide) (by decide)).2.1⟩

/-! ## Multiplication -/

/-- The 64-bit accumulator of `ff_mul` never overflows, and its high half fits
the `uint32_t` carry. -/
theorem ff_mul_product_lt (ai bj t carry : Nat) (ha : ai < 2 ^ 32) (hb : bj < 2 ^ 32)
    (ht : t < 2 ^ 32) (hc : carry < 2 ^ 32) :
    ai * bj + t + carry < 2 ^ 64 ∧ (ai * bj + t + carry) / 2 ^ 32 < 2 ^ 32 := by
  have h1 : ai * bj ≤ (2 ^ 32 - 1) * (2 ^ 32 - 1) :=
    Nat.mul_le_mul (by omega) (by omega)
  have h2 : ai * bj + t + carry < 2 ^ 64 := by
    norm_num at h1 ⊢
    omega
  refine ⟨h2, ?_⟩
  rw [Nat.div_lt_iff_lt_mul (by norm_num)]
  norm_num at h2 ⊢
  omega

theorem modEq_of_eq {m x y : Nat} (h : x = y) : x ≡ y [MOD m] := by
  rw [h]

theorem pow_limbs_succ (k : Nat) : (2:Nat) ^ (32 * (k + 1)) = 2 ^ 32 * 2 ^ (32 * k) := by
  rw [Nat.mul_succ, Nat.pow_add, Nat.mul_comm]

theorem ff_mul_row_spec (ai : Nat) (hai : ai < 2 ^ 32) : ∀ (y t : List Nat) (c : Nat),
    t.length ≤ y.length → limbs_ok y → limbs_ok t → c < 2 ^ 32 →
    (ff_mul_row ai y t c).length = t.length ∧ limbs_ok (ff_mul_row ai y t c) ∧
    ff_val (ff_mul_row ai y t c) ≡ ai * ff_val y + ff_val t + c [MOD 2 ^ (32 * t.length)]
  | _, [], c, _, _, _, _ => by
    have e : ∀ y, ff_mul_row ai y [] c = [] := by
      intro y; cases y <;> rfl
    rw [e]
    refine ⟨rfl, limbs_ok_nil, ?_⟩
    simp [Nat.modEq_one]
  | [], _ :: _, _, h, _, _, _ => by simp at h
  | bj :: y, t0 :: t, c, h, hy, ht, hc => by
    obtain ⟨hp1, hp2⟩ := ff_mul_product_lt ai bj t0 c hai (limbs_ok_cons.1 hy).1
      (limbs_ok_cons.1 ht).1 hc
    have e1 : (ai * bj + t0 + c) % 2 ^ 64 = ai * bj + t0 + c := Nat.mod_eq_of_lt hp1
    have e2 : (ai * bj + t0 + c) / 2 ^ 32 % 2 ^ 32 = (ai * bj + t0 + c) / 2 ^ 32 :=
      Nat.mod_eq_of_lt hp2
    have erow : ff_mul_row ai (bj :: y) (t0 :: t) c =
        ((ai * bj + t0 + c) % 2 ^ 32) :: ff_mul_row ai y t ((ai * bj + t0 + c) / 2 ^ 32) := by
      simp only [ff_mul_row]
      rw [e1, e2]
    obtain ⟨ihl, ihok, ih⟩ :=
      ff_mul_row_spec ai hai y t ((ai * bj + t0 + c) / 2 ^ 32) (by simpa using h)
        (limbs_ok_cons.1 hy).2 (limbs_ok_cons.1 ht).2 hp2
    rw [erow]
    refine ⟨by simp only [List.length_cons, ihl], ?_, ?_⟩
    · exact limbs_ok_cons.2 ⟨Nat.mod_lt _ (by norm_num), ihok⟩
    · simp only [ff_val, List.length_cons]
      rw [pow_limbs_succ]
      have h1 := Nat.ModEq.mul_left' (2 ^ 32) ih
      have h2 := Nat.ModEq.add_left ((ai * bj + t0 + c) % 2 ^ 32) h1
      refine h2.trans (modEq_of_eq ?_)
      have hm := Nat.mod_add_div (ai * bj + t0 + c) (2 ^ 32)
      generalize (ai * bj + t0 + c) % 2 ^ 32 = r at *
      generalize (ai * bj + t0 + c) / 2 ^ 32 = q at *
      have hr : r = ai * bj + t0 + c - 2 ^ 32 * q := by omega
      have hq : 2 ^ 32 * q ≤ ai * bj + t0 + c := by omega
      zify [hq] at hr ⊢
      rw [hr]
      ring

theorem ff_mul_loop_spec : ∀ (x y t : List Nat), x.length = t.length → t.length ≤ y.length →
    limbs_ok x → limbs_ok y → limbs_ok t →
    (ff_mul_loop x y t).length = t.length ∧ limbs_ok (ff_mul_loop x y t) ∧
    ff_val (ff_mul_loop x y t) ≡ ff_val x * ff_val y + ff_val t [MOD 2 ^ (32 * t.length)]
  | [], y, t, _, _, _, _, ht => by
    refine ⟨rfl, ht, ?_⟩
    simp [ff_mul_loop, ff_val, Nat.ModEq.refl]
  | ai :: x, y, t, hl, hle, hx, hy, ht => by
    obtain ⟨rl, rok, rv⟩ :=
      ff_mul_row_spec ai (limbs_ok_cons.1 hx).1 y t 0 hle hy ht (by norm_num)
    cases hrow : ff_mul_row ai y t 0 with
    | nil =>
      rw [hrow] at rl
      rw [← hl] at rl
      simp at rl
    | cons r rs =>
      rw [hrow] at rl rok rv
      have hlen : rs.length + 1 = t.length := by simpa using rl
      obtain ⟨ihl, ihok, ih⟩ := ff_mul_loop_spec x y rs
        (by simp only [List.length_cons] at hl; omega) (by omega) (limbs_ok_cons.1 hx).2 hy
        (limbs_ok_cons.1 rok).2
      have e : ff_mul_loop (ai :: x) y t = r :: ff_mul_loop x y rs := by
        simp only [ff_mul_loop, hrow]
      rw [e]
      refine ⟨by simp only [List.length_cons, ihl, hlen], ?_, ?_⟩
      · exact limbs_ok_cons.2 ⟨(limbs_ok_cons.1 rok).1, ihok⟩
      · rw [← hlen, pow_limbs_succ] at rv ⊢
        simp only [ff_val] at rv ⊢
        have h1 := Nat.ModEq.mul_left' (2 ^ 32) ih
        have h2 := Nat.ModEq.add_left r h1
        have h3 := Nat.ModEq.add_right (2 ^ 32 * (ff_val x * ff_val y)) rv
        refine h2.trans ((modEq_of_eq ?_).trans (h3.trans (modEq_of_eq ?_)))
        · ring
        · ring

theorem ff_mul_wf {x y : ff_t} (hx : ff_wf x) (hy : ff_wf y) : ff_wf (ff_mul x y) := by
  obtain ⟨hl, hok, _⟩ := ff_mul_loop_spec x y ff_zero (hx.1.trans ff_wf_zero.1.symm)
    (by rw [hy.1, ff_wf_zero.1]) hx.2 hy.2 ff_wf_zero.2
  exact ⟨hl.trans ff_wf_zero.1, hok⟩

theorem ff_mul_val {x y : ff_t} (hx : ff_wf x) (hy : ff_wf y) :
    ff_val (ff_mul x y) = (ff_val x * ff_val y) % 2 ^ 256 := by
  obtain ⟨_, _, h⟩ := ff_mul_loop_spec x y ff_zero (hx.1.trans ff_wf_zero.1.symm)
    (by rw [hy.1, ff_wf_zero.1]) hx.2 hy.2 ff_wf_zero.2
  have hlt := ff_val_lt_of_wf (ff_mul_wf hx hy)
  rw [ff_wf_zero.1, ff_val_zero, Nat.add_zero] at h
  have h' : ff_val (ff_mul x y) % 2 ^ 256 = (ff_val x * ff_val y) % 2 ^ 256 := h
  rw [← h', Nat.mod_eq_of_lt hlt]

/-- C3: for well-formed 256-bit values `x` and `y`, `ff_mul x y` is the low 256
bits of the full product, `(x * y) mod 2^256`, and `ff_mul` is commutative. -/
theorem ff_mul_correct (x y : ff_t) (hx : ff_wf x) (hy : ff_wf y) :
    ff_wf (ff_mul x y) ∧ ff_val (ff_mul x y) = (ff_val x * ff_val y) % 2 ^ 256 ∧
    ff_mul x y = ff_mul y x := by
  refine ⟨ff_mul_wf hx hy, ff_mul_val hx hy, ?_⟩
  apply ff_val_inj_of_wf (ff_mul_wf hx hy) (ff_mul_wf hy hx)
  rw [ff_mul_val hx hy, ff_mul_val hy hx, Nat.mul_comm]

theorem ff_mul_correct_witness :
    ff_wf (ff_of_nat 0xdeadbeef) ∧ ff_wf (ff_of_nat 0xcafebabe) ∧
    ff_mul (ff_of_nat 0xdeadbeef) (ff_of_nat 0xcafebabe) = ff_of_nat 0xb092ab7b88cf5b62 ∧
    ff_val (ff_mul (ff_of_nat 0xdeadbeef) (ff_of_nat 0xcafebabe)) =
      (ff_val (ff_of_nat 0xdeadbeef) * ff_val (ff_of_nat 0xcafebabe)) % 2 ^ 256 :=
  ⟨by decide, by decide, by decide,
    (ff_mul_correct (ff_of_nat 0xdeadbeef) (ff_of_nat 0xcafebabe) (by decide) (by decide)).2.1⟩

/-! ## Comparison and zero test -/

theorem word_nil (i : Nat) : word [] i = 0 := rfl

theorem word_cons_zero (w : Nat) (x : List Nat) : word (w :: x) 0 = w := rfl

theorem word_cons_succ (w : Nat) (x : List Nat) (i : Nat) : word (w :: x) (i + 1) = word x i := rfl

theorem word_lt : ∀ (x : List Nat) (i : Nat), limbs_ok x → word x i < 2 ^ 32
  | [], _, _ => by rw [word_nil]; norm_num
  | w :: _, 0, h => (limbs_ok_cons.1 h).1
  | _ :: x, i + 1, h => word_lt x i (limbs_ok_cons.1 h).2

theorem limbs_ok_take (x : List Nat) (k : Nat) (h : limbs_ok x) : limbs_ok (x.take k) :=
  fun v hv => h v (List.mem_of_mem_take hv)

theorem limbs_ok_drop (x : List Nat) (k : Nat) (h : limbs_ok x) : limbs_ok (x.drop k) :=
  fun v hv => h v (List.mem_of_mem_drop hv)

theorem limbs_ok_append {x y : List Nat} (hx : limbs_ok x) (hy : limbs_ok y) :
    limbs_ok (x ++ y) := by
  intro v hv
  rcases List.mem_append.1 hv with h | h
  · exact hx v h
  · exact hy v h

theorem limbs_ok_replicate_zero (k : Nat) : limbs_ok (List.replicate k 0) := by
  intro v hv
  rw [(List.mem_replicate.1 hv).2]
  norm_num

theorem ff_val_take_succ : ∀ (x : List Nat) (k : Nat),
    ff_val (x.take (k + 1)) = ff_val (x.take k) + 2 ^ (32 * k) * word x k
  | [], k => by simp [ff_val, word_nil]
  | w :: x, 0 => by simp [ff_val, word_cons_zero]
  | w :: x, k + 1 => by
    rw [List.take_succ_cons, List.take_succ_cons, ff_val, ff_val, ff_val_take_succ x k,
      word_cons_succ, pow_limbs_succ]
    ring

theorem ff_val_take_lt (x : List Nat) (k : Nat) (h : limbs_ok x) :
    ff_val (x.take k) < 2 ^ (32 * k) := by
  have h1 := ff_val_lt (x.take k) (limbs_ok_take x k h)
  have h2 : (x.take k).length ≤ k := by
    rw [List.length_take]; exact Nat.min_le_left _ _
  exact lt_of_lt_of_le h1 (Nat.pow_le_pow_right (by norm_num) (Nat.mul_le_mul_left 32 h2))

theorem ff_cmp_loop_spec (x y : List Nat) (hx : limbs_ok x) (hy : limbs_ok y) : ∀ k : Nat,
    (ff_cmp_loop x y k = -1 ∧ ff_val (x.take k) < ff_val (y.take k)) ∨
    (ff_cmp_loop x y k = 0 ∧ ff_val (x.take k) = ff_val (y.take k)) ∨
    (ff_cmp_loop x y k = 1 ∧ ff_val (y.take k) < ff_val (x.take k))
  | 0 => by simp [ff_cmp_loop, ff_val]
  | k + 1 => by
    have ih := ff_cmp_loop_spec x y hx hy k
    have hxk := ff_val_take_lt x k hx
    have hyk := ff_val_take_lt y k hy
    rw [ff_val_take_succ x k, ff_val_take_succ y k]
    simp only [ff_cmp_loop]
    generalize (2:Nat) ^ (32 * k) = P at *
    generalize ff_val (x.take k) = X at *
    generalize ff_val (y.take k) = Y at *
    generalize word x k = u at *
    generalize word y k = v at *
    by_cases h1 : u > v
    · rw [if_pos h1]
      right; right
      refine ⟨rfl, ?_⟩
      have : P * (v + 1) ≤ P * u := Nat.mul_le_mul_left P h1
      rw [Nat.mul_add, Nat.mul_one] at this
      omega
    · rw [if_neg h1]
      by_cases h2 : u < v
      · rw [if_pos h2]
        left
        refine ⟨rfl, ?_⟩
        have : P * (u + 1) ≤ P * v := Nat.mul_le_mul_left P h2
        rw [Nat.mul_add, Nat.mul_one] at this
        omega
      · rw [if_neg h2]
        have huv : u = v := by omega
        subst huv
        omega

theorem ff_cmp_spec {x y : ff_t} (hx : ff_wf x) (hy : ff_wf y) :
    (ff_cmp x y = -1 ∧ ff_val x < ff_val y) ∨ (ff_cmp x y = 0 ∧ ff_val x = ff_val y) ∨
      (ff_cmp x y = 1 ∧ ff_val y < ff_val x) := by
  have h := ff_cmp_loop_spec x y hx.2 hy.2 8
  rw [List.take_of_length_le (le_of_eq hx.1), List.take_of_length_le (le_of_eq hy.1)] at h
  exact h

theorem ff_cmp_lt_iff {x y : ff_t} (hx : ff_wf x) (hy : ff_wf y) :
    ff_cmp x y < 0 ↔ ff_val x < ff_val y := by
  rcases ff_cmp_spec hx hy with ⟨h, h'⟩ | ⟨h, h'⟩ | ⟨h, h'⟩ <;> rw [h] <;> constructor <;>
    intro h'' <;> omega

theorem ff_cmp_ge_iff {x y : ff_t} (hx : ff_wf x) (hy : ff_wf y) :
    ff_cmp x y ≥ 0 ↔ ff_val y ≤ ff_val x := by
  rcases ff_cmp_spec hx hy with ⟨h, h'⟩ | ⟨h, h'⟩ | ⟨h, h'⟩ <;> rw [h] <;> constructor <;>
    intro h'' <;> omega

theorem ff_cmp_le_iff {x y : ff_t} (hx : ff_wf x) (hy : ff_wf y) :
    ff_cmp x y ≤ 0 ↔ ff_val x ≤ ff_val y := by
  rcases ff_cmp_spec hx hy with ⟨h, h'⟩ | ⟨h, h'⟩ | ⟨h, h'⟩ <;> rw [h] <;> constructor <;>
    intro h'' <;> omega

theorem ff_is_zero_iff : ∀ x : List Nat, ff_is_zero x = true ↔ ff_val x = 0
  | [] => by simp [ff_is_zero, ff_val]
  | w :: x => by
    have ih := ff_is_zero_iff x
    simp only [ff_is_zero, ff_val]
    by_cases hw : w = 0
    · simp only [hw, ne_eq, not_true_eq_false, ite_false, if_false]
      rw [ih]
      omega
    · simp only [hw, ne_eq, not_false_eq_true, if_true]
      constructor
      · intro h; cases h
      · intro h; omega

theorem ff_eq_iff : ∀ x y : List Nat, x.length = y.length → (ff_eq x y = true ↔ x = y)
  | [], [], _ => by simp [ff_eq]
  | [], _ :: _, h => by simp at h
  | _ :: _, [], h => by simp at h
  | v :: x, w :: y, h => by
    have ih := ff_eq_iff x y (by simpa using h)
    simp only [ff_eq]
    by_cases hw : v = w
    · simp [hw, ih]
    · simp [hw]

/-! ## Leading zeros -/

theorem and_one_shiftLeft_ne_zero (w b : Nat) : w &&& (1 <<< b) ≠ 0 ↔ w.testBit b = true := by
  rw [Nat.one_shiftLeft]
  constructor
  · intro h
    by_contra hb
    apply h
    apply Nat.eq_of_testBit_eq
    intro i
    rw [Nat.testBit_and, Nat.testBit_two_pow, Nat.zero_testBit]
    by_cases hi : b = i
    · subst hi
      simp only [Bool.not_eq_true] at hb
      rw [hb, Bool.false_and]
    · simp [hi]
  · intro h h0
    have : (w &&& 2 ^ b).testBit b = true := by
      rw [Nat.testBit_and, h, Nat.testBit_two_pow_self, Bool.and_self]
    rw [h0, Nat.zero_testBit] at this
    cases this

theorem ff_clz_bits_spec (w : Nat) : ∀ (k total : Nat), w < 2 ^ k → w ≠ 0 →
    ∃ b, b < k ∧ ff_clz_bits w k total = total + (k - 1 - b) ∧ 2 ^ b ≤ w ∧ w < 2 ^ (b + 1)
  | 0, _, h, h0 => by
    exfalso
    apply h0
    simpa using h
  | k + 1, total, h, h0 => by
    by_cases hb : w.testBit k = true
    · refine ⟨k, by omega, ?_, Nat.testBit_implies_ge hb, h⟩
      rw [ff_clz_bits, if_pos ((and_one_shiftLeft_ne_zero w k).2 hb)]
      omega
    · have hlt : w < 2 ^ k := by
        apply Nat.lt_pow_two_of_testBit
        intro i hi
        rcases Nat.eq_or_lt_of_le hi with rfl | hi'
        · simpa using hb
        · exact Nat.testBit_lt_two_pow
            (lt_of_lt_of_le h (Nat.pow_le_pow_right (by norm_num) hi'))
      obtain ⟨b, hbk, hr, h1, h2⟩ := ff_clz_bits_spec w k (total + 1) hlt h0
      refine ⟨b, by omega, ?_, h1, h2⟩
      rw [ff_clz_bits, if_neg (fun hne => hb ((and_one_shiftLeft_ne_zero w k).1 hne)), hr]
      omega

theorem ff_clz_words_spec (x : List Nat) : ∀ (k total : Nat),
    ((ff_clz_words x k total).1 = 0 ∧ ff_val (x.take k) = 0) ∨
    ∃ i, ff_clz_words x k total = (i + 1, total + 32 * (k - 1 - i)) ∧ i < k ∧ word x i ≠ 0 ∧
      ff_val (x.take k) = ff_val (x.take (i + 1))
  | 0, total => by
    left
    simp [ff_clz_words, ff_val]
  | k + 1, total => by
    by_cases hw : word x k = 0
    · rw [ff_clz_words, if_pos hw, ff_val_take_succ x k, hw, Nat.mul_zero, Nat.add_zero]
      rcases ff_clz_words_spec x k (total + 32) with h | ⟨i, h1, h2, h3, h4⟩
      · exact Or.inl h
      · refine Or.inr ⟨i, ?_, by omega, h3, h4⟩
        rw [h1]
        congr 1
        omega
    · refine Or.inr ⟨k, ?_, by omega, hw, rfl⟩
      rw [ff_clz_words, if_neg hw]
      congr 1
      omega

theorem ff_clz_spec {x : ff_t} (hx : ff_wf x) (h0 : ff_val x ≠ 0) :
    ff_clz x ≤ 255 ∧ 2 ^ (255 - ff_clz x) ≤ ff_val x ∧ ff_val x < 2 ^ (256 - ff_clz x) := by
  have h8 : x.take 8 = x := List.take_of_length_le (le_of_eq hx.1)
  rcases ff_clz_words_spec x 8 0 with ⟨_, h⟩ | ⟨i, h1, h2, h3, h4⟩
  · rw [h8] at h
    exact absurd h h0
  · rw [h8] at h4
    obtain ⟨b, hb, hr, hlo, hhi⟩ :=
      ff_clz_bits_spec (word x i) 32 (0 + 32 * (8 - 1 - i)) (word_lt x i hx.2) h3
    have hclz : ff_clz x = 0 + 32 * (8 - 1 - i) + (32 - 1 - b) := by
      have : ff_clz_words x FF_WORDS 0 = (i + 1, 0 + 32 * (8 - 1 - i)) := h1
      simp only [ff_clz, this]
      exact hr
    have hlow := ff_val_take_lt x i hx.2
    rw [ff_val_take_succ x i] at h4
    have e1 : 255 - ff_clz x = 32 * i + b := by omega
    have e2 : 256 - ff_clz x = 32 * i + (b + 1) := by omega
    rw [e1, e2, Nat.pow_add, Nat.pow_add, h4]
    have m1 : 2 ^ (32 * i) * 2 ^ b ≤ 2 ^ (32 * i) * word x i := Nat.mul_le_mul_left _ hlo
    have m2 : 2 ^ (32 * i) * (word x i + 1) ≤ 2 ^ (32 * i) * 2 ^ (b + 1) :=
      Nat.mul_le_mul_left _ hhi
    rw [Nat.mul_add, Nat.mul_one] at m2
    refine ⟨by omega, by omega, by omega⟩

theorem ff_shl_limbs_eq (x0 x1 x2 x3 x4 x5 x6 x7 word_shift bit_shift : Nat) (h : word_shift < 8) :
    ((List.range FF_WORDS).map fun i =>
        if i ≥ word_shift + 1 then
          ((word [x0, x1, x2, x3, x4, x5, x6, x7] (i - word_shift) <<< bit_shift) % 2 ^ 32) |||
            (word [x0, x1, x2, x3, x4, x5, x6, x7] (i - word_shift - 1) >>> (32 - bit_shift))
        else if i = word_shift then (word [x0, x1, x2, x3, x4, x5, x6, x7] 0 <<< bit_shift) % 2 ^ 32
        else 0) =
      (List.replicate word_shift 0 ++
        ((x0 <<< bit_shift) % 2 ^ 32) :: shl_pairs bit_shift x0 [x1, x2, x3, x4, x5, x6, x7]).take 8 := by
  interval_cases word_shift <;> rfl

theorem ff_shl_words_eq (x0 x1 x2 x3 x4 x5 x6 x7 word_shift : Nat) (h : word_shift < 8) :
    ((List.range FF_WORDS).map fun i =>
        if i ≥ word_shift then word [x0, x1, x2, x3, x4, x5, x6, x7] (i - word_shift) else 0) =
      (List.replicate word_shift 0 ++ [x0, x1, x2, x3, x4, x5, x6, x7]).take 8 := by
  interval_cases word_shift <;> rfl

theorem ff_shr_limbs_eq (x0 x1 x2 x3 x4 x5 x6 x7 word_shift bit_shift : Nat) (h : word_shift < 8) :
    ((List.range FF_WORDS).map fun i =>
        if i < FF_LAST_WORD - word_shift then
          (word [x0, x1, x2, x3, x4, x5, x6, x7] (i + word_shift) >>> bit_shift) |||
            ((word [x0, x1, x2, x3, x4, x5, x6, x7] (i + word_shift + 1) <<< (32 - bit_shift)) % 2 ^ 32)
        else if i = FF_LAST_WORD - word_shift then
          word [x0, x1, x2, x3, x4, x5, x6, x7] FF_LAST_WORD >>> bit_shift
        else 0) =
      shr_pairs bit_shift ([x0, x1, x2, x3, x4, x5, x6, x7].drop word_shift) ++
        List.replicate word_shift 0 := by
  interval_cases word_shift <;> rfl

theorem ff_shr_words_eq (x0 x1 x2 x3 x4 x5 x6 x7 word_shift : Nat) (h : word_shift < 8) :
    ((List.range FF_WORDS).map fun i =>
        if i < FF_WORDS - word_shift then word [x0, x1, x2, x3, x4, x5, x6, x7] (i + word_shift)
        else 0) =
      [x0, x1, x2, x3, x4, x5, x6, x7].drop word_shift ++ List.replicate word_shift 0 := by
  interval_cases word_shift <;> rfl
/-! ## Shifts -/

theorem ff_val_append : ∀ (x y : List Nat),
    ff_val (x ++ y) = ff_val x + 2 ^ (32 * x.length) * ff_val y
  | [], y => by simp [ff_val]
  | w :: x, y => by
    rw [List.cons_append, ff_val, ff_val, ff_val_append x y, List.length_cons, pow_limbs_succ]
    ring

theorem ff_val_take_mod (x : List Nat) (k : Nat) (h : limbs_ok x) :
    ff_val (x.take k) = ff_val x % 2 ^ (32 * k) := by
  by_cases hk : x.length ≤ k
  · rw [List.take_of_length_le hk]
    symm
    apply Nat.mod_eq_of_lt
    exact lt_of_lt_of_le (ff_val_lt x h)
      (Nat.pow_le_pow_right (by norm_num) (Nat.mul_le_mul_left 32 hk))
  · have hlen : (x.take k).length = k := by
      rw [List.length_take]; omega
    have e := ff_val_append (x.take k) (x.drop k)
    rw [List.take_append_drop, hlen] at e
    rw [e, Nat.add_mul_mod_self_left, Nat.mod_eq_of_lt (ff_val_take_lt x k h)]

theorem ff_val_drop_div (x : List Nat) (k : Nat) (h : limbs_ok x) :
    ff_val (x.drop k) = ff_val x / 2 ^ (32 * k) := by
  by_cases hk : x.length ≤ k
  · rw [List.drop_of_length_le hk]
    symm
    rw [ff_val]
    apply Nat.div_eq_of_lt
    exact lt_of_lt_of_le (ff_val_lt x h)
      (Nat.pow_le_pow_right (by norm_num) (Nat.mul_le_mul_left 32 hk))
  · have hlen : (x.take k).length = k := by
      rw [List.length_take]; omega
    have e := ff_val_append (x.take k) (x.drop k)
    rw [List.take_append_drop, hlen] at e
    rw [e, Nat.add_mul_div_left _ _ (Nat.two_pow_pos _),
      Nat.div_eq_of_lt (ff_val_take_lt x k h), Nat.zero_add]

theorem two_pow_split {bs : Nat} (h : bs ≤ 32) : (2:Nat) ^ (32 - bs) * 2 ^ bs = 2 ^ 32 := by
  rw [← Nat.pow_add]
  congr 1
  omega

/-- Shifting a word left by `bs` splits it into the part kept in the limb and
the part carried into the next limb. -/
theorem shl_word_split (x bs : Nat) (h : bs ≤ 32) :
    (x * 2 ^ bs) % 2 ^ 32 + 2 ^ 32 * (x / 2 ^ (32 - bs)) = x * 2 ^ bs := by
  have e : (x * 2 ^ bs) / 2 ^ 32 = x / 2 ^ (32 - bs) := by
    rw [← two_pow_split h]
    exact Nat.mul_div_mul_right _ _ (Nat.two_pow_pos _)
  rw [← e]
  exact Nat.mod_add_div _ _

/-- The bitwise or of the two halves of a shifted limb is their sum. -/
theorem shl_or_eq (x y bs : Nat) (hy : y < 2 ^ 32) (h2 : bs ≤ 32) :
    ((x <<< bs) % 2 ^ 32) ||| (y >>> (32 - bs)) = (x * 2 ^ bs) % 2 ^ 32 + y / 2 ^ (32 - bs) := by
  rw [Nat.shiftLeft_eq, Nat.shiftRight_eq_div_pow]
  have hlt : y / 2 ^ (32 - bs) < 2 ^ bs := by
    rw [Nat.div_lt_iff_lt_mul (Nat.two_pow_pos _), Nat.mul_comm, two_pow_split h2]
    exact hy
  have e : (x * 2 ^ bs) % 2 ^ 32 = 2 ^ bs * (x % 2 ^ (32 - bs)) := by
    rw [← two_pow_split h2, Nat.mul_mod_mul_right, Nat.mul_comm]
  rw [e]
  exact (Nat.mul_add_lt_is_or hlt _).symm

theorem shl_or_lt (x y bs : Nat) (hy : y < 2 ^ 32) :
    ((x <<< bs) % 2 ^ 32) ||| (y >>> (32 - bs)) < 2 ^ 32 := by
  apply Nat.or_lt_two_pow (Nat.mod_lt _ (Nat.two_pow_pos _))
  rw [Nat.shiftRight_eq_div_pow]
  exact lt_of_le_of_lt (Nat.div_le_self _ _) hy

theorem shl_pairs_spec (bs : Nat) (hbs : bs ≤ 32) : ∀ (prev : Nat) (x : List Nat),
    prev < 2 ^ 32 → limbs_ok x →
    (shl_pairs bs prev x).length = x.length ∧ limbs_ok (shl_pairs bs prev x) ∧
    ff_val (shl_pairs bs prev x) ≡ ff_val x * 2 ^ bs + prev / 2 ^ (32 - bs)
      [MOD 2 ^ (32 * x.length)]
  | prev, [], _, _ => by
    refine ⟨rfl, limbs_ok_nil, ?_⟩
    simp [Nat.modEq_one]
  | prev, w :: x, hp, hx => by
    have hw := (limbs_ok_cons.1 hx).1
    obtain ⟨ihl, ihok, ih⟩ := shl_pairs_spec bs hbs w x hw (limbs_ok_cons.1 hx).2
    refine ⟨by simp only [shl_pairs, List.length_cons, ihl], ?_, ?_⟩
    · simp only [shl_pairs]
      exact limbs_ok_cons.2 ⟨shl_or_lt w prev bs hp, ihok⟩
    · simp only [shl_pairs, ff_val, List.length_cons]
      rw [pow_limbs_succ, shl_or_eq w prev bs hp hbs]
      have h1 := Nat.ModEq.mul_left' (2 ^ 32) ih
      have h2 := Nat.ModEq.add_left ((w * 2 ^ bs) % 2 ^ 32 + prev / 2 ^ (32 - bs)) h1
      refine h2.trans (modEq_of_eq ?_)
      have hs := shl_word_split w bs hbs
      generalize (w * 2 ^ bs) % 2 ^ 32 = lo at *
      generalize w / 2 ^ (32 - bs) = hi at *
      generalize prev / 2 ^ (32 - bs) = c at *
      calc lo + c + 2 ^ 32 * (ff_val x * 2 ^ bs + hi)
          = (lo + 2 ^ 32 * hi) + 2 ^ 32 * ff_val x * 2 ^ bs + c := by ring
        _ = w * 2 ^ bs + 2 ^ 32 * ff_val x * 2 ^ bs + c := by rw [hs]
        _ = (w + 2 ^ 32 * ff_val x) * 2 ^ bs + c := by ring

theorem shr_pairs_spec (bs : Nat) (hbs : bs ≤ 32) : ∀ (x : List Nat), limbs_ok x →
    (shr_pairs bs x).length = x.length ∧ limbs_ok (shr_pairs bs x) ∧
    ff_val (shr_pairs bs x) = ff_val x / 2 ^ bs
  | [], _ => by
    refine ⟨rfl, limbs_ok_nil, ?_⟩
    simp [shr_pairs, ff_val]
  | [w], hx => by
    have hw := (limbs_ok_cons.1 hx).1
    refine ⟨rfl, ?_, ?_⟩
    · simp only [shr_pairs]
      refine limbs_ok_cons.2 ⟨?_, limbs_ok_nil⟩
      rw [Nat.shiftRight_eq_div_pow]
      exact lt_of_le_of_lt (Nat.div_le_self _ _) hw
    · simp [shr_pairs, ff_val, Nat.shiftRight_eq_div_pow]
  | w :: v :: x, hx => by
    have hw := (limbs_ok_cons.1 hx).1
    have hvx := (limbs_ok_cons.1 hx).2
    obtain ⟨ihl, ihok, ih⟩ := shr_pairs_spec bs hbs (v :: x) hvx
    have hcomm : (w >>> bs) ||| ((v <<< (32 - bs)) % 2 ^ 32) =
        ((v <<< (32 - bs)) % 2 ^ 32) ||| (w >>> (32 - (32 - bs))) := by
      rw [Nat.lor_comm]
      congr 2
      omega
    refine ⟨by simp only [shr_pairs, List.length_cons, ihl], ?_, ?_⟩
    · simp only [shr_pairs]
      rw [hcomm]
      exact limbs_ok_cons.2 ⟨shl_or_lt v w (32 - bs) hw, ihok⟩
    · simp only [shr_pairs]
      rw [ff_val, ih, hcomm, shl_or_eq v w (32 - bs) hw (by omega)]
      have e32 : 32 - (32 - bs) = bs := by omega
      rw [e32]
      simp only [ff_val]
      have hs := shl_word_split v (32 - bs) (by omega)
      rw [e32] at hs
      have hp := two_pow_split hbs
      generalize ff_val x = R at *
      have d1 : (v + 2 ^ 32 * R) / 2 ^ bs = v / 2 ^ bs + 2 ^ (32 - bs) * R := by
        rw [← hp]
        rw [show v + 2 ^ (32 - bs) * 2 ^ bs * R = v + 2 ^ bs * (2 ^ (32 - bs) * R) by ring]
        exact Nat.add_mul_div_left _ _ (Nat.two_pow_pos _)
      have d2 : (w + 2 ^ 32 * (v + 2 ^ 32 * R)) / 2 ^ bs =
          w / 2 ^ bs + 2 ^ (32 - bs) * (v + 2 ^ 32 * R) := by
        rw [← hp]
        rw [show w + 2 ^ (32 - bs) * 2 ^ bs * (v + 2 ^ (32 - bs) * 2 ^ bs * R) =
          w + 2 ^ bs * (2 ^ (32 - bs) * (v + 2 ^ (32 - bs) * 2 ^ bs * R)) by ring]
        exact Nat.add_mul_div_left _ _ (Nat.two_pow_pos _)
      rw [d1, d2]
      generalize (v * 2 ^ (32 - bs)) % 2 ^ 32 = lo at *
      generalize v / 2 ^ bs = hi at *
      generalize w / 2 ^ bs = c at *
      calc lo + c + 2 ^ 32 * (hi + 2 ^ (32 - bs) * R)
          = (lo + 2 ^ 32 * hi) + c + 2 ^ 32 * 2 ^ (32 - bs) * R := by ring
        _ = v * 2 ^ (32 - bs) + c + 2 ^ 32 * 2 ^ (32 - bs) * R := by rw [hs]
        _ = c + 2 ^ (32 - bs) * (v + 2 ^ 32 * R) := by ring

theorem ff_wf_cases {x : ff_t} (h : ff_wf x) :
    ∃ x0 x1 x2 x3 x4 x5 x6 x7 : Nat, x = [x0, x1, x2, x3, x4, x5, x6, x7] ∧
      x0 < 2 ^ 32 ∧ x1 < 2 ^ 32 ∧ x2 < 2 ^ 32 ∧ x3 < 2 ^ 32 ∧
      x4 < 2 ^ 32 ∧ x5 < 2 ^ 32 ∧ x6 < 2 ^ 32 ∧ x7 < 2 ^ 32 := by
  obtain ⟨hl, hok⟩ := h
  match x, hl, hok with
  | [x0, x1, x2, x3, x4, x5, x6, x7], _, hok =>
    refine ⟨x0, x1, x2, x3, x4, x5, x6, x7, rfl, ?_⟩
    simp only [limbs_ok, List.mem_cons, List.mem_singleton] at hok
    refine ⟨hok _ ?_, hok _ ?_, hok _ ?_, hok _ ?_, hok _ ?_, hok _ ?_, hok _ ?_, hok _ ?_⟩ <;>
      simp

theorem ff_shl_unfold (x : ff_t) (n : Nat) (h0 : 0 < n) (hn : n < 256) :
    ff_shl x (n : Int) =
      if n % 32 = 0 then
        (List.range FF_WORDS).map fun i => if i ≥ n / 32 then word x (i - n / 32) else 0
      else
        (List.range FF_WORDS).map fun i =>
          if i ≥ n / 32 + 1 then
            ((word x (i - n / 32) <<< (n % 32)) % 2 ^ 32) |||
              (word x (i - n / 32 - 1) >>> (32 - n % 32))
          else if i = n / 32 then (word x 0 <<< (n % 32)) % 2 ^ 32
          else 0 := by
  have h1 : ¬((n : Int) ≥ 256 ∨ (n : Int) ≤ 0) := by omega
  simp only [ff_shl, if_neg h1, Int.toNat_ofNat]

theorem ff_shr_unfold (x : ff_t) (n : Nat) (h0 : 0 < n) (hn : n < 256) :
    ff_shr x (n : Int) =
      if n % 32 = 0 then
        (List.range FF_WORDS).map fun i =>
          if i < FF_WORDS - n / 32 then word x (i + n / 32) else 0
      else
        (List.range FF_WORDS).map fun i =>
          if i < FF_LAST_WORD - n / 32 then
            (word x (i + n / 32) >>> (n % 32)) |||
              ((word x (i + n / 32 + 1) <<< (32 - n % 32)) % 2 ^ 32)
          else if i = FF_LAST_WORD - n / 32 then word x FF_LAST_WORD >>> (n % 32)
          else 0 := by
  have h1 : ¬((n : Int) ≥ 256 ∨ (n : Int) ≤ 0) := by omega
  simp only [ff_shr, if_neg h1, Int.toNat_ofNat]

theorem ff_val_replicate_zero_append (k : Nat) (x : List Nat) :
    ff_val (List.replicate k 0 ++ x) = 2 ^ (32 * k) * ff_val x := by
  rw [ff_val_append, ff_val_replicate_zero, List.length_replicate, Nat.zero_add]

theorem ff_val_append_replicate_zero (k : Nat) (x : List Nat) :
    ff_val (x ++ List.replicate k 0) = ff_val x := by
  rw [ff_val_append, ff_val_replicate_zero, Nat.mul_zero, Nat.add_zero]

theorem ff_shl_spec {x : ff_t} (hx : ff_wf x) (n : Nat) (hn : n < 256) :
    ff_wf (ff_shl x (n : Int)) ∧ ff_val (ff_shl x (n : Int)) = (ff_val x * 2 ^ n) % 2 ^ 256 := by
  rcases Nat.eq_zero_or_pos n with rfl | h0
  · have e : ff_shl x ((0 : Nat) : Int) = x := by simp [ff_shl]
    rw [e, Nat.pow_zero, Nat.mul_one, Nat.mod_eq_of_lt (ff_val_lt_of_wf hx)]
    exact ⟨hx, rfl⟩
  · obtain ⟨x0, x1, x2, x3, x4, x5, x6, x7, rfl, h0', h1', h2', h3', h4', h5', h6', h7'⟩ :=
      ff_wf_cases hx
    have hws : n / 32 < 8 := by omega
    have hn32 : 32 * (n / 32) + n % 32 = n := Nat.div_add_mod n 32
    rw [ff_shl_unfold _ n h0 hn]
    by_cases hbs : n % 32 = 0
    · rw [if_pos hbs, ff_shl_words_eq _ _ _ _ _ _ _ _ _ hws]
      have hok : limbs_ok (List.replicate (n / 32) 0 ++ [x0, x1, x2, x3, x4, x5, x6, x7]) :=
        limbs_ok_append (limbs_ok_replicate_zero _) hx.2
      refine ⟨⟨?_, limbs_ok_take _ _ hok⟩, ?_⟩
      · simp only [List.length_take, List.length_append, List.length_replicate,
          List.length_cons, List.length_nil]
        omega
      · rw [ff_val_take_mod _ _ hok, ff_val_replicate_zero_append, Nat.mul_comm]
        congr 3
        omega
    · rw [if_neg hbs, ff_shl_limbs_eq _ _ _ _ _ _ _ _ _ _ hws]
      have hbs32 : n % 32 ≤ 32 := by omega
      have htl : limbs_ok [x1, x2, x3, x4, x5, x6, x7] := (limbs_ok_cons.1 hx.2).2
      obtain ⟨pl, pok, pv⟩ := shl_pairs_spec (n % 32) hbs32 x0 _ h0' htl
      have hLok : limbs_ok (((x0 <<< (n % 32)) % 2 ^ 32) ::
          shl_pairs (n % 32) x0 [x1, x2, x3, x4, x5, x6, x7]) :=
        limbs_ok_cons.2 ⟨Nat.mod_lt _ (Nat.two_pow_pos _), pok⟩
      have hok := limbs_ok_append (limbs_ok_replicate_zero (n / 32)) hLok
      refine ⟨⟨?_, limbs_ok_take _ _ hok⟩, ?_⟩
      · simp only [List.length_take, List.length_append, List.length_replicate,
          List.length_cons, pl, List.length_nil]
        omega
      · rw [ff_val_take_mod _ _ hok, ff_val_replicate_zero_append]
        have hL : ff_val (((x0 <<< (n % 32)) % 2 ^ 32) ::
            shl_pairs (n % 32) x0 [x1, x2, x3, x4, x5, x6, x7]) ≡
            ff_val [x0, x1, x2, x3, x4, x5, x6, x7] * 2 ^ (n % 32) [MOD 2 ^ 256] := by
          have h1 := Nat.ModEq.mul_left' (2 ^ 32) pv
          have h2 := Nat.ModEq.add_left ((x0 <<< (n % 32)) % 2 ^ 32) h1
          have e256 : 2 ^ 32 * 2 ^ (32 * [x1, x2, x3, x4, x5, x6, x7].length) = 2 ^ 256 := by
            norm_num
          rw [e256] at h2
          have hv : ff_val [x0, x1, x2, x3, x4, x5, x6, x7] =
              x0 + 2 ^ 32 * ff_val [x1, x2, x3, x4, x5, x6, x7] := rfl
          have hvL : ff_val (((x0 <<< (n % 32)) % 2 ^ 32) ::
              shl_pairs (n % 32) x0 [x1, x2, x3, x4, x5, x6, x7]) =
              (x0 <<< (n % 32)) % 2 ^ 32 +
                2 ^ 32 * ff_val (shl_pairs (n % 32) x0 [x1, x2, x3, x4, x5, x6, x7]) := rfl
          rw [hv, hvL]
          refine h2.trans (modEq_of_eq ?_)
          have hs := shl_word_split x0 (n % 32) hbs32
          rw [Nat.shiftLeft_eq]
          generalize ff_val [x1, x2, x3, x4, x5, x6, x7] = R at *
          generalize (x0 * 2 ^ (n % 32)) % 2 ^ 32 = lo at *
          generalize x0 / 2 ^ (32 - n % 32) = hi at *
          calc lo + 2 ^ 32 * (R * 2 ^ (n % 32) + hi)
              = (lo + 2 ^ 32 * hi) + 2 ^ 32 * R * 2 ^ (n % 32) := by ring
            _ = x0 * 2 ^ (n % 32) + 2 ^ 32 * R * 2 ^ (n % 32) := by rw [hs]
            _ = (x0 + 2 ^ 32 * R) * 2 ^ (n % 32) := by ring
        have h3 := Nat.ModEq.mul_left (2 ^ (32 * (n / 32))) hL
        have h4 : 2 ^ (32 * (n / 32)) *
            (ff_val [x0, x1, x2, x3, x4, x5, x6, x7] * 2 ^ (n % 32)) =
            ff_val [x0, x1, x2, x3, x4, x5, x6, x7] * 2 ^ n := by
          rw [← hn32, Nat.pow_add]
          have : 32 * (n / 32) + n % 32 = n := hn32
          rw [this]
          ring
        rw [h4] at h3
        exact h3

theorem ff_shr_spec {x : ff_t} (hx : ff_wf x) (n : Nat) (hn : n < 256) :
    ff_wf (ff_shr x (n : Int)) ∧ ff_val (ff_shr x (n : Int)) = ff_val x / 2 ^ n := by
  rcases Nat.eq_zero_or_pos n with rfl | h0
  · have e : ff_shr x ((0 : Nat) : Int) = x := by simp [ff_shr]
    rw [e, Nat.pow_zero, Nat.div_one]
    exact ⟨hx, rfl⟩
  · obtain ⟨x0, x1, x2, x3, x4, x5, x6, x7, rfl, _⟩ := ff_wf_cases hx
    have hws : n / 32 < 8 := by omega
    have hn32 : 32 * (n / 32) + n % 32 = n := Nat.div_add_mod n 32
    have hdl : ([x0, x1, x2, x3, x4, x5, x6, x7].drop (n / 32)).length = 8 - n / 32 := by
      simp
    have hdok := limbs_ok_drop _ (n / 32) hx.2
    rw [ff_shr_unfold _ n h0 hn]
    by_cases hbs : n % 32 = 0
    · rw [if_pos hbs, ff_shr_words_eq _ _ _ _ _ _ _ _ _ hws]
      refine ⟨⟨?_, limbs_ok_append hdok (limbs_ok_replicate_zero _)⟩, ?_⟩
      · rw [List.length_append, hdl, List.length_replicate]
        omega
      · rw [ff_val_append_replicate_zero, ff_val_drop_div _ _ hx.2]
        congr 2
        omega
    · rw [if_neg hbs, ff_shr_limbs_eq _ _ _ _ _ _ _ _ _ _ hws]
      obtain ⟨pl, pok, pv⟩ := shr_pairs_spec (n % 32) (by omega) _ hdok
      refine ⟨⟨?_, limbs_ok_append pok (limbs_ok_replicate_zero _)⟩, ?_⟩
      · rw [List.length_append, pl, hdl, List.length_replicate]
        omega
      · rw [ff_val_append_replicate_zero, pv, ff_val_drop_div _ _ hx.2,
          Nat.div_div_eq_div_mul, ← Nat.pow_add, hn32]

/-! ## Division -/

theorem word_eq_div_mod : ∀ (x : List Nat) (i : Nat), limbs_ok x →
    word x i = ff_val x / 2 ^ (32 * i) % 2 ^ 32
  | [], i, _ => by simp [word_nil, ff_val]
  | w :: x, 0, h => by
    have hw := (limbs_ok_cons.1 h).1
    rw [word_cons_zero, ff_val, Nat.mul_zero, Nat.pow_zero, Nat.div_one,
      Nat.add_mul_mod_self_left, Nat.mod_eq_of_lt hw]
  | w :: x, i + 1, h => by
    have hw := (limbs_ok_cons.1 h).1
    rw [word_cons_succ, word_eq_div_mod x i (limbs_ok_cons.1 h).2, ff_val, pow_limbs_succ,
      ← Nat.div_div_eq_div_mul, Nat.add_mul_div_left _ _ (Nat.two_pow_pos 32),
      Nat.div_eq_of_lt hw, Nat.zero_add]

theorem ff_val_set : ∀ (x : List Nat) (i v : Nat), i < x.length →
    ff_val (x.set i v) + 2 ^ (32 * i) * word x i = ff_val x + 2 ^ (32 * i) * v
  | [], _, _, h => by simp at h
  | w :: x, 0, v, _ => by
    simp only [List.set_cons_zero, ff_val, word_cons_zero]
    omega
  | w :: x, i + 1, v, h => by
    have ih := ff_val_set x i v (by simpa using h)
    simp only [List.set_cons_succ, ff_val, word_cons_succ, pow_limbs_succ]
    calc w + 2 ^ 32 * ff_val (x.set i v) + 2 ^ 32 * 2 ^ (32 * i) * word x i
        = w + 2 ^ 32 * (ff_val (x.set i v) + 2 ^ (32 * i) * word x i) := by ring
      _ = w + 2 ^ 32 * (ff_val x + 2 ^ (32 * i) * v) := by rw [ih]
      _ = w + 2 ^ 32 * ff_val x + 2 ^ 32 * 2 ^ (32 * i) * v := by ring

theorem limbs_ok_set (x : List Nat) (i v : Nat) (hx : limbs_ok x) (hv : v < 2 ^ 32) :
    limbs_ok (x.set i v) := by
  intro u hu
  rcases List.mem_or_eq_of_mem_set hu with h | h
  · exact hx u h
  · rw [h]; exact hv

/-- Setting bit `shift` of a quotient whose bits `0 .. shift` are clear adds `2^shift`. -/
theorem ff_set_bit_spec {q : ff_t} (hq : ff_wf q) (s : Nat) (hs : s < 256)
    (hdvd : 2 ^ (s + 1) ∣ ff_val q) :
    ff_wf (ff_set_bit q s) ∧ ff_val (ff_set_bit q s) = ff_val q + 2 ^ s := by
  have hs32 : 32 * (s / 32) + s % 32 = s := Nat.div_add_mod s 32
  have hbs : s % 32 < 32 := Nat.mod_lt _ (by norm_num)
  have hbit : (1 <<< (s % 32)) % 2 ^ 32 = 2 ^ (s % 32) := by
    rw [Nat.one_shiftLeft]
    exact Nat.mod_eq_of_lt (Nat.pow_lt_pow_right (by norm_num) hbs)
  obtain ⟨m, hm⟩ := hdvd
  -- the limb that holds bit `s` is a multiple of `2^(s % 32 + 1)`
  have hword : word q (s / 32) = 2 ^ (s % 32 + 1) * (m % 2 ^ (32 - (s % 32 + 1))) := by
    rw [word_eq_div_mod q _ hq.2, hm]
    have e1 : 2 ^ (s + 1) * m = 2 ^ (32 * (s / 32)) * (2 ^ (s % 32 + 1) * m) := by
      rw [← Nat.mul_assoc, ← Nat.pow_add]
      congr 2
      omega
    rw [e1, Nat.mul_div_cancel_left _ (Nat.two_pow_pos _)]
    have e2 : (2:Nat) ^ 32 = 2 ^ (s % 32 + 1) * 2 ^ (32 - (s % 32 + 1)) := by
      rw [← Nat.pow_add]
      congr 1
      omega
    rw [e2, Nat.mul_mod_mul_left]
  have hor : word q (s / 32) ||| 2 ^ (s % 32) = word q (s / 32) + 2 ^ (s % 32) := by
    rw [hword]
    exact (Nat.mul_add_lt_is_or (Nat.pow_lt_pow_right (by norm_num) (Nat.lt_succ_self _)) _).symm
  have hlt : word q (s / 32) ||| 2 ^ (s % 32) < 2 ^ 32 :=
    Nat.or_lt_two_pow (word_lt q _ hq.2) (Nat.pow_lt_pow_right (by norm_num) hbs)
  have hidx : s / 32 < q.length := by rw [hq.1]; omega
  refine ⟨⟨?_, ?_⟩, ?_⟩
  · rw [ff_set_bit, List.length_set]
    exact hq.1
  · rw [ff_set_bit, hbit]
    exact limbs_ok_set q _ _ hq.2 hlt
  · have h := ff_val_set q (s / 32) (word q (s / 32) ||| 2 ^ (s % 32)) hidx
    rw [hor, Nat.mul_add, ← Nat.pow_add, hs32] at h
    rw [ff_set_bit, hbit, hor]
    omega

theorem ff_div_loop_spec (D N : Nat) : ∀ (k : Nat) (q r sd : ff_t),
    k ≤ 256 → ff_wf q → ff_wf r → ff_wf sd →
    (∀ s, k = s + 1 → ff_val sd = D * 2 ^ s) → ff_val r < D * 2 ^ k →
    N = ff_val q * D + ff_val r → 2 ^ k ∣ ff_val q →
    ff_wf (ff_div_loop k q r sd).1 ∧ ff_wf (ff_div_loop k q r sd).2 ∧
      N = ff_val (ff_div_loop k q r sd).1 * D + ff_val (ff_div_loop k q r sd).2 ∧
      ff_val (ff_div_loop k q r sd).2 < D
  | 0, q, r, sd, _, hq, hr, _, _, hlt, hN, _ => by
    rw [Nat.pow_zero, Nat.mul_one] at hlt
    exact ⟨hq, hr, hN, hlt⟩
  | s + 1, q, r, sd, hk, hq, hr, hsd, hsdv, hlt, hN, hdvd => by
    have hsdv' : ff_val sd = D * 2 ^ s := hsdv s rfl
    obtain ⟨hshr_wf, hshr_v⟩ := ff_shr_spec hsd 1 (by norm_num)
    have hnext : ∀ s', s = s' + 1 → ff_val (ff_shr sd ((1 : Nat) : Int)) = D * 2 ^ s' := by
      intro s' hs'
      rw [hshr_v, hsdv', hs', Nat.pow_succ, Nat.pow_one, ← Nat.mul_assoc,
        Nat.mul_div_cancel _ (by norm_num)]
    have hdvd' : 2 ^ s ∣ ff_val q := dvd_trans (pow_dvd_pow 2 (Nat.le_succ s)) hdvd
    rw [Nat.pow_succ, ← Nat.mul_assoc] at hlt
    rw [ff_div_loop]
    by_cases hc : ff_cmp r sd ≥ 0
    · rw [if_pos hc]
      have hle : ff_val sd ≤ ff_val r := (ff_cmp_ge_iff hr hsd).1 hc
      obtain ⟨hq_wf, hq_v⟩ := ff_set_bit_spec hq s (by omega) hdvd
      have hr_wf := ff_sub_wf hr hsd
      have hr_v := ff_sub_val_of_le hr hsd hle
      apply ff_div_loop_spec D N s _ _ _ (by omega) hq_wf hr_wf hshr_wf hnext
      · rw [hr_v, hsdv']
        omega
      · rw [hq_v, hr_v, hN, Nat.add_mul, hsdv', Nat.mul_comm (2 ^ s) D]
        rw [hsdv'] at hle
        omega
      · rw [hq_v]
        exact Nat.dvd_add hdvd' (dvd_refl _)
    · rw [if_neg hc]
      have hlt' : ff_val r < ff_val sd := by
        have := (ff_cmp_lt_iff hr hsd).1 (by omega)
        exact this
      apply ff_div_loop_spec D N s _ _ _ (by omega) hq hr hshr_wf hnext
      · rw [← hsdv']; exact hlt'
      · exact hN
      · exact hdvd'

theorem ff_div_spec {num den : ff_t} (hn : ff_wf num) (hd : ff_wf den) (h0 : ff_val den ≠ 0) :
    ff_wf (ff_div num den).1 ∧ ff_wf (ff_div num den).2 ∧
    ff_val num = ff_val (ff_div num den).1 * ff_val den + ff_val (ff_div num den).2 ∧
    ff_val (ff_div num den).2 < ff_val den := by
  have hz : ff_is_zero den = false := by
    cases h : ff_is_zero den
    · rfl
    · exact absurd ((ff_is_zero_iff den).1 h) h0
  unfold ff_div
  rw [hz]
  simp only [Bool.false_eq_true, if_false]
  by_cases hlt : ff_cmp num den < 0
  · rw [if_pos hlt]
    have := (ff_cmp_lt_iff hn hd).1 hlt
    show ff_wf ff_zero ∧ ff_wf num ∧ ff_val num = ff_val ff_zero * ff_val den + ff_val num ∧
      ff_val num < ff_val den
    refine ⟨ff_wf_zero, hn, ?_, this⟩
    rw [ff_val_zero]
    omega
  · rw [if_neg hlt]
    have hle : ff_val den ≤ ff_val num := (ff_cmp_ge_iff hn hd).1 (by omega)
    have hn0 : ff_val num ≠ 0 := by omega
    obtain ⟨cd1, cd2, cd3⟩ := ff_clz_spec hd h0
    obtain ⟨cn1, cn2, cn3⟩ := ff_clz_spec hn hn0
    have hclz : ff_clz num ≤ ff_clz den := by
      have h1 : 2 ^ (255 - ff_clz den) < 2 ^ (256 - ff_clz num) := by omega
      have h2 := (Nat.pow_lt_pow_iff_right (by norm_num : 1 < 2)).1 h1
      omega
    have hshift : (ff_clz den : Int) - (ff_clz num : Int) =
        ((ff_clz den - ff_clz num : Nat) : Int) := by omega
    have hiter : ((ff_clz den : Int) - (ff_clz num : Int) + 1).toNat =
        ff_clz den - ff_clz num + 1 := by omega
    rw [hiter, hshift]
    have e1 : 256 - ff_clz den + (ff_clz den - ff_clz num) = 256 - ff_clz num := by omega
    have e2 : 255 - ff_clz den + (ff_clz den - ff_clz num + 1) = 256 - ff_clz num := by omega
    have hnoov : ff_val den * 2 ^ (ff_clz den - ff_clz num) < 2 ^ 256 := by
      have h1 : ff_val den * 2 ^ (ff_clz den - ff_clz num) <
          2 ^ (256 - ff_clz den) * 2 ^ (ff_clz den - ff_clz num) :=
        Nat.mul_lt_mul_of_pos_right cd3 (Nat.two_pow_pos _)
      rw [← Nat.pow_add, e1] at h1
      exact lt_of_lt_of_le h1 (Nat.pow_le_pow_right (by norm_num) (by omega))
    obtain ⟨hs_wf, hs_v⟩ := ff_shl_spec hd (ff_clz den - ff_clz num) (by omega)
    rw [Nat.mod_eq_of_lt hnoov] at hs_v
    apply ff_div_loop_spec (ff_val den) (ff_val num) _ _ _ _ (by omega) ff_wf_zero hn hs_wf
    · intro s hs
      rw [hs_v]
      congr 2
      omega
    · have h1 : 2 ^ (255 - ff_clz den) * 2 ^ (ff_clz den - ff_clz num + 1) ≤
          ff_val den * 2 ^ (ff_clz den - ff_clz num + 1) :=
        Nat.mul_le_mul_right _ cd2
      rw [← Nat.pow_add, e2] at h1
      omega
    · rw [ff_val_zero]
      omega
    · rw [ff_val_zero]
      exact dvd_zero _

/-- C4: for a well-formed dividend and a well-formed non-zero divisor, `ff_div`
returns `q` and `r` with `dividend = divisor * q + r` as exact integers and
`r < divisor`, that is `q = dividend / divisor` and `r = dividend mod divisor`;
when `dividend < divisor` the quotient is zero and the remainder is the dividend. -/
theorem ff_div_correct (dividend divisor : ff_t) (hn : ff_wf dividend) (hd : ff_wf divisor)
    (h0 : ff_val divisor ≠ 0) :
    ff_wf (ff_div dividend divisor).1 ∧ ff_wf (ff_div dividend divisor).2 ∧
    ff_val dividend =
      ff_val divisor * ff_val (ff_div dividend divisor).1 + ff_val (ff_div dividend divisor).2 ∧
    ff_val (ff_div dividend divisor).2 < ff_val divisor ∧
    ff_val (ff_div dividend divisor).1 = ff_val dividend / ff_val divisor ∧
    ff_val (ff_div dividend divisor).2 = ff_val dividend % ff_val divisor ∧
    (ff_val dividend < ff_val divisor →
      ff_div dividend divisor = (ff_zero, dividend)) := by
  obtain ⟨h1, h2, h3, h4⟩ := ff_div_spec hn hd h0
  have h3' : ff_val dividend =
      ff_val divisor * ff_val (ff_div dividend divisor).1 + ff_val (ff_div dividend divisor).2 := by
    rw [Nat.mul_comm]
    exact h3
  have h3'' : ff_val (ff_div dividend divisor).2 +
      ff_val divisor * ff_val (ff_div dividend divisor).1 = ff_val dividend := by
    rw [Nat.add_comm]
    exact h3'.symm
  have hdm := (Nat.div_mod_unique (Nat.pos_of_ne_zero h0)).2 ⟨h3'', h4⟩
  refine ⟨h1, h2, h3', h4, hdm.1.symm, hdm.2.symm, ?_⟩
  intro hlt
  have hz : ff_is_zero divisor = false := by
    cases h : ff_is_zero divisor
    · rfl
    · exact absurd ((ff_is_zero_iff divisor).1 h) h0
  unfold ff_div
  rw [hz]
  simp only [Bool.false_eq_true, if_false]
  rw [if_pos ((ff_cmp_lt_iff hn hd).2 hlt)]

theorem ff_div_correct_witness :
    ff_wf (ff_of_nat 101) ∧ ff_wf (ff_of_nat 10) ∧ ff_val (ff_of_nat 10) ≠ 0 ∧
    ff_div (ff_of_nat 101) (ff_of_nat 10) = (ff_of_nat 10, ff_of_nat 1) ∧
    ff_val (ff_div (ff_of_nat 101) (ff_of_nat 10)).1 =
      ff_val (ff_of_nat 101) / ff_val (ff_of_nat 10) ∧
    ff_val (ff_div (ff_of_nat 101) (ff_of_nat 10)).2 =
      ff_val (ff_of_nat 101) % ff_val (ff_of_nat 10) :=
  ⟨by decide, by decide, by decide, by decide,
    (ff_div_correct (ff_of_nat 101) (ff_of_nat 10) (by decide) (by decide) (by decide)).2.2.2.2.1,
    (ff_div_correct (ff_of_nat 101) (ff_of_nat 10) (by decide) (by decide)
      (by decide)).2.2.2.2.2.1⟩

/-! ## Modular reduction -/

theorem ff_shl_one_spec {x : ff_t} (hx : ff_wf x) :
    ff_wf (ff_shl x 1) ∧ ff_val (ff_shl x 1) = (ff_val x * 2) % 2 ^ 256 := by
  have h := ff_shl_spec hx 1 (by norm_num)
  rw [Nat.pow_one] at h
  exact h

theorem ff_shr_one_spec {x : ff_t} (hx : ff_wf x) :
    ff_wf (ff_shr x 1) ∧ ff_val (ff_shr x 1) = ff_val x / 2 := by
  have h := ff_shr_spec hx 1 (by norm_num)
  rw [Nat.pow_one] at h
  exact h

/-- The alignment loop of `ff_mod`, as long as doubling the modulus stays below
`2^256`: it stops at the first `J` with `temp < modulus * 2^J`. -/
theorem ff_mod_align_spec (M A K : Nat) (temp : ff_t) (htemp : ff_wf temp)
    (hA : ff_val temp = A) (hM : 0 < M) (hK1 : A < M * 2 ^ K) (hK2 : M * 2 ^ K < 2 ^ 256) :
    ∀ (c : Nat) (sm : ff_t) (j : Nat), ff_wf sm → ff_val sm = M * 2 ^ j → j ≤ K →
      c + j = 255 →
      ∃ J : Nat, (ff_mod_align temp c sm (j : Int)).2 = (J : Int) ∧ j ≤ J ∧ J ≤ K ∧
        ff_wf (ff_mod_align temp c sm (j : Int)).1 ∧
        ff_val (ff_mod_align temp c sm (j : Int)).1 = M * 2 ^ J ∧ A < M * 2 ^ J
  | 0, sm, j, hsm, hv, hj, hc => by
    have hK : K < 256 := by
      have h1 : 1 * 2 ^ K ≤ M * 2 ^ K := Nat.mul_le_mul_right _ hM
      rw [Nat.one_mul] at h1
      exact (Nat.pow_lt_pow_iff_right (by norm_num : 1 < 2)).1 (lt_of_le_of_lt h1 hK2)
    have hjK : j = K := by omega
    refine ⟨j, rfl, le_refl _, hj, hsm, hv, ?_⟩
    rw [hjK]
    exact hK1
  | c + 1, sm, j, hsm, hv, hj, hc => by
    rw [ff_mod_align]
    by_cases hcmp : ff_cmp sm temp ≤ 0
    · rw [if_pos hcmp]
      have hle : M * 2 ^ j ≤ A := by
        rw [← hv, ← hA]
        exact (ff_cmp_le_iff hsm htemp).1 hcmp
      have hjK : j < K := by
        by_contra hge
        have h1 : M * 2 ^ K ≤ M * 2 ^ j :=
          Nat.mul_le_mul_left _ (Nat.pow_le_pow_right (by norm_num) (by omega))
        omega
      obtain ⟨hs_wf, hs_v⟩ := ff_shl_one_spec hsm
      have hdouble : M * 2 ^ (j + 1) < 2 ^ 256 :=
        lt_of_le_of_lt (Nat.mul_le_mul_left _ (Nat.pow_le_pow_right (by norm_num) hjK)) hK2
      have hs_v' : ff_val (ff_shl sm 1) = M * 2 ^ (j + 1) := by
        rw [hs_v, hv, Nat.mul_assoc, ← Nat.pow_succ, Nat.mod_eq_of_lt hdouble]
      obtain ⟨J, h1, h2, h3, h4, h5, h6⟩ :=
        ff_mod_align_spec M A K temp htemp hA hM hK1 hK2 c _ (j + 1) hs_wf hs_v' hjK (by omega)
      have hcast : ((j : Int) + 1) = ((j + 1 : Nat) : Int) := by omega
      refine ⟨J, ?_, by omega, h3, ?_, ?_, h6⟩
      · rw [hcast]; exact h1
      · rw [hcast]; exact h4
      · rw [hcast]; exact h5
    · rw [if_neg hcmp]
      have hlt : A < M * 2 ^ j := by
        rw [← hv, ← hA]
        exact (ff_cmp_lt_iff htemp hsm).1 (by
          rcases ff_cmp_spec hsm htemp with ⟨h, _⟩ | ⟨h, _⟩ | ⟨h, h'⟩
          · omega
          · omega
          · exact (ff_cmp_lt_iff htemp hsm).2 h')
      exact ⟨j, rfl, le_refl _, hj, hsm, hv, hlt⟩

/-- The subtraction loop of `ff_mod`: `k` iterations starting from
`shifted_mod = modulus * 2^(k-1)` reduce `temp < modulus * 2^k` modulo `modulus`. -/
theorem ff_mod_reduce_spec (M A : Nat) (hM : 0 < M) : ∀ (k : Nat) (temp sm : ff_t),
    ff_wf temp → ff_wf sm → (∀ s, k = s + 1 → ff_val sm = M * 2 ^ s) →
    ff_val temp < M * 2 ^ k → ff_val temp % M = A % M →
    ff_wf (ff_mod_reduce k temp sm) ∧ ff_val (ff_mod_reduce k temp sm) = A % M
  | 0, temp, sm, ht, _, _, hlt, hmod => by
    rw [Nat.pow_zero, Nat.mul_one] at hlt
    rw [ff_mod_reduce, ← hmod, Nat.mod_eq_of_lt hlt]
    exact ⟨ht, rfl⟩
  | s + 1, temp, sm, ht, hsm, hsmv, hlt, hmod => by
    have hv : ff_val sm = M * 2 ^ s := hsmv s rfl
    obtain ⟨hshr_wf, hshr_v⟩ := ff_shr_one_spec hsm
    have hnext : ∀ s', s = s' + 1 → ff_val (ff_shr sm 1) = M * 2 ^ s' := by
      intro s' hs'
      rw [hshr_v, hv, hs', Nat.pow_succ, ← Nat.mul_assoc,
        Nat.mul_div_cancel _ (by norm_num)]
    rw [Nat.pow_succ, ← Nat.mul_assoc] at hlt
    rw [ff_mod_reduce]
    by_cases hc : ff_cmp temp sm ≥ 0
    · simp only [if_pos hc]
      have hle : ff_val sm ≤ ff_val temp := (ff_cmp_ge_iff ht hsm).1 hc
      have hr_wf := ff_sub_wf ht hsm
      have hr_v := ff_sub_val_of_le ht hsm hle
      apply ff_mod_reduce_spec M A hM s _ _ hr_wf hshr_wf hnext
      · rw [hr_v, hv]; omega
      · rw [hr_v, hv, ← hmod]
        rw [hv] at hle
        exact Nat.sub_mul_mod hle
    · simp only [if_neg hc]
      have hlt' : ff_val temp < ff_val sm := (ff_cmp_lt_iff ht hsm).1 (by omega)
      apply ff_mod_reduce_spec M A hM s _ _ ht hshr_wf hnext
      · rw [← hv]; exact hlt'
      · exact hmod

/-- Conditional correctness of the reduction: `ff_mod x m` is `x mod m` whenever some doubling `m * 2^K` of the modulus
exceeds `x` without leaving 256 bits. -/
theorem ff_mod_spec {x m : ff_t} (hx : ff_wf x) (hm : ff_wf m) (K : Nat)
    (hK1 : ff_val x < ff_val m * 2 ^ K) (hK2 : ff_val m * 2 ^ K < 2 ^ 256) :
    ff_wf (ff_mod x m) ∧ ff_val (ff_mod x m) = ff_val x % ff_val m := by
  have hM : 0 < ff_val m := by
    rcases Nat.eq_zero_or_pos (ff_val m) with h | h
    · rw [h, Nat.zero_mul] at hK1
      omega
    · exact h
  unfold ff_mod
  by_cases hlt : ff_cmp x m < 0
  · rw [if_pos hlt, Nat.mod_eq_of_lt ((ff_cmp_lt_iff hx hm).1 hlt)]
    exact ⟨hx, rfl⟩
  · rw [if_neg hlt]
    have hle : ff_val m ≤ ff_val x := (ff_cmp_ge_iff hx hm).1 (by omega)
    obtain ⟨J, h1, _, _, h4, h5, h6⟩ :=
      ff_mod_align_spec (ff_val m) (ff_val x) K x hx rfl hM hK1 hK2 255 m 0 hm
        (by rw [Nat.pow_zero, Nat.mul_one]) (Nat.zero_le _) rfl
    have hcast : ((0 : Nat) : Int) = 0 := rfl
    rw [hcast] at h1 h4 h5
    have hJ : 1 ≤ J := by
      rcases Nat.eq_zero_or_pos J with h | h
      · rw [h, Nat.pow_zero, Nat.mul_one] at h6
        omega
      · exact h
    obtain ⟨hshr_wf, hshr_v⟩ := ff_shr_one_spec h4
    have hiter : ((ff_mod_align x (FF_SIZE - 1) m 0).2 - 1 + 1).toNat = J := by
      have : (ff_mod_align x (FF_SIZE - 1) m 0).2 = (J : Int) := h1
      rw [this]
      omega
    simp only [hiter]
    apply ff_mod_reduce_spec (ff_val m) (ff_val x) hM J x _ hx hshr_wf _ h6 rfl
    intro s hs
    rw [hshr_v, h5, hs, Nat.pow_succ, ← Nat.mul_assoc, Nat.mul_div_cancel _ (by norm_num)]

/-- The reduction `ff_mod x m` is `x mod m` for every `x` below `2^255` and non-zero `m`. -/
theorem ff_mod_spec_of_lt {x m : ff_t} (hx : ff_wf x) (hm : ff_wf m) (h0 : ff_val m ≠ 0)
    (h : ff_val x < 2 ^ 255) :
    ff_wf (ff_mod x m) ∧ ff_val (ff_mod x m) = ff_val x % ff_val m := by
  obtain ⟨c1, c2, c3⟩ := ff_clz_spec hm h0
  apply ff_mod_spec hx hm (ff_clz m)
  · have h1 : 2 ^ (255 - ff_clz m) * 2 ^ ff_clz m ≤ ff_val m * 2 ^ ff_clz m :=
      Nat.mul_le_mul_right _ c2
    rw [← Nat.pow_add, Nat.sub_add_cancel c1] at h1
    omega
  · have h1 : ff_val m * 2 ^ ff_clz m < 2 ^ (256 - ff_clz m) * 2 ^ ff_clz m :=
      Nat.mul_lt_mul_of_pos_right c3 (Nat.two_pow_pos _)
    rw [← Nat.pow_add, Nat.sub_add_cancel (by omega)] at h1
    exact h1

/-! ## Claims C7 and C8 -/

/-- C7 (counterexample): with `a = b = 2^128 < 2^255` and `m = 3`, `ff_mul`
keeps only the low 256 bits of `2^256`, so `ff_mod_mul` returns 0, while the
exact product is 1 modulo 3. -/
theorem ff_mod_mul_truncation_counterexample :
    ff_wf [0, 0, 0, 0, 1, 0, 0, 0] ∧ ff_wf (ff_from_u32 3) ∧ ff_val (ff_from_u32 3) ≠ 0 ∧
    ff_val [0, 0, 0, 0, 1, 0, 0, 0] < 2 ^ 255 ∧
    ¬ (ff_val (ff_mod_mul [0, 0, 0, 0, 1, 0, 0, 0] [0, 0, 0, 0, 1, 0, 0, 0] (ff_from_u32 3)) =
      (ff_val [0, 0, 0, 0, 1, 0, 0, 0] * ff_val [0, 0, 0, 0, 1, 0, 0, 0]) %
        ff_val (ff_from_u32 3)) := by
  decide!

/-- C7 (amended): for a non-zero modulus `m` and operands whose exact product is
below `2^255`, `ff_mod_mul x y m` is `(x * y) mod m`. -/
theorem ff_mod_mul_correct (x y m : ff_t) (hx : ff_wf x) (hy : ff_wf y) (hm : ff_wf m)
    (h0 : ff_val m ≠ 0) (h : ff_val x * ff_val y < 2 ^ 255) :
    ff_wf (ff_mod_mul x y m) ∧
    ff_val (ff_mod_mul x y m) = (ff_val x * ff_val y) % ff_val m := by
  have hv : ff_val (ff_mul x y) = ff_val x * ff_val y := by
    rw [ff_mul_val hx hy]
    apply Nat.mod_eq_of_lt
    omega
  have := ff_mod_spec_of_lt (ff_mul_wf hx hy) hm h0 (by rw [hv]; exact h)
  rw [hv] at this
  exact this

theorem ff_mod_mul_correct_witness :
    ff_mod_mul (ff_from_u32 4) (ff_from_u32 5) (ff_from_u32 23) = ff_from_u32 20 ∧
    ff_val (ff_mod_mul (ff_from_u32 4) (ff_from_u32 5) (ff_from_u32 23)) =
      (ff_val (ff_from_u32 4) * ff_val (ff_from_u32 5)) % ff_val (ff_from_u32 23) :=
  ⟨by decide!,
    (ff_mod_mul_correct (ff_from_u32 4) (ff_from_u32 5) (ff_from_u32 23) (by decide) (by decide)
      (by decide) (by decide) (by decide)).2⟩

/-- C8 (counterexample): with the curve prime `p` as modulus and the reduced
operands `a = b = p - 1`, the carry out of `ff_add` is discarded, the wrapped
sum `2p - 2 - 2^256` is below `p` and is returned unchanged; it is not
`(a + b) mod p = p - 2`. -/
theorem ff_mod_add_carry_counterexample :
    ff_wf [0xfffffffe, 0xffffffff, 0xffffffff, 0, 0, 0, 1, 0xffffffff] ∧ ff_wf p ∧
    ff_val p ≠ 0 ∧
    ff_val [0xfffffffe, 0xffffffff, 0xffffffff, 0, 0, 0, 1, 0xffffffff] < ff_val p ∧
    ff_mod_add [0xfffffffe, 0xffffffff, 0xffffffff, 0, 0, 0, 1, 0xffffffff]
      [0xfffffffe, 0xffffffff, 0xffffffff, 0, 0, 0, 1, 0xffffffff] p =
      [0xfffffffc, 0xffffffff, 0xffffffff, 0x00000001, 0, 0, 2, 0xfffffffe] ∧
    ¬ (ff_val (ff_mod_add [0xfffffffe, 0xffffffff, 0xffffffff, 0, 0, 0, 1, 0xffffffff]
        [0xfffffffe, 0xffffffff, 0xffffffff, 0, 0, 0, 1, 0xffffffff] p) =
      (ff_val [0xfffffffe, 0xffffffff, 0xffffffff, 0, 0, 0, 1, 0xffffffff] +
        ff_val [0xfffffffe, 0xffffffff, 0xffffffff, 0, 0, 0, 1, 0xffffffff]) % ff_val p) := by
  decide!

/-- For a non-zero modulus `m` and operands whose exact sum is below `2^255`,
reduced or not, `ff_mod_add x y m` is `(x + y) mod m`. -/
theorem ff_mod_add_of_sum_lt (x y m : ff_t) (hx : ff_wf x) (hy : ff_wf y) (hm : ff_wf m)
    (h0 : ff_val m ≠ 0) (h : ff_val x + ff_val y < 2 ^ 255) :
    ff_wf (ff_mod_add x y m) ∧
    ff_val (ff_mod_add x y m) = (ff_val x + ff_val y) % ff_val m := by
  have hv : ff_val (ff_add x y) = ff_val x + ff_val y := by
    rw [ff_add_val hx hy]
    apply Nat.mod_eq_of_lt
    omega
  have := ff_mod_spec_of_lt (ff_add_wf hx hy) hm h0 (by rw [hv]; exact h)
  rw [hv] at this
  exact this

/-- C8 (amended): for every modulus `m` below `2^255` and all reduced operands
`x, y < m` (so `m` is non-zero), `ff_mod_add x y m` is `(x + y) mod m` over the
exact integer sum: the sum is below `2 * m < 2^256`, so `ff_add` has no carry
to discard and doubling the modulus once in `ff_mod` does not overflow. -/
theorem ff_mod_add_correct (x y m : ff_t) (hx : ff_wf x) (hy : ff_wf y) (hm : ff_wf m)
    (hm255 : ff_val m < 2 ^ 255) (hxm : ff_val x < ff_val m)
    (hym : ff_val y < ff_val m) :
    ff_wf (ff_mod_add x y m) ∧
    ff_val (ff_mod_add x y m) = (ff_val x + ff_val y) % ff_val m := by
  have hv : ff_val (ff_add x y) = ff_val x + ff_val y := by
    rw [ff_add_val hx hy]
    apply Nat.mod_eq_of_lt
    omega
  have hs := ff_mod_spec (ff_add_wf hx hy) hm 1 (by rw [hv]; omega) (by omega)
  rw [hv] at hs
  exact hs

theorem ff_mod_add_correct_witness :
    ff_wf [0xffffffff, 0xffffffff, 0xffffffff, 0xffffffff, 0xffffffff, 0xffffffff, 0xffffffff,
      0x5fffffff] ∧
    ff_wf [0, 0, 0, 0, 0, 0, 0, 0x60000000] ∧
    ff_val [0, 0, 0, 0, 0, 0, 0, 0x60000000] < 2 ^ 255 ∧
    ff_val [0xffffffff, 0xffffffff, 0xffffffff, 0xffffffff, 0xffffffff, 0xffffffff, 0xffffffff,
      0x5fffffff] < ff_val [0, 0, 0, 0, 0, 0, 0, 0x60000000] ∧
    2 ^ 255 ≤ ff_val [0xffffffff, 0xffffffff, 0xffffffff, 0xffffffff, 0xffffffff, 0xffffffff,
      0xffffffff, 0x5fffffff] + ff_val [0xffffffff, 0xffffffff, 0xffffffff, 0xffffffff,
      0xffffffff, 0xffffffff, 0xffffffff, 0x5fffffff] ∧
    ff_mod_add [0xffffffff, 0xffffffff, 0xffffffff, 0xffffffff, 0xffffffff, 0xffffffff,
        0xffffffff, 0x5fffffff]
      [0xffffffff, 0xffffffff, 0xffffffff, 0xffffffff, 0xffffffff, 0xffffffff, 0xffffffff,
        0x5fffffff] [0, 0, 0, 0, 0, 0, 0, 0x60000000] =
      [0xfffffffe, 0xffffffff, 0xffffffff, 0xffffffff, 0xffffffff, 0xffffffff, 0xffffffff,
        0x5fffffff] ∧
    ff_mod_add (ff_from_u32 21) (ff_from_u32 20) (ff_from_u32 23) = ff_from_u32 18 ∧
    (ff_wf (ff_mod_add [0xffffffff, 0xffffffff, 0xffffffff, 0xffffffff, 0xffffffff, 0xffffffff,
        0xffffffff, 0x5fffffff]
      [0xffffffff, 0xffffffff, 0xffffffff, 0xffffffff, 0xffffffff, 0xffffffff, 0xffffffff,
        0x5fffffff] [0, 0, 0, 0, 0, 0, 0, 0x60000000]) ∧
      ff_val (ff_mod_add [0xffffffff, 0xffffffff, 0xffffffff, 0xffffffff, 0xffffffff,
        0xffffffff, 0xffffffff, 0x5fffffff]
      [0xffffffff, 0xffffffff, 0xffffffff, 0xffffffff, 0xffffffff, 0xffffffff, 0xffffffff,
        0x5fffffff] [0, 0, 0, 0, 0, 0, 0, 0x60000000]) =
      (ff_val [0xffffffff, 0xffffffff, 0xffffffff, 0xffffffff, 0xffffffff, 0xffffffff,
        0xffffffff, 0x5fffffff] +
        ff_val [0xffffffff, 0xffffffff, 0xffffffff, 0xffffffff, 0xffffffff, 0xffffffff,
          0xffffffff, 0x5fffffff]) % ff_val [0, 0, 0, 0, 0, 0, 0, 0x60000000]) :=
  ⟨by decide, by decide, by decide, by decide, by decide, by decide!, by decide!,
    ff_mod_add_correct
      [0xffffffff, 0xffffffff, 0xffffffff, 0xffffffff, 0xffffffff, 0xffffffff, 0xffffffff,
        0x5fffffff]
      [0xffffffff, 0xffffffff, 0xffffffff, 0xffffffff, 0xffffffff, 0xffffffff, 0xffffffff,
        0x5fffffff] [0, 0, 0, 0, 0, 0, 0, 0x60000000]
      (by decide) (by decide) (by decide) (by decide) (by decide) (by decide)⟩

/-! ## Point addition with the point at infinity, and negation -/

theorem word_replicate_zero : ∀ (k i : Nat), word (List.replicate k 0) i = 0
  | 0, _ => rfl
  | _ + 1, 0 => rfl
  | k + 1, i + 1 => by
    rw [List.replicate_succ, word_cons_succ]
    exact word_replicate_zero k i

theorem ff_eq_self (x : List Nat) : ff_eq x x = true := (ff_eq_iff x x rfl).2 rfl

theorem ff_wf_p : ff_wf p := by decide

theorem ff_sub_sub_self {x y : ff_t} (hx : ff_wf x) (hy : ff_wf y) :
    ff_sub x (ff_sub x y) = y := by
  have h1 := ff_sub_wf hx hy
  apply ff_val_inj_of_wf (ff_sub_wf hx h1) hy
  rw [ff_sub_val hx h1, ff_sub_val hx hy]
  have := ff_val_lt_of_wf hx
  have := ff_val_lt_of_wf hy
  omega

theorem ec_add_infinity_left (fuel : Nat) (P1 P2 : ECPoint) (h : P1.is_infinity ≠ 0) :
    ec_add fuel P1 P2 = some P2 := by
  unfold ec_add
  rw [if_pos h]

theorem ec_add_infinity_right (fuel : Nat) (P1 P2 : ECPoint) (h1 : P1.is_infinity = 0)
    (h2 : P2.is_infinity ≠ 0) : ec_add fuel P1 P2 = some P1 := by
  unfold ec_add
  rw [if_neg (by rw [h1]; simp), if_pos h2]

theorem ec_add_neg (fuel : Nat) (P1 P2 : ECPoint) (h1 : P1.is_infinity = 0)
    (h2 : P2.is_infinity = 0) (hx : P1.x = P2.x) (hy : P1.y = ff_sub p P2.y) :
    ec_add fuel P1 P2 = some ec_set_infinity := by
  unfold ec_add
  rw [if_neg (by rw [h1]; simp), if_neg (by rw [h2]; simp)]
  simp only [hx, hy, ff_eq_self, Bool.and_self, if_true]

/-- C15: the point at infinity produced by `ec_set_infinity` is a two-sided
identity of `ec_add`: for every point `P` that is non-infinity or the canonical
infinity, `ec_add P O = P` and `ec_add O P = P` (all three fields unchanged),
whatever the fuel. -/
theorem ec_add_infinity_identity (fuel : Nat) (P : ECPoint)
    (h : P.is_infinity = 0 ∨ P = ec_set_infinity) :
    ec_add fuel P ec_set_infinity = some P ∧ ec_add fuel ec_set_infinity P = some P := by
  refine ⟨?_, ec_add_infinity_left fuel _ _ (by decide)⟩
  rcases h with h | h
  · exact ec_add_infinity_right fuel _ _ h (by decide)
  · rw [h]
    exact ec_add_infinity_left fuel _ _ (by decide)

theorem ec_add_infinity_identity_witness :
    (g.is_infinity = 0 ∨ g = ec_set_infinity) ∧
    ec_add 0 g ec_set_infinity = some g ∧ ec_add 0 ec_set_infinity g = some g :=
  ⟨Or.inl rfl, ec_add_infinity_identity 0 g (Or.inl rfl)⟩

/-- C16: for every non-infinity point `P = (x, y)` with well-formed coordinates,
adding its negation `(x, ff_sub p y)` with `ec_add` gives the canonical point at
infinity (flag set, `x = 0`, `y = 0`), in either argument order and whatever the
fuel. -/
theorem ec_add_negation (fuel : Nat) (x y : ff_t) (hy : ff_wf y) :
    ec_add fuel (ec_init_point x y) (ec_init_point x (ff_sub p y)) = some ec_set_infinity ∧
    ec_add fuel (ec_init_point x (ff_sub p y)) (ec_init_point x y) = some ec_set_infinity ∧
    ec_set_infinity.is_infinity = 1 ∧ ec_set_infinity.x = ff_zero ∧
    ec_set_infinity.y = ff_zero := by
  refine ⟨?_, ?_, rfl, rfl, rfl⟩
  · exact ec_add_neg fuel (ec_init_point x y) (ec_init_point x (ff_sub p y)) rfl rfl rfl
      (ff_sub_sub_self ff_wf_p hy).symm
  · exact ec_add_neg fuel (ec_init_point x (ff_sub p y)) (ec_init_point x y) rfl rfl rfl rfl

theorem ec_add_negation_witness :
    ff_wf gy ∧
    ec_add 0 (ec_init_point gx gy) (ec_init_point gx (ff_sub p gy)) = some ec_set_infinity ∧
    ec_add 0 (ec_init_point gx (ff_sub p gy)) (ec_init_point gx gy) = some ec_set_infinity :=
  ⟨by decide, (ec_add_negation 0 gx gy (by decide)).1, (ec_add_negation 0 gx gy (by decide)).2.1⟩

/-! ## Scalar multiplication by zero -/

theorem ec_scalar_mul_loop_zero (fuel : Nat) (temp : ECPoint) : ∀ (cnt i : Nat),
    ec_scalar_mul_loop fuel temp ff_zero cnt i ec_set_infinity = some ec_set_infinity
  | 0, _ => rfl
  | cnt + 1, i => by
    have hstep : ec_scalar_mul_step fuel temp ff_zero i ec_set_infinity =
        some ec_set_infinity := by
      unfold ec_scalar_mul_step
      simp only [ec_add_infinity_left fuel ec_set_infinity ec_set_infinity (by decide)]
      have hw : word ff_zero (i / 32) = 0 := word_replicate_zero _ _
      rw [hw, Nat.zero_shiftRight, Nat.zero_and]
      simp
    rw [ec_scalar_mul_loop, hstep]
    exact ec_scalar_mul_loop_zero fuel temp cnt (i + 1)

/-- C14: for every point `P` (any coordinates, any infinity flag) and whatever
the fuel, `ec_scalar_mul P 0` returns the canonical point at infinity: flag set
and both coordinates zero. -/
theorem ec_scalar_mul_zero (fuel : Nat) (P : ECPoint) :
    ec_scalar_mul fuel P ff_zero = some ec_set_infinity ∧
    ec_set_infinity.is_infinity = 1 ∧ ec_set_infinity.x = ff_zero ∧
    ec_set_infinity.y = ff_zero :=
  ⟨ec_scalar_mul_loop_zero fuel P _ _, rfl, rfl, rfl⟩

/-! ## Division by zero -/

/-- C17: with a zero divisor (all limbs 0) `ff_div` sets every limb of the
quotient and of the remainder to `0xFFFFFFFF`, for every dividend. -/
theorem ff_div_by_zero (dividend divisor : ff_t) (h : ff_is_zero divisor = true) :
    ff_div dividend divisor =
      ([0xFFFFFFFF, 0xFFFFFFFF, 0xFFFFFFFF, 0xFFFFFFFF, 0xFFFFFFFF, 0xFFFFFFFF, 0xFFFFFFFF,
          0xFFFFFFFF],
        [0xFFFFFFFF, 0xFFFFFFFF, 0xFFFFFFFF, 0xFFFFFFFF, 0xFFFFFFFF, 0xFFFFFFFF, 0xFFFFFFFF,
          0xFFFFFFFF]) := by
  unfold ff_div
  rw [if_pos h]
  rfl

theorem ff_div_by_zero_witness :
    ff_is_zero ff_zero = true ∧
    ff_div ff_zero ff_zero =
      ([0xFFFFFFFF, 0xFFFFFFFF, 0xFFFFFFFF, 0xFFFFFFFF, 0xFFFFFFFF, 0xFFFFFFFF, 0xFFFFFFFF,
          0xFFFFFFFF],
        [0xFFFFFFFF, 0xFFFFFFFF, 0xFFFFFFFF, 0xFFFFFFFF, 0xFFFFFFFF, 0xFFFFFFFF, 0xFFFFFFFF,
          0xFFFFFFFF]) :=
  ⟨by decide, ff_div_by_zero ff_zero ff_zero (by decide)⟩

/-! ## Curve constants -/

/-- C18: the limb arrays of the curve constants `p`, `a`, `b`, `gx`, `gy` and `n`
are what `ff_from_hex` decodes from the six 64-digit hex strings of the
specification, and `g` is the non-infinity point `(gx, gy)`. -/
theorem curve_constants_match_hex :
    ff_from_hex (c_string "ffffffff00000001000000000000000000000000ffffffffffffffffffffffff") =
      some p ∧
    ff_from_hex (c_string "ffffffff00000001000000000000000000000000fffffffffffffffffffffffc") =
      some a ∧
    ff_from_hex (c_string "5ac635d8aa3a93e7b3ebbd55769886bc651d06b0cc53b0f63bce3c3e27d2604b") =
      some b ∧
    ff_from_hex (c_string "6b17d1f2e12c4247f8bce6e563a440f277037d812deb33a0f4a13945d898c296") =
      some gx ∧
    ff_from_hex (c_string "4fe342e2fe1a7f9b8ee7eb4a7c0f9e162bce33576b315ececbb6406837bf51f5") =
      some gy ∧
    ff_from_hex (c_string "ffffffff00000000ffffffffffffffffbce6faada7179e84f3b9cac2fc632551") =
      some n ∧
    ff_val p = 2 ^ 256 - 2 ^ 224 + 2 ^ 192 + 2 ^ 96 - 1 ∧
    g = ec_init_point gx gy ∧ g.x = gx ∧ g.y = gy ∧ g.is_infinity = 0 := by
  decide

/-! ## Hex decoding -/

theorem ff_from_hex_digit_eq (c : Nat) : ff_from_hex_digit c = hex_digit_value c := by
  unfold ff_from_hex_digit hex_digit_value
  split_ifs <;> first | rfl | (congr 1; omega)

theorem ff_from_hex_digit_lt {c d : Nat} (h : ff_from_hex_digit c = some d) : d < 16 := by
  unfold ff_from_hex_digit at h
  split_ifs at h <;> simp at h <;> omega

theorem pow16_eq (k : Nat) : (16 : Nat) ^ k = 2 ^ (4 * k) := by
  rw [Nat.pow_mul]

/-- Storing one nibble with `|=` into a result that holds `cnt` nibbles. -/
theorem ff_from_hex_store {result : ff_t} (hr : ff_wf result) (cnt d : Nat) (hcnt : cnt < 64)
    (hv : ff_val result < 16 ^ cnt) (hd : d < 16) :
    ff_wf (result.set (cnt / 8)
      (word result (cnt / 8) ||| ((d <<< (4 * (cnt % 8))) % 2 ^ 32))) ∧
    ff_val (result.set (cnt / 8)
      (word result (cnt / 8) ||| ((d <<< (4 * (cnt % 8))) % 2 ^ 32))) =
      ff_val result + 16 ^ cnt * d := by
  have hsplit : 4 * cnt = 32 * (cnt / 8) + 4 * (cnt % 8) := by omega
  have hsh : 4 * (cnt % 8) + 4 ≤ 32 := by omega
  have hpd : d * 2 ^ (4 * (cnt % 8)) < 2 ^ 32 := by
    have h1 : d * 2 ^ (4 * (cnt % 8)) < 16 * 2 ^ (4 * (cnt % 8)) :=
      Nat.mul_lt_mul_of_pos_right hd (Nat.two_pow_pos _)
    have h2 : 16 * 2 ^ (4 * (cnt % 8)) = 2 ^ (4 + 4 * (cnt % 8)) := by
      rw [Nat.pow_add]
    have h3 : 2 ^ (4 + 4 * (cnt % 8)) ≤ 2 ^ 32 := Nat.pow_le_pow_right (by norm_num) (by omega)
    omega
  have hshift : (d <<< (4 * (cnt % 8))) % 2 ^ 32 = 2 ^ (4 * (cnt % 8)) * d := by
    rw [Nat.shiftLeft_eq, Nat.mod_eq_of_lt hpd, Nat.mul_comm]
  have hw : word result (cnt / 8) < 2 ^ (4 * (cnt % 8)) := by
    rw [word_eq_div_mod result _ hr.2]
    apply lt_of_le_of_lt (Nat.mod_le _ _)
    rw [Nat.div_lt_iff_lt_mul (Nat.two_pow_pos _), ← Nat.pow_add,
      Nat.add_comm, ← hsplit, ← pow16_eq]
    exact hv
  have hor : word result (cnt / 8) ||| 2 ^ (4 * (cnt % 8)) * d =
      2 ^ (4 * (cnt % 8)) * d + word result (cnt / 8) := by
    rw [Nat.lor_comm]
    exact (Nat.mul_add_lt_is_or hw d).symm
  have hnl : 2 ^ (4 * (cnt % 8)) * d + word result (cnt / 8) < 2 ^ 32 := by
    have h1 : 2 ^ (4 * (cnt % 8)) * d + word result (cnt / 8) <
        2 ^ (4 * (cnt % 8)) * (d + 1) := by
      rw [Nat.mul_add, Nat.mul_one]
      omega
    have h2 : 2 ^ (4 * (cnt % 8)) * (d + 1) ≤ 2 ^ (4 * (cnt % 8)) * 16 :=
      Nat.mul_le_mul_left _ hd
    have h3 : 2 ^ (4 * (cnt % 8)) * 16 = 2 ^ (4 * (cnt % 8) + 4) := by
      rw [Nat.pow_add]
    have h4 : 2 ^ (4 * (cnt % 8) + 4) ≤ 2 ^ 32 := Nat.pow_le_pow_right (by norm_num) hsh
    omega
  have hidx : cnt / 8 < result.length := by rw [hr.1]; omega
  rw [hshift, hor]
  refine ⟨⟨by rw [List.length_set]; exact hr.1, limbs_ok_set _ _ _ hr.2 hnl⟩, ?_⟩
  have h := ff_val_set result (cnt / 8)
    (2 ^ (4 * (cnt % 8)) * d + word result (cnt / 8)) hidx
  have e : 2 ^ (32 * (cnt / 8)) * (2 ^ (4 * (cnt % 8)) * d) = 16 ^ cnt * d := by
    rw [← Nat.mul_assoc, ← Nat.pow_add, ← hsplit, ← pow16_eq]
  rw [Nat.mul_add, e] at h
  omega

theorem ff_from_hex_loop_spec : ∀ (cs : List Nat) (result : ff_t) (cnt : Nat),
    ff_wf result → ff_val result < 16 ^ cnt →
    cnt + (cs.filterMap ff_from_hex_digit).length ≤ 64 →
    ∃ r, ff_from_hex_loop cs result (cnt / 8) (4 * (cnt % 8)) = some r ∧ ff_wf r ∧
      ff_val r = ff_val result + 16 ^ cnt * lsb_value (cs.filterMap ff_from_hex_digit)
  | [], result, cnt, hr, _, _ => by
    refine ⟨result, rfl, hr, ?_⟩
    simp [lsb_value]
  | c :: cs, result, cnt, hr, hv, hlen => by
    cases hc : ff_from_hex_digit c with
    | none =>
      rw [List.filterMap_cons_none hc] at hlen ⊢
      obtain ⟨r, h1, h2, h3⟩ := ff_from_hex_loop_spec cs result cnt hr hv hlen
      refine ⟨r, ?_, h2, h3⟩
      rw [ff_from_hex_loop]
      simp only [hc]
      exact h1
    | some d =>
      rw [List.filterMap_cons_some hc] at hlen ⊢
      rw [List.length_cons] at hlen
      have hd := ff_from_hex_digit_lt hc
      have hcnt : cnt < 64 := by omega
      obtain ⟨hs_wf, hs_v⟩ := ff_from_hex_store hr cnt d hcnt hv hd
      have hv' : ff_val (result.set (cnt / 8)
          (word result (cnt / 8) ||| ((d <<< (4 * (cnt % 8))) % 2 ^ 32))) < 16 ^ (cnt + 1) := by
        rw [hs_v, Nat.pow_succ]
        have : 16 ^ cnt * d ≤ 16 ^ cnt * 15 := Nat.mul_le_mul_left _ (by omega)
        omega
      obtain ⟨r, h1, h2, h3⟩ := ff_from_hex_loop_spec cs _ (cnt + 1) hs_wf hv' (by omega)
      refine ⟨r, ?_, h2, ?_⟩
      · rw [ff_from_hex_loop]
        simp only [hc]
        have hidx : cnt / 8 < FF_WORDS := by
          have : FF_WORDS = 8 := rfl
          omega
        rw [if_pos hidx]
        by_cases h32 : 4 * (cnt % 8) + 4 = 32
        · rw [if_pos h32]
          have e1 : cnt / 8 + 1 = (cnt + 1) / 8 := by omega
          have e2 : 0 = 4 * ((cnt + 1) % 8) := by omega
          rw [e1, e2]
          exact h1
        · rw [if_neg h32]
          have e1 : cnt / 8 = (cnt + 1) / 8 := by omega
          have e2 : 4 * (cnt % 8) + 4 = 4 * ((cnt + 1) % 8) := by omega
          rw [e2]
          rw [e1] at h1 ⊢
          exact h1
      · rw [h3, hs_v, lsb_value, Nat.pow_succ]
        ring

theorem lsb_value_reverse_foldl : ∀ (ds : List Nat) (acc : Nat),
    ds.foldl (fun x d => 16 * x + d) acc = lsb_value ds.reverse + 16 ^ ds.length * acc
  | [], acc => by simp [lsb_value]
  | d :: ds, acc => by
    rw [List.foldl_cons, lsb_value_reverse_foldl ds, List.reverse_cons, List.length_cons]
    have happ : ∀ (l : List Nat) (x : Nat),
        lsb_value (l ++ [x]) = lsb_value l + 16 ^ l.length * x := by
      intro l x
      induction l with
      | nil => simp [lsb_value]
      | cons y l ih =>
        rw [List.cons_append, lsb_value, lsb_value, ih, List.length_cons, Nat.pow_succ]
        ring
    rw [happ, List.length_reverse, Nat.pow_succ]
    ring

theorem hex_string_value_foldl : ∀ (s : List Nat) (acc : Nat),
    s.foldl (fun x c => match hex_digit_value c with
      | some d => 16 * x + d
      | none => x) acc =
      (s.filterMap ff_from_hex_digit).foldl (fun x d => 16 * x + d) acc
  | [], _ => rfl
  | c :: s, acc => by
    rw [List.foldl_cons]
    cases hc : ff_from_hex_digit c with
    | none =>
      rw [List.filterMap_cons_none hc]
      have hc' : hex_digit_value c = none := by rw [← ff_from_hex_digit_eq]; exact hc
      simp only [hc']
      exact hex_string_value_foldl s acc
    | some d =>
      rw [List.filterMap_cons_some hc, List.foldl_cons]
      have hc' : hex_digit_value c = some d := by rw [← ff_from_hex_digit_eq]; exact hc
      simp only [hc']
      exact hex_string_value_foldl s (16 * acc + d)

theorem hex_string_value_eq (s : List Nat) :
    hex_string_value s = lsb_value (s.reverse.filterMap ff_from_hex_digit) := by
  refine (hex_string_value_foldl s 0).trans ?_
  rw [lsb_value_reverse_foldl, List.filterMap_reverse]
  simp

theorem ff_from_hex_spec (s : List Nat) (hnul : ∀ c ∈ s, c ≠ 0)
    (hlen : (s.filterMap ff_from_hex_digit).length ≤ 64) :
    ∃ r, ff_from_hex s = some r ∧ ff_wf r ∧ ff_val r = hex_string_value s := by
  have htw : (s.takeWhile fun c => c ≠ 0) = s := by
    rw [List.takeWhile_eq_self_iff]
    intro c hc
    simpa using hnul c hc
  have hlen' : 0 + (s.reverse.filterMap ff_from_hex_digit).length ≤ 64 := by
    rw [List.filterMap_reverse, List.length_reverse]
    omega
  obtain ⟨r, h1, h2, h3⟩ := ff_from_hex_loop_spec s.reverse ff_zero 0 ff_wf_zero
    (by rw [ff_val_zero]; norm_num) hlen'
  refine ⟨r, ?_, h2, ?_⟩
  · unfold ff_from_hex
    simp only [htw, List.take_length]
    exact h1
  · rw [h3, ff_val_zero, hex_string_value_eq]
    simp

/-- C20: the hex decoder is permissive.  For every NUL-free string `s` with at
most 64 hex-digit characters (and any number of other characters),
`ff_from_hex s` is the well-formed 256-bit value whose base-16 digits are the
hex-digit characters of `s` in order, most significant first; upper- and
lower-case digits have the same value and other characters are ignored. -/
theorem ff_from_hex_permissive (s : List Nat) (hnul : ∀ c ∈ s, c ≠ 0)
    (hlen : (s.filterMap hex_digit_value).length ≤ 64) :
    (∃ r, ff_from_hex s = some r ∧ ff_wf r ∧ ff_val r = hex_string_value s) ∧
    (∀ c, 65 ≤ c → c ≤ 70 → hex_digit_value c = hex_digit_value (c + 32)) := by
  have e : hex_digit_value = ff_from_hex_digit := by
    funext c
    exact (ff_from_hex_digit_eq c).symm
  refine ⟨ff_from_hex_spec s hnul (by rw [← e]; exact hlen), ?_⟩
  intro c h1 h2
  unfold hex_digit_value
  rw [if_neg (by omega), if_neg (by omega), if_pos ⟨h1, h2⟩, if_neg (by omega),
    if_pos (by omega)]
  congr 2

theorem ff_from_hex_permissive_witness :
    (∀ c ∈ c_string "dead BEEF-12", c ≠ 0) ∧
    ((c_string "dead BEEF-12").filterMap hex_digit_value).length ≤ 64 ∧
    hex_string_value (c_string "dead BEEF-12") = 0xdeadbeef12 ∧
    ff_from_hex (c_string "dead BEEF-12") = some [0xadbeef12, 0xde, 0, 0, 0, 0, 0, 0] ∧
    ∃ r, ff_from_hex (c_string "dead BEEF-12") = some r ∧ ff_wf r ∧
      ff_val r = hex_string_value (c_string "dead BEEF-12") :=
  ⟨by decide, by decide, by decide, by decide,
    (ff_from_hex_permissive (c_string "dead BEEF-12") (by decide) (by decide)).1⟩

/-! ## Hex encoding and the round trip -/

theorem nibbles_le_append : ∀ (m k v : Nat),
    nibbles_le v (m + k) = nibbles_le v m ++ nibbles_le (v / 16 ^ m) k
  | 0, k, v => by simp [nibbles_le]
  | m + 1, k, v => by
    have e : m + 1 + k = (m + k) + 1 := by omega
    rw [e, nibbles_le, nibbles_le, nibbles_le_append m k (v / 16), List.cons_append,
      Nat.div_div_eq_div_mul, Nat.pow_succ, Nat.mul_comm 16]

theorem nibbles_le_add_mul : ∀ (m v w : Nat), nibbles_le (v + 16 ^ m * w) m = nibbles_le v m
  | 0, _, _ => rfl
  | m + 1, v, w => by
    have e : v + 16 ^ (m + 1) * w = v + 16 * (16 ^ m * w) := by
      rw [Nat.pow_succ]; ring
    rw [nibbles_le, nibbles_le, e, Nat.add_mul_mod_self_left,
      Nat.add_mul_div_left _ _ (by norm_num : 0 < 16), nibbles_le_add_mul m (v / 16) w]

theorem nibbles_le_lsb_value : ∀ (ds : List Nat), (∀ d ∈ ds, d < 16) →
    nibbles_le (lsb_value ds) ds.length = ds
  | [], _ => rfl
  | d :: ds, h => by
    have hd : d < 16 := h d (List.mem_cons_self _ _)
    have ih := nibbles_le_lsb_value ds (fun x hx => h x (List.mem_cons_of_mem _ hx))
    rw [List.length_cons, lsb_value, nibbles_le, Nat.add_mul_mod_self_left,
      Nat.mod_eq_of_lt hd, Nat.add_mul_div_left _ _ (by norm_num : 0 < 16),
      Nat.div_eq_of_lt hd, Nat.zero_add, ih]

theorem byte_high (x : Nat) : (x &&& 0xFF) >>> 4 = x / 16 % 16 := by
  have h : x &&& 0xFF = x % 2 ^ 8 := Nat.and_pow_two_sub_one_eq_mod x 8
  rw [h, Nat.shiftRight_eq_div_pow]
  omega

theorem byte_low (x : Nat) : (x &&& 0xFF) &&& 0xF = x % 16 := by
  have h : x &&& 0xFF = x % 2 ^ 8 := Nat.and_pow_two_sub_one_eq_mod x 8
  have h' : (x % 2 ^ 8) &&& 0xF = (x % 2 ^ 8) % 2 ^ 4 :=
    Nat.and_pow_two_sub_one_eq_mod (x % 2 ^ 8) 4
  rw [h, h']
  omega

theorem byte_high_div (x : Nat) : (x &&& 255) / 2 ^ 4 = x / 16 % 16 := by
  have h := byte_high x
  rw [Nat.shiftRight_eq_div_pow] at h
  exact h

theorem ff_to_hex_word_eq (w : Nat) :
    ff_to_hex_word w = ((nibbles_le w 8).reverse).map ff_to_hex_char := by
  simp only [ff_to_hex_word, ff_to_hex_byte, byte_low, nibbles_le,
    Nat.shiftRight_eq_div_pow, byte_high_div, List.reverse_cons, List.reverse_nil,
    List.nil_append, List.cons_append, List.map_cons, List.map_nil, List.append_nil]
  have e7 : w / 2 ^ (3 * 8) / 16 % 16 = w / 16 / 16 / 16 / 16 / 16 / 16 / 16 % 16 := by omega
  have e6 : w / 2 ^ (3 * 8) % 16 = w / 16 / 16 / 16 / 16 / 16 / 16 % 16 := by omega
  have e5 : w / 2 ^ (2 * 8) / 16 % 16 = w / 16 / 16 / 16 / 16 / 16 % 16 := by omega
  have e4 : w / 2 ^ (2 * 8) % 16 = w / 16 / 16 / 16 / 16 % 16 := by omega
  have e3 : w / 2 ^ (1 * 8) / 16 % 16 = w / 16 / 16 / 16 % 16 := by omega
  have e2 : w / 2 ^ (1 * 8) % 16 = w / 16 / 16 % 16 := by omega
  have e1 : w / 2 ^ (0 * 8) / 16 % 16 = w / 16 % 16 := by omega
  have e0 : w / 2 ^ (0 * 8) % 16 = w % 16 := by omega
  rw [e7, e6, e5, e4, e3, e2, e1, e0]

theorem ff_to_hex_loop_eq (x : List Nat) (hx : limbs_ok x) : ∀ k : Nat,
    ff_to_hex_loop x k =
      ((nibbles_le (ff_val (x.take k)) (8 * k)).reverse).map ff_to_hex_char
  | 0 => rfl
  | k + 1 => by
    have hlt := ff_val_take_lt x k hx
    have e16 : (2 : Nat) ^ (32 * k) = 16 ^ (8 * k) := by
      rw [pow16_eq]; congr 1; omega
    rw [e16] at hlt
    rw [ff_to_hex_loop, ff_to_hex_loop_eq x hx k, ff_to_hex_word_eq, ff_val_take_succ, e16]
    have e : 8 * (k + 1) = 8 * k + 8 := by omega
    rw [e, nibbles_le_append, nibbles_le_add_mul,
      Nat.add_mul_div_left _ _ (pow_pos (by norm_num : 0 < 16) _),
      Nat.div_eq_of_lt hlt, Nat.zero_add, List.reverse_append, List.map_append]

/-- The encoder writes the 64 base-16 digits of the value, most significant first. -/
theorem ff_to_hex_spec {x : ff_t} (hx : ff_wf x) :
    ff_to_hex x = ((nibbles_le (ff_val x) 64).reverse).map ff_to_hex_char := by
  have h := ff_to_hex_loop_eq x hx.2 8
  rw [List.take_of_length_le (le_of_eq hx.1)] at h
  exact h

theorem lower_hex_digits : ∀ (s : List Nat), (∀ c ∈ s, is_lower_hex c) →
    (s.filterMap ff_from_hex_digit).length = s.length ∧
    (s.filterMap ff_from_hex_digit).map ff_to_hex_char = s
  | [], _ => ⟨rfl, rfl⟩
  | c :: s, h => by
    have hc : is_lower_hex c := h c (List.mem_cons_self _ _)
    obtain ⟨ih1, ih2⟩ := lower_hex_digits s (fun x hx => h x (List.mem_cons_of_mem _ hx))
    have hd : ∃ d, ff_from_hex_digit c = some d ∧ ff_to_hex_char d = c := by
      unfold is_lower_hex at hc
      unfold ff_from_hex_digit ff_to_hex_char
      rcases hc with ⟨h1, h2⟩ | ⟨h1, h2⟩
      · refine ⟨c - 48, by rw [if_pos ⟨h1, h2⟩], ?_⟩
        rw [if_pos (by omega)]
        omega
      · refine ⟨c - 97 + 10, by rw [if_neg (by omega), if_pos ⟨h1, h2⟩], ?_⟩
        rw [if_neg (by omega)]
        omega
    obtain ⟨d, hd1, hd2⟩ := hd
    rw [List.filterMap_cons_some hd1]
    refine ⟨by rw [List.length_cons, List.length_cons, ih1], ?_⟩
    rw [List.map_cons, hd2, ih2]

/-- C19: hex round trip.  For every string `s` of exactly 64 lowercase hex
characters, `ff_from_hex s` succeeds and the 64 bytes written by `ff_to_hex` on
its result are exactly `s`. -/
theorem ff_hex_round_trip (s : List Nat) (hlen : s.length = 64)
    (hhex : ∀ c ∈ s, is_lower_hex c) :
    ∃ r, ff_from_hex s = some r ∧ ff_to_hex r = s := by
  obtain ⟨hl, hm⟩ := lower_hex_digits s hhex
  have hnul : ∀ c ∈ s, c ≠ 0 := by
    intro c hc h0
    have := hhex c hc
    unfold is_lower_hex at this
    omega
  obtain ⟨r, h1, h2, h3⟩ := ff_from_hex_spec s hnul (by rw [hl, hlen])
  refine ⟨r, h1, ?_⟩
  have hdig : ∀ d ∈ (s.reverse.filterMap ff_from_hex_digit), d < 16 := by
    intro d hd
    obtain ⟨c, _, hc⟩ := List.mem_filterMap.1 hd
    exact ff_from_hex_digit_lt hc
  have hlen' : (s.reverse.filterMap ff_from_hex_digit).length = 64 := by
    rw [List.filterMap_reverse, List.length_reverse, hl, hlen]
  have hn := nibbles_le_lsb_value _ hdig
  rw [hlen', ← hex_string_value_eq, ← h3] at hn
  rw [ff_to_hex_spec h2, hn, List.filterMap_reverse, List.reverse_reverse, hm]

theorem ff_hex_round_trip_witness :
    (c_string "6b17d1f2e12c4247f8bce6e563a440f277037d812deb33a0f4a13945d898c296").length = 64 ∧
    (∀ c ∈ c_string "6b17d1f2e12c4247f8bce6e563a440f277037d812deb33a0f4a13945d898c296",
      is_lower_hex c) ∧
    ff_to_hex gx =
      c_string "6b17d1f2e12c4247f8bce6e563a440f277037d812deb33a0f4a13945d898c296" ∧
    ∃ r, ff_from_hex
        (c_string "6b17d1f2e12c4247f8bce6e563a440f277037d812deb33a0f4a13945d898c296") = some r ∧
      ff_to_hex r =
        c_string "6b17d1f2e12c4247f8bce6e563a440f277037d812deb33a0f4a13945d898c296" :=
  ⟨by decide, by decide, by decide,
    ff_hex_round_trip
      (c_string "6b17d1f2e12c4247f8bce6e563a440f277037d812deb33a0f4a13945d898c296")
      (by decide) (by decide)⟩

/-! ## Value-level mirror of the field operations

The limb-level functions are evaluated on concrete curve points through their
value-level mirrors: each lemma below states that a limb-level function, applied
to well-formed arguments, returns the well-formed limbs of what the mirror
computes on the values. -/

theorem ff_mod_align_nat (temp : ff_t) (htemp : ff_wf temp) : ∀ (c : Nat) (sm : ff_t) (j : Nat),
    ff_wf sm →
    ff_wf (ff_mod_align temp c sm (j : Int)).1 ∧
    ff_val (ff_mod_align temp c sm (j : Int)).1 =
      (nat_mod_align (ff_val temp) c (ff_val sm) j).1 ∧
    (ff_mod_align temp c sm (j : Int)).2 =
      ((nat_mod_align (ff_val temp) c (ff_val sm) j).2 : Int)
  | 0, sm, j, hsm => ⟨hsm, rfl, rfl⟩
  | c + 1, sm, j, hsm => by
    rw [ff_mod_align, nat_mod_align]
    by_cases hcmp : ff_cmp sm temp ≤ 0
    · have hle : ff_val sm ≤ ff_val temp := (ff_cmp_le_iff hsm htemp).1 hcmp
      rw [if_pos hcmp, if_pos hle]
      obtain ⟨hs_wf, hs_v⟩ := ff_shl_one_spec hsm
      have ih := ff_mod_align_nat temp htemp c (ff_shl sm 1) (j + 1) hs_wf
      rw [hs_v] at ih
      have hcast : ((j : Int) + 1) = ((j + 1 : Nat) : Int) := by omega
      rw [hcast]
      exact ih
    · have hle : ¬ ff_val sm ≤ ff_val temp := fun h => hcmp ((ff_cmp_le_iff hsm htemp).2 h)
      rw [if_neg hcmp, if_neg hle]
      exact ⟨hsm, rfl, rfl⟩

theorem ff_mod_reduce_nat : ∀ (k : Nat) (temp sm : ff_t), ff_wf temp → ff_wf sm →
    ff_wf (ff_mod_reduce k temp sm) ∧
    ff_val (ff_mod_reduce k temp sm) = nat_mod_reduce k (ff_val temp) (ff_val sm)
  | 0, temp, sm, ht, _ => ⟨ht, rfl⟩
  | k + 1, temp, sm, ht, hsm => by
    obtain ⟨hshr_wf, hshr_v⟩ := ff_shr_one_spec hsm
    rw [ff_mod_reduce, nat_mod_reduce, ← hshr_v]
    by_cases hc : ff_cmp temp sm ≥ 0
    · have hle : ff_val sm ≤ ff_val temp := (ff_cmp_ge_iff ht hsm).1 hc
      simp only [if_pos hc, if_pos hle]
      rw [← ff_sub_val_of_le ht hsm hle]
      exact ff_mod_reduce_nat k _ _ (ff_sub_wf ht hsm) hshr_wf
    · have hle : ¬ ff_val sm ≤ ff_val temp := fun h => hc ((ff_cmp_ge_iff ht hsm).2 h)
      simp only [if_neg hc, if_neg hle]
      exact ff_mod_reduce_nat k _ _ ht hshr_wf

theorem ff_mod_nat {x m : ff_t} (hx : ff_wf x) (hm : ff_wf m) :
    ff_wf (ff_mod x m) ∧ ff_val (ff_mod x m) = nat_mod (ff_val x) (ff_val m) := by
  unfold ff_mod nat_mod
  by_cases hlt : ff_cmp x m < 0
  · rw [if_pos hlt, if_pos ((ff_cmp_lt_iff hx hm).1 hlt)]
    exact ⟨hx, rfl⟩
  · have hlt' : ¬ ff_val x < ff_val m := fun h => hlt ((ff_cmp_lt_iff hx hm).2 h)
    rw [if_neg hlt, if_neg hlt']
    obtain ⟨h1, h2, h3⟩ := ff_mod_align_nat x hx 255 m 0 hm
    have hcast : ((0 : Nat) : Int) = 0 := rfl
    rw [hcast] at h1 h2 h3
    obtain ⟨hshr_wf, hshr_v⟩ := ff_shr_one_spec h1
    have hiter : ((ff_mod_align x (FF_SIZE - 1) m 0).2 - 1 + 1).toNat =
        (nat_mod_align (ff_val x) 255 (ff_val m) 0).2 := by
      have : (ff_mod_align x (FF_SIZE - 1) m 0).2 =
          ((nat_mod_align (ff_val x) 255 (ff_val m) 0).2 : Int) := h3
      rw [this]
      omega
    simp only [hiter]
    have h := ff_mod_reduce_nat (nat_mod_align (ff_val x) 255 (ff_val m) 0).2 x _ hx hshr_wf
    rw [hshr_v, h2] at h
    exact h

theorem ff_mod_add_nat {x y m : ff_t} (hx : ff_wf x) (hy : ff_wf y) (hm : ff_wf m) :
    ff_wf (ff_mod_add x y m) ∧
    ff_val (ff_mod_add x y m) = nat_mod_add (ff_val x) (ff_val y) (ff_val m) := by
  have h := ff_mod_nat (ff_add_wf hx hy) hm
  rw [ff_add_val hx hy] at h
  exact h

theorem ff_sub_nat {x y : ff_t} (hx : ff_wf x) (hy : ff_wf y) :
    ff_val (ff_sub x y) = nat_sub (ff_val x) (ff_val y) := ff_sub_val hx hy

theorem ff_mod_sub_nat {x y m : ff_t} (hx : ff_wf x) (hy : ff_wf y) (hm : ff_wf m) :
    ff_wf (ff_mod_sub x y m) ∧
    ff_val (ff_mod_sub x y m) = nat_mod_sub (ff_val x) (ff_val y) (ff_val m) := by
  have h := ff_mod_nat (ff_sub_wf hx hy) hm
  rw [ff_sub_val hx hy] at h
  exact h

theorem ff_mod_mul_nat {x y m : ff_t} (hx : ff_wf x) (hy : ff_wf y) (hm : ff_wf m) :
    ff_wf (ff_mod_mul x y m) ∧
    ff_val (ff_mod_mul x y m) = nat_mod_mul (ff_val x) (ff_val y) (ff_val m) := by
  have h := ff_mod_nat (ff_mul_wf hx hy) hm
  rw [ff_mul_val hx hy] at h
  exact h

theorem ff_eq_nat {x y : ff_t} (hx : ff_wf x) (hy : ff_wf y) :
    ff_eq x y = (ff_val x == ff_val y) := by
  by_cases h : x = y
  · rw [h, ff_eq_self]
    simp
  · have h1 : ff_eq x y = false := by
      cases he : ff_eq x y
      · rfl
      · exact absurd ((ff_eq_iff x y (hx.1.trans hy.1.symm)).1 he) h
    have h2 : ff_val x ≠ ff_val y := fun hv => h (ff_val_inj_of_wf hx hy hv)
    rw [h1]
    simp [h2]

theorem ff_is_zero_nat (x : ff_t) : ff_is_zero x = (ff_val x == 0) := by
  cases h : ff_is_zero x
  · have : ff_val x ≠ 0 := fun hv => by
      rw [(ff_is_zero_iff x).2 hv] at h
      cases h
    simp [this]
  · simp [(ff_is_zero_iff x).1 h]

theorem ff_div_nat {x y : ff_t} (hx : ff_wf x) (hy : ff_wf y) (h0 : ff_val y ≠ 0) :
    ff_wf (ff_div x y).1 ∧ ff_wf (ff_div x y).2 ∧
    ff_val (ff_div x y).1 = ff_val x / ff_val y ∧
    ff_val (ff_div x y).2 = ff_val x % ff_val y := by
  obtain ⟨h1, h2, h3, h4⟩ := ff_div_spec hx hy h0
  have h3' : ff_val (ff_div x y).2 + ff_val y * ff_val (ff_div x y).1 = ff_val x := by
    rw [Nat.mul_comm, Nat.add_comm]
    exact h3.symm
  have hdm := (Nat.div_mod_unique (Nat.pos_of_ne_zero h0)).2 ⟨h3', h4⟩
  exact ⟨h1, h2, hdm.1.symm, hdm.2.symm⟩

/-! ## Value-level mirror of the modular inverse -/

theorem ff_mod_inv_step_nat (st : InvState) (hr : ff_wf st.r) (hor : ff_wf st.old_r)
    (hs : ff_wf st.s) (hos : ff_wf st.old_s) (ht : ff_wf st.t) (hot : ff_wf st.old_t)
    (h0 : ff_val st.r ≠ 0) :
    ff_wf (ff_mod_inv_step st).r ∧ ff_wf (ff_mod_inv_step st).old_r ∧
    ff_wf (ff_mod_inv_step st).s ∧ ff_wf (ff_mod_inv_step st).old_s ∧
    ff_wf (ff_mod_inv_step st).t ∧ ff_wf (ff_mod_inv_step st).old_t ∧
    ff_val (ff_mod_inv_step st).r = ff_val st.old_r % ff_val st.r ∧
    ff_val (ff_mod_inv_step st).old_r = ff_val st.r ∧
    ff_val (ff_mod_inv_step st).s =
      nat_sub (ff_val st.old_s) (ff_val st.old_r / ff_val st.r * ff_val st.s % 2 ^ 256) ∧
    ff_val (ff_mod_inv_step st).old_s = ff_val st.s := by
  obtain ⟨hq, hrem, hqv, hremv⟩ := ff_div_nat hor hr h0
  have hqs := ff_mul_wf hq hs
  have hqt := ff_mul_wf hq ht
  refine ⟨hrem, hr, ff_sub_wf hos hqs, hs, ff_sub_wf hot hqt, ht, hremv, rfl, ?_, rfl⟩
  show ff_val (ff_sub st.old_s (ff_mul (ff_div st.old_r st.r).1 st.s)) = _
  rw [ff_sub_val hos hqs, ff_mul_val hq hs, hqv]
  rfl

theorem ff_mod_inv_euclid_nat : ∀ (fuel : Nat) (st : InvState),
    ff_wf st.r → ff_wf st.old_r → ff_wf st.s → ff_wf st.old_s → ff_wf st.t → ff_wf st.old_t →
    (ff_mod_inv_euclid fuel st = none ∧
      nat_inv_euclid fuel (ff_val st.r) (ff_val st.old_r) (ff_val st.s) (ff_val st.old_s) =
        none) ∨
    ∃ st', ff_mod_inv_euclid fuel st = some st' ∧ ff_wf st'.old_s ∧
      nat_inv_euclid fuel (ff_val st.r) (ff_val st.old_r) (ff_val st.s) (ff_val st.old_s) =
        some (ff_val st'.old_s)
  | 0, st, _, _, _, hos, _, _ => by
    rw [ff_mod_inv_euclid, nat_inv_euclid]
    by_cases hz : ff_val st.r = 0
    · rw [if_pos ((ff_is_zero_iff _).2 hz), if_pos hz]
      exact Or.inr ⟨st, rfl, hos, rfl⟩
    · have hz' : ¬ ff_is_zero st.r = true := fun h => hz ((ff_is_zero_iff _).1 h)
      rw [if_neg hz', if_neg hz]
      exact Or.inl ⟨rfl, rfl⟩
  | fuel + 1, st, hr, hor, hs, hos, ht, hot => by
    rw [ff_mod_inv_euclid, nat_inv_euclid]
    by_cases hz : ff_val st.r = 0
    · rw [if_pos ((ff_is_zero_iff _).2 hz), if_pos hz]
      exact Or.inr ⟨st, rfl, hos, rfl⟩
    · have hz' : ¬ ff_is_zero st.r = true := fun h => hz ((ff_is_zero_iff _).1 h)
      rw [if_neg hz', if_neg hz]
      obtain ⟨w1, w2, w3, w4, w5, w6, v1, v2, v3, v4⟩ :=
        ff_mod_inv_step_nat st hr hor hs hos ht hot hz
      have ih := ff_mod_inv_euclid_nat fuel (ff_mod_inv_step st) w1 w2 w3 w4 w5 w6
      rw [v1, v2, v3, v4] at ih
      exact ih

theorem ff_val_p_eq :
    ff_val p = 115792089210356248762697446949407573530086143415290314195533631308867097853951 := by
  decide

theorem ff_is_negative_iff {x : ff_t} (hx : ff_wf x) :
    ff_is_negative x ≠ 0 ↔ 2 ^ 255 ≤ ff_val x := by
  have hlt := ff_val_lt_of_wf hx
  have hw : word x FF_LAST_WORD = ff_val x / 2 ^ (32 * 7) % 2 ^ 32 := word_eq_div_mod x 7 hx.2
  unfold ff_is_negative
  rw [hw, Nat.and_one_is_mod, Nat.shiftRight_eq_div_pow]
  omega

theorem two_pow_256_sub_p :
    2 ^ 256 - ff_val p =
      26959946660873538059280334323183841250350249843923952699046031785985 := by
  decide

theorem nat_inv_lift_step (fuel v : Nat) (h1 : 2 ^ 255 ≤ v) (h2 : v < 2 ^ 256) :
    nat_inv_lift (fuel + 1) v = nat_inv_lift fuel ((v + ff_val p) % 2 ^ 256) := by
  have e : (v + ff_val p) % 2 ^ 256 =
      v - 26959946660873538059280334323183841250350249843923952699046031785985 := by
    rw [ff_val_p_eq]
    omega
  unfold nat_inv_lift
  rw [e, two_pow_256_sub_p, if_neg (by omega)]
  by_cases h3 : v - 26959946660873538059280334323183841250350249843923952699046031785985 <
      2 ^ 255
  · have hK : (v - 2 ^ 255) /
        26959946660873538059280334323183841250350249843923952699046031785985 = 0 := by
      omega
    rw [if_pos h3, hK, if_pos (by omega), Nat.zero_add, Nat.one_mul]
  · have hK : (v - 2 ^ 255) /
        26959946660873538059280334323183841250350249843923952699046031785985 =
        (v - 26959946660873538059280334323183841250350249843923952699046031785985 - 2 ^ 255) /
          26959946660873538059280334323183841250350249843923952699046031785985 + 1 := by
      omega
    rw [if_neg h3, hK]
    generalize (v - 26959946660873538059280334323183841250350249843923952699046031785985
      - 2 ^ 255) / 26959946660873538059280334323183841250350249843923952699046031785985 = K
    by_cases h4 : K + 1 ≤ fuel
    · have hv : v - (K + 1 + 1) *
          26959946660873538059280334323183841250350249843923952699046031785985 =
          v - 26959946660873538059280334323183841250350249843923952699046031785985 -
            (K + 1) * 26959946660873538059280334323183841250350249843923952699046031785985 := by
        omega
      rw [if_pos h4, if_pos (by omega), hv]
    · rw [if_neg h4, if_neg (by omega)]

theorem nat_inv_lift_lt {fuel v w : Nat} (h : nat_inv_lift fuel v = some w) : w < 2 ^ 255 := by
  unfold nat_inv_lift at h
  rw [two_pow_256_sub_p] at h
  by_cases h1 : v < 2 ^ 255
  · rw [if_pos h1] at h
    cases h
    exact h1
  · rw [if_neg h1] at h
    split_ifs at h
    cases h
    omega

theorem ff_mod_inv_lift_nat : ∀ (fuel : Nat) (x : ff_t), ff_wf x →
    (ff_mod_inv_lift fuel x = none ∧ nat_inv_lift fuel (ff_val x) = none) ∨
    ∃ r, ff_mod_inv_lift fuel x = some r ∧ ff_wf r ∧
      nat_inv_lift fuel (ff_val x) = some (ff_val r)
  | 0, x, hx => by
    rw [ff_mod_inv_lift]
    by_cases hneg : ff_is_negative x ≠ 0
    · have hv := (ff_is_negative_iff hx).1 hneg
      rw [if_pos hneg]
      refine Or.inl ⟨rfl, ?_⟩
      unfold nat_inv_lift
      rw [if_neg (by omega), if_neg (Nat.not_succ_le_zero _)]
    · have hv : ff_val x < 2 ^ 255 := by
        by_contra h
        exact hneg ((ff_is_negative_iff hx).2 (by omega))
      rw [if_neg hneg]
      refine Or.inr ⟨x, rfl, hx, ?_⟩
      unfold nat_inv_lift
      rw [if_pos hv]
  | fuel + 1, x, hx => by
    rw [ff_mod_inv_lift]
    by_cases hneg : ff_is_negative x ≠ 0
    · have hv := (ff_is_negative_iff hx).1 hneg
      rw [if_pos hneg, nat_inv_lift_step fuel _ hv (ff_val_lt_of_wf hx),
        ← ff_add_val hx ff_wf_p]
      exact ff_mod_inv_lift_nat fuel _ (ff_add_wf hx ff_wf_p)
    · have hv : ff_val x < 2 ^ 255 := by
        by_contra h
        exact hneg ((ff_is_negative_iff hx).2 (by omega))
      rw [if_neg hneg]
      refine Or.inr ⟨x, rfl, hx, ?_⟩
      unfold nat_inv_lift
      rw [if_pos hv]

theorem ff_mod_inv_lower_id (fuel : Nat) {x : ff_t} (hx : ff_wf x) (h : ff_val x < 2 ^ 255) :
    ff_mod_inv_lower fuel x = some x := by
  have hlt : ff_val x < ff_val p := by
    rw [ff_val_p_eq]
    omega
  have hc : ¬ ff_cmp x p ≥ 0 := by
    have := (ff_cmp_lt_iff hx ff_wf_p).2 hlt
    omega
  cases fuel with
  | zero => rw [ff_mod_inv_lower, if_neg hc]
  | succ k => rw [ff_mod_inv_lower, if_neg hc]

theorem ff_mod_inv_nat (fuel : Nat) {x : ff_t} (hx : ff_wf x) :
    (ff_mod_inv fuel x = none ∧ nat_mod_inv fuel (ff_val x) = none) ∨
    ∃ r, ff_mod_inv fuel x = some r ∧ ff_wf r ∧ nat_mod_inv fuel (ff_val x) = some (ff_val r) := by
  unfold ff_mod_inv nat_mod_inv
  by_cases hz : ff_val x = 0
  · rw [if_pos ((ff_is_zero_iff _).2 hz), if_pos hz]
    exact Or.inr ⟨ff_zero, rfl, ff_wf_zero, by rw [ff_val_zero]⟩
  · have hz' : ¬ ff_is_zero x = true := fun h => hz ((ff_is_zero_iff _).1 h)
    rw [if_neg hz', if_neg hz]
    obtain ⟨hra_wf, hra_v⟩ := ff_mod_nat hx ff_wf_p
    have he := ff_mod_inv_euclid_nat fuel
      { r := p, old_r := ff_mod x p, s := ff_from_u32 0, old_s := ff_from_u32 1,
        t := ff_from_u32 1, old_t := ff_from_u32 0 }
      ff_wf_p hra_wf (ff_wf_from_u32 0) (ff_wf_from_u32 1) (ff_wf_from_u32 1) (ff_wf_from_u32 0)
    have e0 : ff_val (ff_from_u32 0) = 0 := by decide
    have e1 : ff_val (ff_from_u32 1) = 1 := by decide
    simp only [hra_v, e0, e1] at he
    rcases he with ⟨he1, he2⟩ | ⟨st', he1, he2, he3⟩
    · simp only [he1, he2]
      exact Or.inl ⟨trivial, trivial⟩
    · simp only [he1, he3]
      rcases ff_mod_inv_lift_nat fuel st'.old_s he2 with ⟨hl1, hl2⟩ | ⟨r, hl1, hl2, hl3⟩
      · simp only [hl1, hl2]
        exact Or.inl ⟨trivial, trivial⟩
      · simp only [hl1, hl3]
        have hrlt := nat_inv_lift_lt hl3
        rw [ff_mod_inv_lower_id fuel hl2 hrlt]
        obtain ⟨hc_wf, hc_v⟩ := ff_mod_nat (ff_mul_wf hra_wf hl2) ff_wf_p
        rw [ff_mul_val hra_wf hl2, hra_v] at hc_v
        simp only []
        rw [ff_eq_nat hc_wf (ff_wf_from_u32 1), hc_v, e1]
        by_cases hchk :
            nat_mod (nat_mod (ff_val x) (ff_val p) * ff_val r % 2 ^ 256) (ff_val p) = 1
        · rw [if_pos hchk]
          simp only [hchk, beq_self_eq_true, Bool.not_true, Bool.false_eq_true, if_false]
          exact Or.inr ⟨r, rfl, hl2, rfl⟩
        · rw [if_neg hchk]
          have hb : (nat_mod (nat_mod (ff_val x) (ff_val p) * ff_val r % 2 ^ 256) (ff_val p)
              == 1) = false := by simpa using hchk
          simp only [hb, Bool.not_false, if_true]
          exact Or.inr ⟨ff_zero, rfl, ff_wf_zero, by rw [ff_val_zero]⟩

/-! ## Value-level mirror of the curve operations -/

theorem ff_wf_a : ff_wf a := by decide

theorem ff_val_from_u32_two : ff_val (ff_from_u32 2) = 2 := by decide

theorem ff_val_from_u32_three : ff_val (ff_from_u32 3) = 3 := by decide

theorem ec_add_slope_double_nat (fuel : Nat) {P1 : ECPoint} (h1 : point_wf P1) :
    (ec_add_slope_double fuel P1 = none ∧ nat_slope_double fuel (point_val P1) = none) ∨
    ∃ m, ec_add_slope_double fuel P1 = some m ∧ ff_wf m ∧
      nat_slope_double fuel (point_val P1) = some (ff_val m) := by
  obtain ⟨hx, hy⟩ := h1
  obtain ⟨ht_wf, ht_v⟩ := ff_mod_nat (ff_mul_wf hx hx) ff_wf_p
  rw [ff_mul_val hx hx] at ht_v
  obtain ⟨hn1_wf, hn1_v⟩ := ff_mod_mul_nat (ff_wf_from_u32 3) ht_wf ff_wf_p
  rw [ff_val_from_u32_three, ht_v] at hn1_v
  obtain ⟨hn2_wf, hn2_v⟩ := ff_mod_add_nat hn1_wf ff_wf_a ff_wf_p
  rw [hn1_v] at hn2_v
  obtain ⟨hd_wf, hd_v⟩ := ff_mod_mul_nat (ff_wf_from_u32 2) hy ff_wf_p
  rw [ff_val_from_u32_two] at hd_v
  unfold ec_add_slope_double nat_slope_double
  simp only [point_val]
  rcases ff_mod_inv_nat fuel hd_wf with ⟨hi1, hi2⟩ | ⟨r, hi1, hi2, hi3⟩
  · rw [hd_v] at hi2
    simp only [hi1, hi2]
    exact Or.inl ⟨trivial, trivial⟩
  · rw [hd_v] at hi3
    simp only [hi1, hi3]
    obtain ⟨hm_wf, hm_v⟩ := ff_mod_mul_nat hn2_wf hi2 ff_wf_p
    rw [hn2_v] at hm_v
    exact Or.inr ⟨_, rfl, hm_wf, by rw [hm_v]⟩

theorem ec_add_slope_add_nat (fuel : Nat) {P1 P2 : ECPoint} (h1 : point_wf P1)
    (h2 : point_wf P2) :
    (ec_add_slope_add fuel P1 P2 = none ∧
      nat_slope_add fuel (point_val P1) (point_val P2) = none) ∨
    ∃ m, ec_add_slope_add fuel P1 P2 = some m ∧ ff_wf m ∧
      nat_slope_add fuel (point_val P1) (point_val P2) = some (ff_val m) := by
  obtain ⟨hx1, hy1⟩ := h1
  obtain ⟨hx2, hy2⟩ := h2
  have hd_wf := ff_sub_wf hx2 hx1
  have hd_v := ff_sub_nat hx2 hx1
  have hn_wf := ff_sub_wf hy2 hy1
  have hn_v := ff_sub_nat hy2 hy1
  unfold ec_add_slope_add nat_slope_add
  simp only [point_val]
  rcases ff_mod_inv_nat fuel hd_wf with ⟨hi1, hi2⟩ | ⟨r, hi1, hi2, hi3⟩
  · rw [hd_v] at hi2
    simp only [hi1, hi2]
    exact Or.inl ⟨trivial, trivial⟩
  · rw [hd_v] at hi3
    simp only [hi1, hi3]
    obtain ⟨hm_wf, hm_v⟩ := ff_mod_mul_nat hn_wf hi2 ff_wf_p
    rw [hn_v] at hm_v
    exact Or.inr ⟨_, rfl, hm_wf, by rw [hm_v]⟩

theorem point_val_infinity :
    point_val ec_set_infinity = { x := 0, y := 0, is_infinity := 1 } := by
  decide

theorem point_wf_infinity : point_wf ec_set_infinity := by decide

theorem ec_add_nat (fuel : Nat) {P1 P2 : ECPoint} (h1 : point_wf P1) (h2 : point_wf P2) :
    (ec_add fuel P1 P2 = none ∧ nat_ec_add fuel (point_val P1) (point_val P2) = none) ∨
    ∃ R, ec_add fuel P1 P2 = some R ∧ point_wf R ∧
      nat_ec_add fuel (point_val P1) (point_val P2) = some (point_val R) := by
  unfold ec_add nat_ec_add
  have hi1 : (point_val P1).is_infinity = P1.is_infinity := rfl
  have hi2 : (point_val P2).is_infinity = P2.is_infinity := rfl
  rw [hi1, hi2]
  by_cases c1 : P1.is_infinity ≠ 0
  · rw [if_pos c1, if_pos c1]
    exact Or.inr ⟨P2, rfl, h2, rfl⟩
  · rw [if_neg c1, if_neg c1]
    by_cases c2 : P2.is_infinity ≠ 0
    · rw [if_pos c2, if_pos c2]
      exact Or.inr ⟨P1, rfl, h1, rfl⟩
    · rw [if_neg c2, if_neg c2]
      have ex : ff_eq P1.x P2.x = ((point_val P1).x == (point_val P2).x) :=
        ff_eq_nat h1.1 h2.1
      have eneg : ff_eq P1.y (ff_sub p P2.y) =
          ((point_val P1).y == nat_sub (ff_val p) (point_val P2).y) := by
        rw [ff_eq_nat h1.2 (ff_sub_wf ff_wf_p h2.2), ff_sub_nat ff_wf_p h2.2]
        rfl
      have ey : ff_eq P1.y P2.y = ((point_val P1).y == (point_val P2).y) :=
        ff_eq_nat h1.2 h2.2
      simp only [ex, eneg, ey]
      by_cases c3 : ((point_val P1).x == (point_val P2).x &&
          (point_val P1).y == nat_sub (ff_val p) (point_val P2).y) = true
      · rw [if_pos c3, if_pos c3]
        exact Or.inr ⟨ec_set_infinity, rfl, point_wf_infinity, by rw [point_val_infinity]⟩
      · rw [if_neg c3, if_neg c3]
        have hslope :
            ((if ((point_val P1).x == (point_val P2).x &&
                (point_val P1).y == (point_val P2).y) = true
              then ec_add_slope_double fuel P1 else ec_add_slope_add fuel P1 P2) = none ∧
             (if ((point_val P1).x == (point_val P2).x &&
                (point_val P1).y == (point_val P2).y) = true
              then nat_slope_double fuel (point_val P1)
              else nat_slope_add fuel (point_val P1) (point_val P2)) = none) ∨
            ∃ m, (if ((point_val P1).x == (point_val P2).x &&
                (point_val P1).y == (point_val P2).y) = true
              then ec_add_slope_double fuel P1 else ec_add_slope_add fuel P1 P2) = some m ∧
              ff_wf m ∧
              (if ((point_val P1).x == (point_val P2).x &&
                (point_val P1).y == (point_val P2).y) = true
              then nat_slope_double fuel (point_val P1)
              else nat_slope_add fuel (point_val P1) (point_val P2)) = some (ff_val m) := by
          by_cases c4 : ((point_val P1).x == (point_val P2).x &&
              (point_val P1).y == (point_val P2).y) = true
          · rw [if_pos c4, if_pos c4]
            exact ec_add_slope_double_nat fuel h1
          · rw [if_neg c4, if_neg c4]
            exact ec_add_slope_add_nat fuel h1 h2
        rcases hslope with ⟨hs1, hs2⟩ | ⟨m, hs1, hm, hs2⟩
        · simp only [hs1, hs2]
          exact Or.inl ⟨trivial, trivial⟩
        · simp only [hs1, hs2]
          obtain ⟨hmm_wf, hmm_v⟩ := ff_mod_mul_nat hm hm ff_wf_p
          obtain ⟨hx3a_wf, hx3a_v⟩ := ff_mod_sub_nat hmm_wf h1.1 ff_wf_p
          obtain ⟨hx3_wf, hx3_v⟩ := ff_mod_sub_nat hx3a_wf h2.1 ff_wf_p
          have ht_wf := ff_sub_wf h1.1 hx3_wf
          have ht_v := ff_sub_nat h1.1 hx3_wf
          obtain ⟨hy3a_wf, hy3a_v⟩ := ff_mod_mul_nat hm ht_wf ff_wf_p
          obtain ⟨hy3_wf, hy3_v⟩ := ff_mod_sub_nat hy3a_wf h1.2 ff_wf_p
          refine Or.inr ⟨_, rfl, ⟨hx3_wf, hy3_wf⟩, ?_⟩
          simp only [point_val]
          rw [hy3_v, hy3a_v, ht_v, hx3_v, hx3a_v, hmm_v]

theorem ec_scalar_mul_step_nat (fuel : Nat) {temp R : ECPoint} (k : ff_t) (i : Nat)
    (ht : point_wf temp) (hR : point_wf R) :
    (ec_scalar_mul_step fuel temp k i R = none ∧
      nat_scalar_mul_step fuel (point_val temp) k i (point_val R) = none) ∨
    ∃ R', ec_scalar_mul_step fuel temp k i R = some R' ∧ point_wf R' ∧
      nat_scalar_mul_step fuel (point_val temp) k i (point_val R) = some (point_val R') := by
  unfold ec_scalar_mul_step nat_scalar_mul_step
  rcases ec_add_nat fuel hR hR with ⟨h1, h2⟩ | ⟨D, h1, hD, h2⟩
  · simp only [h1, h2]
    exact Or.inl ⟨trivial, trivial⟩
  · simp only [h1, h2]
    by_cases hb : (word k (i / 32) >>> (i % 32)) &&& 1 ≠ 0
    · rw [if_pos hb, if_pos hb]
      exact ec_add_nat fuel hD ht
    · rw [if_neg hb, if_neg hb]
      exact Or.inr ⟨D, rfl, hD, rfl⟩

theorem ec_scalar_mul_loop_nat (fuel : Nat) {temp : ECPoint} (k : ff_t) (ht : point_wf temp) :
    ∀ (cnt i : Nat) (R : ECPoint), point_wf R →
    (ec_scalar_mul_loop fuel temp k cnt i R = none ∧
      nat_scalar_mul_loop fuel (point_val temp) k cnt i (point_val R) = none) ∨
    ∃ R', ec_scalar_mul_loop fuel temp k cnt i R = some R' ∧ point_wf R' ∧
      nat_scalar_mul_loop fuel (point_val temp) k cnt i (point_val R) = some (point_val R')
  | 0, _, R, hR => Or.inr ⟨R, rfl, hR, rfl⟩
  | cnt + 1, i, R, hR => by
    rw [ec_scalar_mul_loop, nat_scalar_mul_loop]
    rcases ec_scalar_mul_step_nat fuel k i ht hR with ⟨h1, h2⟩ | ⟨R', h1, hR', h2⟩
    · simp only [h1, h2]
      exact Or.inl ⟨trivial, trivial⟩
    · simp only [h1, h2]
      exact ec_scalar_mul_loop_nat fuel k ht cnt (i + 1) R' hR'

theorem point_eq_of_val {R S : ECPoint} (hR : point_wf R) (hS : point_wf S)
    (h : point_val R = point_val S) : R = S := by
  cases R with
  | mk rx ry ri =>
    cases S with
    | mk sx sy si =>
      simp only [point_val, NatPoint.mk.injEq] at h
      obtain ⟨hx, hy, hi⟩ := h
      have ex : rx = sx := ff_val_inj_of_wf hR.1 hS.1 hx
      have ey : ry = sy := ff_val_inj_of_wf hR.2 hS.2 hy
      rw [ex, ey, hi]

/-- Evaluation of `ec_add` through its value-level mirror. -/
theorem ec_add_eval (fuel : Nat) {P1 P2 S : ECPoint} (h1 : point_wf P1) (h2 : point_wf P2)
    (hS : point_wf S)
    (h : nat_ec_add fuel (point_val P1) (point_val P2) = some (point_val S)) :
    ec_add fuel P1 P2 = some S := by
  rcases ec_add_nat fuel h1 h2 with ⟨_, hn⟩ | ⟨R, hR1, hR2, hn⟩
  · rw [hn] at h
    cases h
  · rw [hn] at h
    rw [hR1, point_eq_of_val hR2 hS (Option.some.inj h)]

/-- Evaluation of `ec_scalar_mul` through its value-level mirror. -/
theorem ec_scalar_mul_eval (fuel : Nat) {P S : ECPoint} (k : ff_t) (hP : point_wf P)
    (hS : point_wf S)
    (h : nat_scalar_mul fuel (point_val P) k = some (point_val S)) :
    ec_scalar_mul fuel P k = some S := by
  have h' : nat_scalar_mul_loop fuel (point_val P) k 256 0 (point_val ec_set_infinity) =
      some (point_val S) := by
    rw [point_val_infinity]
    exact h
  rcases ec_scalar_mul_loop_nat fuel k hP 256 0 ec_set_infinity point_wf_infinity with
    ⟨_, hn⟩ | ⟨R, hR1, hR2, hn⟩
  · rw [hn] at h'
    cases h'
  · rw [hn] at h'
    have : ec_scalar_mul fuel P k = some R := hR1
    rw [this, point_eq_of_val hR2 hS (Option.some.inj h')]

/-! ## Evaluation through the value-level mirror -/

/-- Evaluation of `ff_mod` through its value-level mirror. -/
theorem ff_mod_eval {x m r : ff_t} (hx : ff_wf x) (hm : ff_wf m) (hr : ff_wf r)
    (h : nat_mod (ff_val x) (ff_val m) = ff_val r) : ff_mod x m = r := by
  obtain ⟨h1, h2⟩ := ff_mod_nat hx hm
  exact ff_val_inj_of_wf h1 hr (h2.trans h)

/-- Evaluation of `ff_mod_sub` through its value-level mirror. -/
theorem ff_mod_sub_eval {x y m r : ff_t} (hx : ff_wf x) (hy : ff_wf y) (hm : ff_wf m)
    (hr : ff_wf r) (h : nat_mod_sub (ff_val x) (ff_val y) (ff_val m) = ff_val r) :
    ff_mod_sub x y m = r := by
  obtain ⟨h1, h2⟩ := ff_mod_sub_nat hx hy hm
  exact ff_val_inj_of_wf h1 hr (h2.trans h)

/-- Evaluation of `ff_mod_inv` through its value-level mirror. -/
theorem ff_mod_inv_eval (fuel : Nat) {x r : ff_t} (hx : ff_wf x) (hr : ff_wf r)
    (h : nat_mod_inv fuel (ff_val x) = some (ff_val r)) : ff_mod_inv fuel x = some r := by
  rcases ff_mod_inv_nat fuel hx with ⟨_, hn⟩ | ⟨r', h1, h2, hn⟩
  · rw [hn] at h
    cases h
  · rw [hn] at h
    rw [h1, ff_val_inj_of_wf h2 hr (Option.some.inj h)]

/-- Evaluation of `ff_mod_add` through its value-level mirror. -/
theorem ff_mod_add_eval {x y m r : ff_t} (hx : ff_wf x) (hy : ff_wf y) (hm : ff_wf m)
    (hr : ff_wf r) (h : nat_mod_add (ff_val x) (ff_val y) (ff_val m) = ff_val r) :
    ff_mod_add x y m = r := by
  obtain ⟨h1, h2⟩ := ff_mod_add_nat hx hy hm
  exact ff_val_inj_of_wf h1 hr (h2.trans h)

/-- The bound `m < 2^255` for reduced operands is tight: with `m = 2^255` and
`a = b = 2^254 < m` the sum equals `m`, doubling the modulus overflows, and
`ff_mod_add` returns `2^255` where `(a + b) mod m = 0`. -/
theorem ff_mod_add_bound_tight :
    ff_val [0, 0, 0, 0, 0, 0, 0, 0x80000000] = 2 ^ 255 ∧
    ff_val [0, 0, 0, 0, 0, 0, 0, 0x40000000] < ff_val [0, 0, 0, 0, 0, 0, 0, 0x80000000] ∧
    ff_mod_add [0, 0, 0, 0, 0, 0, 0, 0x40000000] [0, 0, 0, 0, 0, 0, 0, 0x40000000]
      [0, 0, 0, 0, 0, 0, 0, 0x80000000] = [0, 0, 0, 0, 0, 0, 0, 0x80000000] ∧
    (ff_val [0, 0, 0, 0, 0, 0, 0, 0x40000000] + ff_val [0, 0, 0, 0, 0, 0, 0, 0x40000000]) %
      ff_val [0, 0, 0, 0, 0, 0, 0, 0x80000000] = 0 :=
  ⟨by decide, by decide,
    ff_mod_add_eval (by decide) (by decide) (by decide) (by decide) (by decide!),
    by decide⟩

/-! ## Claims C5, C6, C9 and C10 -/

/-- C5 (defect): `ff_mod` is not `a mod m` on all inputs.  For `a = 2^255` and
`m = 1` the alignment loop stops at its cap `shift = 255` with
`shifted_mod = 2^255 <= a`, the code still backs up one position, and the
subtraction loop leaves 1 instead of 0; for `a = m = p` the doubling of the
modulus overflows 256 bits and the result is `2^64 - 2^32 + 1` instead of 0. -/
theorem ff_mod_defect :
    ff_wf [0, 0, 0, 0, 0, 0, 0, 0x80000000] ∧ ff_wf (ff_from_u32 1) ∧
    ff_val (ff_from_u32 1) ≠ 0 ∧
    ff_mod [0, 0, 0, 0, 0, 0, 0, 0x80000000] (ff_from_u32 1) = ff_from_u32 1 ∧
    ff_val [0, 0, 0, 0, 0, 0, 0, 0x80000000] % ff_val (ff_from_u32 1) = 0 ∧
    ff_mod p p = [1, 0xffffffff, 0, 0, 0, 0, 0, 0] :=
  ⟨by decide, by decide, by decide,
    ff_mod_eval (by decide) (by decide) (by decide) (by decide!),
    by decide,
    ff_mod_eval (by decide) (by decide) (by decide) (by decide!)⟩

/-- C6 (defect): `ff_mod_inv` returns 0 for `a = 2`, although `0 < 2 < p` and
`(p + 1) / 2` is the inverse of 2 modulo `p`: the three loops finish within the
fuel, and the final check `ff_mod(reduced_a * old_s, p) == 1` fails because
`ff_mod` mis-reduces `p + 1`. -/
theorem ff_mod_inv_two_defect :
    0 < ff_val (ff_from_u32 2) ∧ ff_val (ff_from_u32 2) < ff_val p ∧
    ff_mod_inv 8 (ff_from_u32 2) = some ff_zero ∧
    (ff_val (ff_from_u32 2) *
      ff_val [0, 0, 0x80000000, 0, 0, 0x80000000, 0x80000000, 0x7fffffff]) % ff_val p = 1 ∧
    ff_mul (ff_from_u32 2) [0, 0, 0x80000000, 0, 0, 0x80000000, 0x80000000, 0x7fffffff] =
      [0, 0, 0, 1, 0, 0, 1, 0xffffffff] ∧
    ff_mod [0, 0, 0, 1, 0, 0, 1, 0xffffffff] p = [2, 0xffffffff, 0, 0, 0, 0, 0, 0] :=
  ⟨by decide, by decide,
    ff_mod_inv_eval 8 (by decide) (by decide) (by decide!),
    by decide!, by decide!,
    ff_mod_eval (by decide) (by decide) (by decide) (by decide!)⟩

/-- C9 (defect): on the input of the repository's own test, `(5 - 8) mod 23`,
`ff_mod_sub` returns `2^255 - 2`, not 20: `ff_sub` wraps to `2^256 - 3` and the
alignment loop of `ff_mod` overflows while doubling 23. -/
theorem ff_mod_sub_test_defect :
    ff_mod_sub (ff_from_u32 5) (ff_from_u32 8) (ff_from_u32 23) =
      [0xfffffffe, 0xffffffff, 0xffffffff, 0xffffffff, 0xffffffff, 0xffffffff, 0xffffffff,
        0x7fffffff] ∧
    ff_mod_sub (ff_from_u32 5) (ff_from_u32 8) (ff_from_u32 23) ≠ ff_from_u32 20 ∧
    ff_val (ff_from_u32 5) < ff_val (ff_from_u32 23) ∧
    ff_val (ff_from_u32 8) < ff_val (ff_from_u32 23) := by
  have h : ff_mod_sub (ff_from_u32 5) (ff_from_u32 8) (ff_from_u32 23) =
      [0xfffffffe, 0xffffffff, 0xffffffff, 0xffffffff, 0xffffffff, 0xffffffff, 0xffffffff,
        0x7fffffff] :=
    ff_mod_sub_eval (by decide) (by decide) (by decide) (by decide) (by decide!)
  refine ⟨h, ?_, by decide, by decide⟩
  rw [h]
  decide

/-- C10 (defect): the generator `g` is a non-infinity point with reduced
coordinates on the curve and `gy != 0`, and the affine doubling formula in exact
arithmetic modulo `p` gives the `2G` of the repository's test; yet `ec_add g g`
finishes within the fuel and returns a different non-infinity point:
`ff_mod_inv` returns 0 for `2 * gy`, so the slope is 0. -/
theorem ec_add_double_g_defect :
    ff_val gx < ff_val p ∧ ff_val gy < ff_val p ∧ ff_val gy ≠ 0 ∧
    (ff_val gy ^ 2) % ff_val p =
      (ff_val gx ^ 3 + ff_val a * ff_val gx + ff_val b) % ff_val p ∧
    (0xa249bcb3191802d3cb56fc75a8731f848e7b2caf080f3477a4e4d904a671af9d * (2 * ff_val gy)) %
        ff_val p = (3 * ff_val gx ^ 2 + ff_val a) % ff_val p ∧
    (0xa249bcb3191802d3cb56fc75a8731f848e7b2caf080f3477a4e4d904a671af9d ^ 2 +
        2 * (ff_val p - ff_val gx)) % ff_val p =
      0x7cf27b188d034f7e8a52380304b51ac3c08969e277f21b35a60b48fc47669978 ∧
    (0xa249bcb3191802d3cb56fc75a8731f848e7b2caf080f3477a4e4d904a671af9d *
        (ff_val gx + ff_val p -
          0x7cf27b188d034f7e8a52380304b51ac3c08969e277f21b35a60b48fc47669978) +
        (ff_val p - ff_val gy)) % ff_val p =
      0x07775510db8ed040293d9ac69f7430dbba7dade63ce982299e04b79d227873d1 ∧
    ec_add 1000 g g = some
      { x := [0x4ece7ad4, 0x16bd8d74, 0xa42998be, 0x11f904fd, 0x38b77e1b, 0x0e863235,
          0x3da77b70, 0x29d05c1a],
        y := [0xc840ae0b, 0x3449bf97, 0x94cea131, 0xd431cca8, 0x83f061e9, 0x711814b5,
          0x01e58064, 0xb01cbd1d],
        is_infinity := 0 } ∧
    ec_add 1000 g g ≠ some
      { x := ff_of_nat 0x7cf27b188d034f7e8a52380304b51ac3c08969e277f21b35a60b48fc47669978,
        y := ff_of_nat 0x07775510db8ed040293d9ac69f7430dbba7dade63ce982299e04b79d227873d1,
        is_infinity := 0 } := by
  have h : ec_add 1000 g g = some
      { x := [0x4ece7ad4, 0x16bd8d74, 0xa42998be, 0x11f904fd, 0x38b77e1b, 0x0e863235,
          0x3da77b70, 0x29d05c1a],
        y := [0xc840ae0b, 0x3449bf97, 0x94cea131, 0xd431cca8, 0x83f061e9, 0x711814b5,
          0x01e58064, 0xb01cbd1d],
        is_infinity := 0 } :=
    ec_add_eval 1000 (by decide) (by decide) (by decide) (by decide!)
  refine ⟨by decide!, by decide!, by decide!, by decide!, by decide!, by decide!, by decide!,
    h, ?_⟩
  rw [h]
  decide!

/-! ## Defects of point addition and scalar multiplication -/

/-- C11 (code defect): `ec_add` is not commutative on curve points.  The
generator `G` and its true double `Q = 2G` are non-infinity points with reduced
coordinates satisfying the curve equation modulo `p`, yet `ec_add G Q` and
`ec_add Q G` return points with different `y`: `ff_mod_inv` returns 0 for the
denominator, the slope is 0, and `y3` is `2^256 - y1`, which depends on the
first operand alone. -/
theorem ec_add_not_commutative :
    g.is_infinity = 0 ∧ ff_val g.x < ff_val p ∧ ff_val g.y < ff_val p ∧
    (ff_val g.y ^ 2) % ff_val p =
      (ff_val g.x ^ 3 + ff_val a * ff_val g.x + ff_val b) % ff_val p ∧
    ff_val [0x47669978, 0xa60b48fc, 0x77f21b35, 0xc08969e2, 0x04b51ac3, 0x8a523803, 0x8d034f7e, 0x7cf27b18] < ff_val p ∧
    ff_val [0x227873d1, 0x9e04b79d, 0x3ce98229, 0xba7dade6, 0x9f7430db, 0x293d9ac6, 0xdb8ed040, 0x07775510] < ff_val p ∧
    (ff_val [0x227873d1, 0x9e04b79d, 0x3ce98229, 0xba7dade6, 0x9f7430db, 0x293d9ac6, 0xdb8ed040, 0x07775510] ^ 2) % ff_val p =
      (ff_val [0x47669978, 0xa60b48fc, 0x77f21b35, 0xc08969e2, 0x04b51ac3, 0x8a523803, 0x8d034f7e, 0x7cf27b18] ^ 3 +
        ff_val a * ff_val [0x47669978, 0xa60b48fc, 0x77f21b35, 0xc08969e2, 0x04b51ac3, 0x8a523803, 0x8d034f7e, 0x7cf27b18] + ff_val b) % ff_val p ∧
    ec_add (2 ^ 32) g
        ⟨[0x47669978, 0xa60b48fc, 0x77f21b35, 0xc08969e2, 0x04b51ac3, 0x8a523803, 0x8d034f7e, 0x7cf27b18],
         [0x227873d1, 0x9e04b79d, 0x3ce98229, 0xba7dade6, 0x9f7430db, 0x293d9ac6, 0xdb8ed040, 0x07775510], 0⟩ =
      some ⟨[0xe000a3f2, 0x65537dbd, 0x5a22b129, 0xc873189c, 0x97a6a449, 0x7cf0e117, 0x91d06e39, 0x17f5b2f4],
            [0xc840ae0b, 0x3449bf97, 0x94cea131, 0xd431cca8, 0x83f061e9, 0x711814b5, 0x01e58064, 0xb01cbd1d], 0⟩ ∧
    ec_add (2 ^ 32)
        ⟨[0x47669978, 0xa60b48fc, 0x77f21b35, 0xc08969e2, 0x04b51ac3, 0x8a523803, 0x8d034f7e, 0x7cf27b18],
         [0x227873d1, 0x9e04b79d, 0x3ce98229, 0xba7dade6, 0x9f7430db, 0x293d9ac6, 0xdb8ed040, 0x07775510], 0⟩ g =
      some ⟨[0xe000a3f2, 0x65537dbd, 0x5a22b129, 0xc873189c, 0x97a6a449, 0x7cf0e117, 0x91d06e39, 0x17f5b2f4],
            [0xdd878c2f, 0x61fb4862, 0xc3167dd6, 0x45825219, 0x608bcf24, 0xd6c26539, 0x24712fbf, 0xf888aaef], 0⟩ ∧
    ec_add (2 ^ 32) g
        ⟨[0x47669978, 0xa60b48fc, 0x77f21b35, 0xc08969e2, 0x04b51ac3, 0x8a523803, 0x8d034f7e, 0x7cf27b18],
         [0x227873d1, 0x9e04b79d, 0x3ce98229, 0xba7dade6, 0x9f7430db, 0x293d9ac6, 0xdb8ed040, 0x07775510], 0⟩ ≠
      ec_add (2 ^ 32)
        ⟨[0x47669978, 0xa60b48fc, 0x77f21b35, 0xc08969e2, 0x04b51ac3, 0x8a523803, 0x8d034f7e, 0x7cf27b18],
         [0x227873d1, 0x9e04b79d, 0x3ce98229, 0xba7dade6, 0x9f7430db, 0x293d9ac6, 0xdb8ed040, 0x07775510], 0⟩ g := by
  have h1 : ec_add (2 ^ 32) g
        ⟨[0x47669978, 0xa60b48fc, 0x77f21b35, 0xc08969e2, 0x04b51ac3, 0x8a523803, 0x8d034f7e, 0x7cf27b18],
         [0x227873d1, 0x9e04b79d, 0x3ce98229, 0xba7dade6, 0x9f7430db, 0x293d9ac6, 0xdb8ed040, 0x07775510], 0⟩ =
      some ⟨[0xe000a3f2, 0x65537dbd, 0x5a22b129, 0xc873189c, 0x97a6a449, 0x7cf0e117, 0x91d06e39, 0x17f5b2f4],
            [0xc840ae0b, 0x3449bf97, 0x94cea131, 0xd431cca8, 0x83f061e9, 0x711814b5, 0x01e58064, 0xb01cbd1d], 0⟩ :=
    ec_add_eval (2 ^ 32) (by decide) (by decide) (by decide) (by decide!)
  have h2 : ec_add (2 ^ 32)
        ⟨[0x47669978, 0xa60b48fc, 0x77f21b35, 0xc08969e2, 0x04b51ac3, 0x8a523803, 0x8d034f7e, 0x7cf27b18],
         [0x227873d1, 0x9e04b79d, 0x3ce98229, 0xba7dade6, 0x9f7430db, 0x293d9ac6, 0xdb8ed040, 0x07775510], 0⟩ g =
      some ⟨[0xe000a3f2, 0x65537dbd, 0x5a22b129, 0xc873189c, 0x97a6a449, 0x7cf0e117, 0x91d06e39, 0x17f5b2f4],
            [0xdd878c2f, 0x61fb4862, 0xc3167dd6, 0x45825219, 0x608bcf24, 0xd6c26539, 0x24712fbf, 0xf888aaef], 0⟩ :=
    ec_add_eval (2 ^ 32) (by decide) (by decide) (by decide) (by decide!)
  refine ⟨rfl, by decide, by decide, by decide!, by decide, by decide, by decide!, h1, h2, ?_⟩
  rw [h1, h2]
  decide

/-- C12 (code defect): `ec_scalar_mul` with `k = 1` does not return the point.
For the generator `G` (not infinity, reduced coordinates, on the curve) the
loop doubles `R` once more after every consumed bit and never doubles `temp`,
and each doubling goes through `ff_mod_inv`, which returns 0 here: the result
has `x = 0` and `y = 2^256 - gy`, not `G`. -/
theorem ec_scalar_mul_one_defect :
    g.is_infinity = 0 ∧ ff_val g.x < ff_val p ∧ ff_val g.y < ff_val p ∧
    (ff_val g.y ^ 2) % ff_val p =
      (ff_val g.x ^ 3 + ff_val a * ff_val g.x + ff_val b) % ff_val p ∧
    ec_scalar_mul (2 ^ 32) g (ff_from_u32 1) =
      some ⟨ff_zero, [0xc840ae0b, 0x3449bf97, 0x94cea131, 0xd431cca8, 0x83f061e9, 0x711814b5, 0x01e58064, 0xb01cbd1d], 0⟩ ∧
    ff_val [0xc840ae0b, 0x3449bf97, 0x94cea131, 0xd431cca8, 0x83f061e9, 0x711814b5, 0x01e58064, 0xb01cbd1d] = 2 ^ 256 - ff_val gy ∧
    ec_scalar_mul (2 ^ 32) g (ff_from_u32 1) ≠ some g := by
  have h1 : ec_scalar_mul (2 ^ 32) g (ff_from_u32 1) =
      some ⟨ff_zero, [0xc840ae0b, 0x3449bf97, 0x94cea131, 0xd431cca8, 0x83f061e9, 0x711814b5, 0x01e58064, 0xb01cbd1d], 0⟩ :=
    ec_scalar_mul_eval (2 ^ 32) (ff_from_u32 1) (by decide) (by decide) (by decide!)
  refine ⟨rfl, by decide, by decide, by decide!, h1, by decide, ?_⟩
  rw [h1]
  decide

/-- C13 (code defect): `ec_scalar_mul` applied to the generator `G` and the
group order `n` does not return the point at infinity: the result has the
infinity flag clear, with the coordinates shown. -/
theorem ec_scalar_mul_order_defect :
    ec_scalar_mul (2 ^ 32) g n =
      some ⟨[0xd898c296, 0x1c0876af, 0x11e2bcf1, 0x3db98326, 0x5ac8670e, 0xc75f8f32, 0xbfe4fe0e, 0xf12a9a96],
            [0xc840ae0b, 0x3449bf97, 0x94cea131, 0xd431cca8, 0x83f061e9, 0x711814b5, 0x01e58064, 0xb01cbd1d], 0⟩ ∧
    (∀ R, ec_scalar_mul (2 ^ 32) g n = some R → R.is_infinity = 0) := by
  have h1 : ec_scalar_mul (2 ^ 32) g n =
      some ⟨[0xd898c296, 0x1c0876af, 0x11e2bcf1, 0x3db98326, 0x5ac8670e, 0xc75f8f32, 0xbfe4fe0e, 0xf12a9a96],
            [0xc840ae0b, 0x3449bf97, 0x94cea131, 0xd431cca8, 0x83f061e9, 0x711814b5, 0x01e58064, 0xb01cbd1d], 0⟩ :=
    ec_scalar_mul_eval (2 ^ 32) n (by decide) (by decide) (by decide!)
  refine ⟨h1, ?_⟩
  intro R hR
  rw [h1] at hR
  cases hR
  rfl

/-! ## Hex decoding of over-length strings -/

/-- With `cnt` nibbles already stored, a string holding more than `64 - cnt`
further hex digits drives `word_idx` to `FF_WORDS` and the next digit is
written outside `words[]`. -/
theorem ff_from_hex_loop_overflow : ∀ (cs : List Nat) (result : ff_t) (cnt : Nat),
    cnt ≤ 64 → 64 < cnt + (cs.filterMap ff_from_hex_digit).length →
    ff_from_hex_loop cs result (cnt / 8) (4 * (cnt % 8)) = none
  | [], result, cnt, h1, h2 => by
    rw [List.filterMap_nil, List.length_nil] at h2
    omega
  | c :: cs, result, cnt, h1, h2 => by
    cases hc : ff_from_hex_digit c with
    | none =>
      rw [List.filterMap_cons_none hc] at h2
      rw [ff_from_hex_loop]
      simp only [hc]
      exact ff_from_hex_loop_overflow cs result cnt h1 h2
    | some d =>
      rw [List.filterMap_cons_some hc, List.length_cons] at h2
      rw [ff_from_hex_loop]
      simp only [hc]
      have hF : FF_WORDS = 8 := rfl
      by_cases hidx : cnt / 8 < FF_WORDS
      · rw [if_pos hidx]
        have hcnt : cnt < 64 := by omega
        have ih := ff_from_hex_loop_overflow cs
          (result.set (cnt / 8) (word result (cnt / 8) ||| ((d <<< (4 * (cnt % 8))) % 2 ^ 32)))
          (cnt + 1) (by omega) (by omega)
        by_cases h32 : 4 * (cnt % 8) + 4 = 32
        · rw [if_pos h32]
          have e1 : (cnt + 1) / 8 = cnt / 8 + 1 := by omega
          have e2 : 4 * ((cnt + 1) % 8) = 0 := by omega
          rw [e1, e2] at ih
          exact ih
        · rw [if_neg h32]
          have e1 : (cnt + 1) / 8 = cnt / 8 := by omega
          have e2 : 4 * ((cnt + 1) % 8) = 4 * (cnt % 8) + 4 := by omega
          rw [e1, e2] at ih
          exact ih
      · rw [if_neg hidx]

/-- C21 (code defect): for every NUL-free string `s` with more than 64
hex-digit characters, `ff_from_hex s` does not stay inside the eight limbs: the
65th digit from the end is stored with `word_idx = FF_WORDS`, a write to
`words[8]`, outside the array (the model returns `none` there).  No value is
produced, so the digits beyond the 64-nibble window are not discarded. -/
theorem ff_from_hex_overlong_out_of_bounds (s : List Nat) (hnul : ∀ c ∈ s, c ≠ 0)
    (hlen : 64 < (s.filterMap hex_digit_value).length) :
    ff_from_hex s = none := by
  have e : hex_digit_value = ff_from_hex_digit := by
    funext c
    exact (ff_from_hex_digit_eq c).symm
  rw [e] at hlen
  have htw : (s.takeWhile fun c => c ≠ 0) = s := by
    rw [List.takeWhile_eq_self_iff]
    intro c hc
    simpa using hnul c hc
  have h := ff_from_hex_loop_overflow s.reverse ff_zero 0 (by omega)
    (by rw [List.filterMap_reverse, List.length_reverse]; omega)
  unfold ff_from_hex
  simp only [htw, List.take_length]
  exact h

theorem ff_from_hex_overlong_out_of_bounds_witness :
    (∀ c ∈ c_string "10000000000000000000000000000000000000000000000000000000000000000",
      c ≠ 0) ∧
    64 < ((c_string
      "10000000000000000000000000000000000000000000000000000000000000000").filterMap
        hex_digit_value).length ∧
    ff_from_hex (c_string "0000000000000000000000000000000000000000000000000000000000000000") =
      some ff_zero ∧
    ff_from_hex
      (c_string "10000000000000000000000000000000000000000000000000000000000000000") = none :=
  ⟨by decide, by decide, by decide,
    ff_from_hex_overlong_out_of_bounds
      (c_string "10000000000000000000000000000000000000000000000000000000000000000")
      (by decide) (by decide)⟩

/-! ## Logical shifts -/

theorem ff_shl_out_of_range (x : ff_t) (k : Int) (h : 256 ≤ k ∨ k < 0) :
    ff_shl x k = ff_zero := by
  unfold ff_shl
  have c1 : k ≥ 256 ∨ k ≤ 0 := by omega
  have c2 : ¬ k = 0 := by omega
  rw [if_pos c1, if_neg c2]

theorem ff_shr_out_of_range (x : ff_t) (k : Int) (h : 256 ≤ k ∨ k < 0) :
    ff_shr x k = ff_zero := by
  unfold ff_shr
  have c1 : k ≥ 256 ∨ k ≤ 0 := by omega
  have c2 : ¬ k = 0 := by omega
  rw [if_pos c1, if_neg c2]

/-- C22: `ff_shl` and `ff_shr` are logical shifts.  For every well-formed
256-bit `x` and every shift count `k` (a C `int`) with `0 ≤ k ≤ 255`,
`ff_shl x k` is `(x * 2^k) mod 2^256` and `ff_shr x k` is `⌊x / 2^k⌋`; for
`k ≥ 256` and for negative `k` both return zero. -/
theorem ff_shift_logical (x : ff_t) (k : Int) (hx : ff_wf x) :
    (0 ≤ k → k ≤ 255 →
      ff_wf (ff_shl x k) ∧ ff_val (ff_shl x k) = (ff_val x * 2 ^ k.toNat) % 2 ^ 256 ∧
      ff_wf (ff_shr x k) ∧ ff_val (ff_shr x k) = ff_val x / 2 ^ k.toNat) ∧
    (256 ≤ k ∨ k < 0 →
      ff_shl x k = ff_zero ∧ ff_shr x k = ff_zero ∧ ff_val ff_zero = 0) := by
  constructor
  · intro h0 h255
    have hk : ((k.toNat : Nat) : Int) = k := Int.toNat_of_nonneg h0
    have hlt : k.toNat < 256 := by omega
    have h1 := ff_shl_spec hx k.toNat hlt
    have h2 := ff_shr_spec hx k.toNat hlt
    rw [hk] at h1 h2
    exact ⟨h1.1, h1.2, h2.1, h2.2⟩
  · intro h
    exact ⟨ff_shl_out_of_range x k h, ff_shr_out_of_range x k h, ff_val_zero⟩

theorem ff_shift_logical_witness :
    ff_wf (ff_from_u32 0x10) ∧
    ff_shl (ff_from_u32 1) 4 = ff_from_u32 0x10 ∧
    ff_shr (ff_from_u32 0x10) 4 = ff_from_u32 1 ∧
    (ff_wf (ff_shl (ff_from_u32 0x10) 4) ∧
      ff_val (ff_shl (ff_from_u32 0x10) 4) =
        (ff_val (ff_from_u32 0x10) * 2 ^ (4 : Int).toNat) % 2 ^ 256 ∧
      ff_wf (ff_shr (ff_from_u32 0x10) 4) ∧
      ff_val (ff_shr (ff_from_u32 0x10) 4) =
        ff_val (ff_from_u32 0x10) / 2 ^ (4 : Int).toNat) ∧
    (ff_shl (ff_from_u32 0x10) 256 = ff_zero ∧ ff_shr (ff_from_u32 0x10) 256 = ff_zero ∧
      ff_val ff_zero = 0) ∧
    (ff_shl (ff_from_u32 0x10) (-1) = ff_zero ∧ ff_shr (ff_from_u32 0x10) (-1) = ff_zero ∧
      ff_val ff_zero = 0) :=
  ⟨by decide, by decide, by decide,
    (ff_shift_logical (ff_from_u32 0x10) 4 (by decide)).1 (by decide) (by decide),
    (ff_shift_logical (ff_from_u32 0x10) 256 (by decide)).2 (Or.inl (by decide)),
    (ff_shift_logical (ff_from_u32 0x10) (-1) (by decide)).2 (Or.inr (by decide))⟩

/-! ## Conditional correctness of the reduction -/

/-- C25: for every non-zero modulus `m` and every `x < 2^255`, `ff_mod x m` is
`x mod m`.  Under this precondition the alignment loop leaves with an exit
shift `J ≤ 255` at which the shifted modulus is exactly `m * 2^J < 2^256` (no
doubling has overflowed 256 bits) and exceeds `x` (the comparison, not the cap
on the shift counter, ends the loop). -/
theorem ff_mod_correct_below_top_bit (x m : ff_t) (hx : ff_wf x) (hm : ff_wf m)
    (h0 : ff_val m ≠ 0) (h : ff_val x < 2 ^ 255) :
    ff_wf (ff_mod x m) ∧ ff_val (ff_mod x m) = ff_val x % ff_val m ∧
    ∃ J : Nat, (ff_mod_align x (FF_SIZE - 1) m 0).2 = (J : Int) ∧ J ≤ 255 ∧
      ff_val (ff_mod_align x (FF_SIZE - 1) m 0).1 = ff_val m * 2 ^ J ∧
      ff_val m * 2 ^ J < 2 ^ 256 ∧ ff_val x < ff_val m * 2 ^ J := by
  obtain ⟨hwf, hval⟩ := ff_mod_spec_of_lt hx hm h0 h
  refine ⟨hwf, hval, ?_⟩
  obtain ⟨c1, c2, c3⟩ := ff_clz_spec hm h0
  have hK1 : ff_val x < ff_val m * 2 ^ ff_clz m := by
    have h1 : 2 ^ (255 - ff_clz m) * 2 ^ ff_clz m ≤ ff_val m * 2 ^ ff_clz m :=
      Nat.mul_le_mul_right _ c2
    rw [← Nat.pow_add, Nat.sub_add_cancel c1] at h1
    omega
  have hK2 : ff_val m * 2 ^ ff_clz m < 2 ^ 256 := by
    have h1 : ff_val m * 2 ^ ff_clz m < 2 ^ (256 - ff_clz m) * 2 ^ ff_clz m :=
      Nat.mul_lt_mul_of_pos_right c3 (Nat.two_pow_pos _)
    rw [← Nat.pow_add, Nat.sub_add_cancel (by omega)] at h1
    exact h1
  obtain ⟨J, h1, _, h3, _, h5, h6⟩ :=
    ff_mod_align_spec (ff_val m) (ff_val x) (ff_clz m) x hx rfl (Nat.pos_of_ne_zero h0) hK1 hK2
      255 m 0 hm (by rw [Nat.pow_zero, Nat.mul_one]) (Nat.zero_le _) rfl
  have hcast : ((0 : Nat) : Int) = 0 := rfl
  rw [hcast] at h1 h5
  refine ⟨J, h1, by omega, h5, ?_, h6⟩
  have hle : ff_val m * 2 ^ J ≤ ff_val m * 2 ^ ff_clz m :=
    Nat.mul_le_mul_left _ (Nat.pow_le_pow_right (by norm_num) h3)
  omega

theorem ff_mod_correct_below_top_bit_witness :
    ff_wf [0xffffffff, 0xffffffff, 0xffffffff, 0xffffffff, 0xffffffff, 0xffffffff, 0xffffffff,
      0x7fffffff] ∧
    ff_wf (ff_from_u32 1) ∧ ff_val (ff_from_u32 1) ≠ 0 ∧
    ff_val [0xffffffff, 0xffffffff, 0xffffffff, 0xffffffff, 0xffffffff, 0xffffffff, 0xffffffff,
      0x7fffffff] < 2 ^ 255 ∧
    (ff_wf (ff_mod [0xffffffff, 0xffffffff, 0xffffffff, 0xffffffff, 0xffffffff, 0xffffffff,
        0xffffffff, 0x7fffffff] (ff_from_u32 1)) ∧
      ff_val (ff_mod [0xffffffff, 0xffffffff, 0xffffffff, 0xffffffff, 0xffffffff, 0xffffffff,
        0xffffffff, 0x7fffffff] (ff_from_u32 1)) =
        ff_val [0xffffffff, 0xffffffff, 0xffffffff, 0xffffffff, 0xffffffff, 0xffffffff,
          0xffffffff, 0x7fffffff] % ff_val (ff_from_u32 1) ∧
      ∃ J : Nat, (ff_mod_align [0xffffffff, 0xffffffff, 0xffffffff, 0xffffffff, 0xffffffff,
          0xffffffff, 0xffffffff, 0x7fffffff] (FF_SIZE - 1) (ff_from_u32 1) 0).2 = (J : Int) ∧
        J ≤ 255 ∧
        ff_val (ff_mod_align [0xffffffff, 0xffffffff, 0xffffffff, 0xffffffff, 0xffffffff,
          0xffffffff, 0xffffffff, 0x7fffffff] (FF_SIZE - 1) (ff_from_u32 1) 0).1 =
          ff_val (ff_from_u32 1) * 2 ^ J ∧
        ff_val (ff_from_u32 1) * 2 ^ J < 2 ^ 256 ∧
        ff_val [0xffffffff, 0xffffffff, 0xffffffff, 0xffffffff, 0xffffffff, 0xffffffff,
          0xffffffff, 0x7fffffff] < ff_val (ff_from_u32 1) * 2 ^ J) :=
  ⟨by decide, by decide, by decide, by decide,
    ff_mod_correct_below_top_bit
      [0xffffffff, 0xffffffff, 0xffffffff, 0xffffffff, 0xffffffff, 0xffffffff, 0xffffffff,
        0x7fffffff] (ff_from_u32 1) (by decide) (by decide) (by decide) (by decide)⟩

/-! ## Bit order of the double-and-add loop -/

/-- The bit tested by `(k->words[i / 32] >> (i % 32)) & 1` is bit `i` of the value. -/
theorem ff_bit_eq {k : ff_t} (hk : ff_wf k) (i : Nat) :
    (word k (i / 32) >>> (i % 32)) &&& 1 = ff_val k / 2 ^ i % 2 := by
  have hr : i % 32 < 32 := Nat.mod_lt _ (by norm_num)
  rw [word_eq_div_mod k (i / 32) hk.2, Nat.shiftRight_eq_div_pow, Nat.and_one_is_mod]
  have e32 : (2 : Nat) ^ 32 = 2 ^ (i % 32) * 2 ^ (32 - i % 32) := by
    rw [← Nat.pow_add]
    congr 1
    omega
  rw [e32, Nat.mod_mul_right_div_self, Nat.div_div_eq_div_mul, ← Nat.pow_add]
  have ei : 32 * (i / 32) + i % 32 = i := Nat.div_add_mod i 32
  rw [ei]
  have hd : 2 ∣ 2 ^ (32 - i % 32) := by
    have : 32 - i % 32 = (31 - i % 32) + 1 := by omega
    rw [this, Nat.pow_succ]
    exact Nat.dvd_mul_left _ _
  exact Nat.mod_mod_of_dvd _ hd

/-- The bits of a scalar of value `2^i`: only bit `i` is set. -/
theorem ff_bit_single {k : ff_t} (hk : ff_wf k) {i : Nat} (hv : ff_val k = 2 ^ i) (j : Nat) :
    (word k (j / 32) >>> (j % 32)) &&& 1 ≠ 0 ↔ j = i := by
  rw [ff_bit_eq hk j, hv]
  constructor
  · intro h
    by_contra hne
    apply h
    rcases Nat.lt_or_gt_of_ne hne with hlt | hgt
    · have e : i = j + ((i - j - 1) + 1) := by omega
      rw [e, Nat.pow_add, Nat.mul_div_cancel_left _ (Nat.two_pow_pos j), Nat.pow_succ,
        Nat.mul_mod_left]
    · rw [Nat.div_eq_of_lt (Nat.pow_lt_pow_right (by norm_num) hgt)]
  · intro h
    rw [h, Nat.div_self (Nat.two_pow_pos i)]
    decide

theorem ec_double_times_infinity (fuel : Nat) : ∀ cnt : Nat,
    ec_double_times fuel cnt ec_set_infinity = some ec_set_infinity
  | 0 => rfl
  | cnt + 1 => by
    rw [ec_double_times, ec_add_infinity_left fuel ec_set_infinity ec_set_infinity (by decide)]
    exact ec_double_times_infinity fuel cnt

/-- While the remaining bits are clear, each pass of the loop only doubles `R`. -/
theorem ec_scalar_mul_loop_clear (fuel : Nat) (temp : ECPoint) (k : ff_t) :
    ∀ (cnt i : Nat) (R : ECPoint),
    (∀ j, i ≤ j → j < i + cnt → (word k (j / 32) >>> (j % 32)) &&& 1 = 0) →
    ec_scalar_mul_loop fuel temp k cnt i R = ec_double_times fuel cnt R
  | 0, _, _, _ => rfl
  | cnt + 1, i, R, h => by
    rw [ec_scalar_mul_loop, ec_double_times, ec_scalar_mul_step]
    cases hd : ec_add fuel R R with
    | none => rfl
    | some D =>
      have hb : ¬ (word k (i / 32) >>> (i % 32)) &&& 1 ≠ 0 := by
        rw [h i (le_refl _) (by omega)]
        simp
      simp only [if_neg hb]
      exact ec_scalar_mul_loop_clear fuel temp k cnt (i + 1) D
        (fun j h1 h2 => h j (by omega) (by omega))

/-- From the point at infinity, with bit `b` the only bit set in the range still
to be scanned: the passes below `b` keep the point at infinity, pass `b` loads
`temp`, and the passes above `b` double it. -/
theorem ec_scalar_mul_loop_single (fuel : Nat) (temp : ECPoint) (k : ff_t) (b : Nat) :
    ∀ (cnt i : Nat), i ≤ b → b < i + cnt →
    (∀ j, i ≤ j → j < i + cnt → ((word k (j / 32) >>> (j % 32)) &&& 1 ≠ 0 ↔ j = b)) →
    ec_scalar_mul_loop fuel temp k cnt i ec_set_infinity =
      ec_double_times fuel (i + cnt - 1 - b) temp
  | 0, i, h1, h2, _ => by omega
  | cnt + 1, i, h1, h2, h => by
    rw [ec_scalar_mul_loop, ec_scalar_mul_step,
      ec_add_infinity_left fuel ec_set_infinity ec_set_infinity (by decide)]
    by_cases hib : i = b
    · have hb : (word k (i / 32) >>> (i % 32)) &&& 1 ≠ 0 := (h i (le_refl _) (by omega)).2 hib
      simp only [if_pos hb]
      rw [ec_add_infinity_left fuel ec_set_infinity temp (by decide)]
      have hc : i + (cnt + 1) - 1 - b = cnt := by omega
      rw [hc]
      apply ec_scalar_mul_loop_clear
      intro j hj1 hj2
      by_contra hne
      have := (h j (by omega) (by omega)).1 hne
      omega
    · have hb : ¬ (word k (i / 32) >>> (i % 32)) &&& 1 ≠ 0 := by
        intro hne
        exact hib ((h i (le_refl _) (by omega)).1 hne)
      simp only [if_neg hb]
      have hc : i + (cnt + 1) - 1 - b = i + 1 + cnt - 1 - b := by omega
      rw [hc]
      exact ec_scalar_mul_loop_single fuel temp k b cnt (i + 1) (by omega) (by omega)
        (fun j hj1 hj2 => h j (by omega) (by omega))

/-- C26: bit order of the double-and-add loop.  For every point `P` (any
coordinates, any flag) and whatever the fuel, `ec_scalar_mul P k` with
`k = 2^255` returns `P` unchanged; more generally, for a scalar with only bit
`i` set the addition for bit `i` is followed by `255 - i` doublings of the
accumulator, because the loop doubles before consuming each bit from bit 0
upward. -/
theorem ec_scalar_mul_bit_order (fuel : Nat) (P : ECPoint) (k : ff_t) (i : Nat)
    (hk : ff_wf k) (hi : i < 256) (hv : ff_val k = 2 ^ i) :
    ec_scalar_mul fuel P k = ec_double_times fuel (255 - i) P ∧
    ff_val [0, 0, 0, 0, 0, 0, 0, 0x80000000] = 2 ^ 255 ∧
    ec_scalar_mul fuel P [0, 0, 0, 0, 0, 0, 0, 0x80000000] = some P := by
  have main : ∀ (k' : ff_t) (b : Nat), ff_wf k' → b < 256 → ff_val k' = 2 ^ b →
      ec_scalar_mul fuel P k' = ec_double_times fuel (255 - b) P := by
    intro k' b hk' hb hv'
    have h := ec_scalar_mul_loop_single fuel P k' b 256 0 (Nat.zero_le _) (by omega)
      (fun j _ _ => ff_bit_single hk' hv' j)
    exact h
  refine ⟨main k i hk hi hv, by decide, ?_⟩
  exact main [0, 0, 0, 0, 0, 0, 0, 0x80000000] 255 (by decide) (by norm_num) (by decide)

theorem ec_scalar_mul_bit_order_witness :
    ff_wf [0, 0, 0, 0, 0, 0, 0, 0x40000000] ∧ 254 < 256 ∧
    ff_val [0, 0, 0, 0, 0, 0, 0, 0x40000000] = 2 ^ 254 ∧
    (ec_scalar_mul (2 ^ 32) g [0, 0, 0, 0, 0, 0, 0, 0x40000000] = ec_double_times (2 ^ 32) (255 - 254) g ∧
      ff_val [0, 0, 0, 0, 0, 0, 0, 0x80000000] = 2 ^ 255 ∧
      ec_scalar_mul (2 ^ 32) g [0, 0, 0, 0, 0, 0, 0, 0x80000000] = some g) :=
  ⟨by decide, by decide, by decide,
    ec_scalar_mul_bit_order (2 ^ 32) g [0, 0, 0, 0, 0, 0, 0, 0x40000000] 254 (by decide) (by decide)
      (by decide)⟩

/-! ## Range of the random scalar -/

/-- The alignment loop at value level, overflow included: it leaves at a shift
`J` with the shifted modulus `(m * 2^J) mod 2^256`, either because the shifted
modulus exceeds `w` or because the cap `J = 255` is reached. -/
theorem nat_mod_align_spec (m w : Nat) : ∀ (k j : Nat), k + j = 255 →
    ∃ J, nat_mod_align w k ((m * 2 ^ j) % 2 ^ 256) j = ((m * 2 ^ J) % 2 ^ 256, J) ∧
      j ≤ J ∧ J ≤ 255 ∧ (w < (m * 2 ^ J) % 2 ^ 256 ∨ J = 255)
  | 0, j, h => ⟨j, rfl, le_refl _, by omega, Or.inr (by omega)⟩
  | k + 1, j, h => by
    rw [nat_mod_align]
    by_cases c : (m * 2 ^ j) % 2 ^ 256 ≤ w
    · rw [if_pos c]
      have e : (m * 2 ^ j) % 2 ^ 256 * 2 % 2 ^ 256 = (m * 2 ^ (j + 1)) % 2 ^ 256 := by
        have e2 : 2 ^ (j + 1) = 2 ^ j * 2 := pow_succ 2 j
        rw [e2, ← Nat.mul_assoc, Nat.mod_mul_mod]
      rw [e]
      obtain ⟨J, h1, h2, h3, h4⟩ := nat_mod_align_spec m w k (j + 1) (by omega)
      exact ⟨J, h1, by omega, h3, h4⟩
    · rw [if_neg c]
      exact ⟨j, rfl, le_refl _, by omega, Or.inl (by omega)⟩

/-- The subtraction loop at value level, started with `M * 2^(k-1)`: below
`M * 2^k` it reduces modulo `M`, above it removes `M * (2^k - 1)` only. -/
theorem nat_mod_reduce_spec (M : Nat) : ∀ (k t sm : Nat), (∀ s, k = s + 1 → sm = M * 2 ^ s) →
    nat_mod_reduce k t sm = if t < M * 2 ^ k then t % M else t - M * (2 ^ k - 1)
  | 0, t, sm, _ => by
    rw [nat_mod_reduce, Nat.pow_zero, Nat.mul_one]
    by_cases c : t < M
    · rw [if_pos c, Nat.mod_eq_of_lt c]
    · rw [if_neg c, Nat.sub_self, Nat.mul_zero, Nat.sub_zero]
  | s + 1, t, sm, h => by
    have hsm : sm = M * 2 ^ s := h s rfl
    have hnext : ∀ s', s = s' + 1 → sm / 2 = M * 2 ^ s' := by
      intro s' hs'
      rw [hsm, hs', Nat.pow_succ, ← Nat.mul_assoc, Nat.mul_div_cancel _ (by norm_num)]
    rw [nat_mod_reduce, nat_mod_reduce_spec M s _ (sm / 2) hnext, hsm]
    have hp : M * 2 ^ (s + 1) = 2 * (M * 2 ^ s) := by
      rw [Nat.pow_succ]
      ring
    have hone : 1 ≤ 2 ^ s := Nat.one_le_two_pow
    have e1 : M * (2 ^ s - 1) = M * 2 ^ s - M := by
      rw [Nat.mul_sub_one]
    have e2 : M * (2 ^ (s + 1) - 1) = 2 * (M * 2 ^ s) - M := by
      rw [Nat.mul_sub_one, hp]
    have hMA : M ≤ M * 2 ^ s := Nat.le_mul_of_pos_right _ (Nat.two_pow_pos s)
    rw [hp, e1, e2]
    by_cases c : M * 2 ^ s ≤ t
    · rw [if_pos c]
      by_cases c2 : t < 2 * (M * 2 ^ s)
      · rw [if_pos c2, if_pos (by omega)]
        exact Nat.sub_mul_mod c
      · rw [if_neg c2, if_neg (by omega)]
        omega
    · rw [if_neg c, if_pos (by omega), if_pos (by omega)]

/-- For an odd modulus `m` above `2^255`, the reduction stays below `m` for
every 256-bit `w`, also where it is not `w mod m`: the loops reduce `w` modulo
the low `256 - J` bits of `m`, or leave at the cap with `w - (2^255 - 1)`. -/
theorem nat_mod_lt_of_odd (m w : Nat) (hodd : m % 2 = 1) (hm1 : 2 ^ 255 < m)
    (hm2 : m < 2 ^ 256) (hw : w < 2 ^ 256) : nat_mod w m < m := by
  unfold nat_mod
  by_cases c : w < m
  · rw [if_pos c]
    exact c
  · rw [if_neg c]
    obtain ⟨J, h1, _, h3, h4⟩ := nat_mod_align_spec m w 255 0 rfl
    rw [Nat.pow_zero, Nat.mul_one, Nat.mod_eq_of_lt hm2] at h1
    rw [h1]
    have hJ : 1 ≤ J := by
      rcases Nat.eq_zero_or_pos J with h | h
      · rw [h, Nat.pow_zero, Nat.mul_one, Nat.mod_eq_of_lt hm2] at h4
        omega
      · exact h
    have hsplit : (2 : Nat) ^ 256 = 2 ^ (256 - J) * 2 ^ J := by
      rw [← Nat.pow_add]
      congr 1
      omega
    have hsm : (m * 2 ^ J) % 2 ^ 256 = m % 2 ^ (256 - J) * 2 ^ J := by
      rw [hsplit, Nat.mul_mod_mul_right]
    rw [hsm] at h4 ⊢
    have hd : 2 ∣ 2 ^ (256 - J) := by
      have : 256 - J = (255 - J) + 1 := by omega
      rw [this, Nat.pow_succ]
      exact Nat.dvd_mul_left _ _
    have hMo : m % 2 ^ (256 - J) % 2 = 1 := by
      rw [Nat.mod_mod_of_dvd _ hd]
      exact hodd
    have hMle : m % 2 ^ (256 - J) ≤ m := Nat.mod_le _ _
    have hred := nat_mod_reduce_spec (m % 2 ^ (256 - J)) J w
      (m % 2 ^ (256 - J) * 2 ^ J / 2) (by
        intro s hs
        rw [hs, Nat.pow_succ, ← Nat.mul_assoc, Nat.mul_div_cancel _ (by norm_num)])
    simp only at hred ⊢
    rw [hred]
    by_cases c2 : w < m % 2 ^ (256 - J) * 2 ^ J
    · rw [if_pos c2]
      have hlt : w % (m % 2 ^ (256 - J)) < m % 2 ^ (256 - J) := Nat.mod_lt _ (by omega)
      omega
    · rw [if_neg c2]
      have hJ255 : J = 255 := by
        rcases h4 with h | h
        · exact absurd h c2
        · exact h
      have hM1 : m % 2 ^ (256 - J) = 1 := by
        rw [hJ255]
        exact hodd
      rw [hM1, Nat.one_mul, hJ255]
      omega

theorem ec_init_random_k_loop_ok : ∀ (cnt : Nat) (s : RandState),
    (ec_init_random_k_loop cnt s).1.length = cnt ∧ limbs_ok (ec_init_random_k_loop cnt s).1
  | 0, _ => ⟨rfl, limbs_ok_nil⟩
  | cnt + 1, s => by
    obtain ⟨h1, h2⟩ := ec_init_random_k_loop_ok cnt (nextRand s).2
    rw [ec_init_random_k_loop]
    refine ⟨?_, ?_⟩
    · simp only [List.length_cons, h1]
    · exact limbs_ok_cons.2 ⟨Nat.mod_lt _ (Nat.two_pow_pos 32), h2⟩

/-- The reduction by the group order stays below it for every 256-bit input. -/
theorem ff_mod_n_lt {w : ff_t} (hw : ff_wf w) :
    ff_wf (ff_mod w n) ∧ ff_val (ff_mod w n) < ff_val n := by
  obtain ⟨h1, h2⟩ := ff_mod_nat hw (by decide : ff_wf n)
  refine ⟨h1, ?_⟩
  rw [h2]
  exact nat_mod_lt_of_odd (ff_val n) (ff_val w) (by decide) (by decide) (by decide)
    (ff_val_lt_of_wf hw)

/-- C24: the scalar produced by `ec_init_random_k` is strictly below the group
order `n`.  For every 256-bit value `w`, `ff_mod w n` is a well-formed value
below `n`, and for every generator state the eight words drawn by
`ec_init_random_k` form such a `w`, so the returned scalar is below `n`. -/
theorem ec_init_random_k_below_order (s : RandState) (w : ff_t) (hw : ff_wf w) :
    ff_wf (ff_mod w n) ∧ ff_val (ff_mod w n) < ff_val n ∧
    ff_wf (ec_init_random_k_loop FF_WORDS s).1 ∧
    (ec_init_random_k s).1 = ff_mod (ec_init_random_k_loop FF_WORDS s).1 n ∧
    ff_wf (ec_init_random_k s).1 ∧ ff_val (ec_init_random_k s).1 < ff_val n := by
  have hdraw : ff_wf (ec_init_random_k_loop FF_WORDS s).1 :=
    ec_init_random_k_loop_ok FF_WORDS s
  have hk := ff_mod_n_lt hdraw
  exact ⟨(ff_mod_n_lt hw).1, (ff_mod_n_lt hw).2, hdraw, rfl, hk.1, hk.2⟩

theorem ec_init_random_k_below_order_witness :
    ff_wf [0xffffffff, 0xffffffff, 0xffffffff, 0xffffffff, 0xffffffff, 0xffffffff, 0xffffffff,
      0xffffffff] ∧
    (ec_init_random_k_loop FF_WORDS { s0 := 1, s1 := 2, s2 := 3, s3 := 4 }).1 =
      [5, 12295, 25178119, 27286542, 39879690, 1140358681, 3276312097, 4110231701] ∧
    (ff_wf (ff_mod [0xffffffff, 0xffffffff, 0xffffffff, 0xffffffff, 0xffffffff, 0xffffffff,
        0xffffffff, 0xffffffff] n) ∧
      ff_val (ff_mod [0xffffffff, 0xffffffff, 0xffffffff, 0xffffffff, 0xffffffff, 0xffffffff,
        0xffffffff, 0xffffffff] n) < ff_val n ∧
      ff_wf (ec_init_random_k_loop FF_WORDS { s0 := 1, s1 := 2, s2 := 3, s3 := 4 }).1 ∧
      (ec_init_random_k { s0 := 1, s1 := 2, s2 := 3, s3 := 4 }).1 =
        ff_mod (ec_init_random_k_loop FF_WORDS { s0 := 1, s1 := 2, s2 := 3, s3 := 4 }).1 n ∧
      ff_wf (ec_init_random_k { s0 := 1, s1 := 2, s2 := 3, s3 := 4 }).1 ∧
      ff_val (ec_init_random_k { s0 := 1, s1 := 2, s2 := 3, s3 := 4 }).1 < ff_val n) :=
  ⟨by decide, by decide,
    ec_init_random_k_below_order { s0 := 1, s1 := 2, s2 := 3, s3 := 4 }
      [0xffffffff, 0xffffffff, 0xffffffff, 0xffffffff, 0xffffffff, 0xffffffff, 0xffffffff,
        0xffffffff] (by decide)⟩

/-! ## Modular exponentiation -/

theorem ff_mod_mul_small {x y m : ff_t} (hx : ff_wf x) (hy : ff_wf y) (hm : ff_wf m)
    (h0 : ff_val m ≠ 0) (h : ff_val x * ff_val y < 2 ^ 255) :
    ff_wf (ff_mod_mul x y m) ∧ ff_val (ff_mod_mul x y m) = ff_val x * ff_val y % ff_val m := by
  have hv := ff_mul_val hx hy
  rw [Nat.mod_eq_of_lt (by omega)] at hv
  have hs := ff_mod_spec_of_lt (ff_mul_wf hx hy) hm h0 (by rw [hv]; exact h)
  rw [hv] at hs
  exact hs

theorem ff_mod_pow_mul_lt {s t M : Nat} (hs : s < M) (ht : t < M) (hM : M < 2 ^ 127) :
    s * t < 2 ^ 255 := by
  have h1 : s * t < 2 ^ 127 * 2 ^ 127 := Nat.mul_lt_mul'' (by omega) (by omega)
  have h2 : (2 : Nat) ^ 127 * 2 ^ 127 < 2 ^ 255 := by decide
  exact lt_trans h1 h2

theorem ff_mod_pow_square_spec {m : ff_t} (hm : ff_wf m) (hm1 : 1 < ff_val m)
    (hm2 : ff_val m < 2 ^ 127) (B : Nat) : ∀ (c : Nat) (temp : ff_t) (E : Nat),
    ff_wf temp → ff_val temp = B ^ E % ff_val m →
    ff_wf (ff_mod_pow_square m c temp) ∧
      ff_val (ff_mod_pow_square m c temp) = B ^ (2 ^ c * E) % ff_val m
  | 0, temp, E, h1, h2 => by
    rw [ff_mod_pow_square, Nat.pow_zero, Nat.one_mul]
    exact ⟨h1, h2⟩
  | c + 1, temp, E, h1, h2 => by
    rw [ff_mod_pow_square]
    have hlt : ff_val temp < ff_val m := by
      rw [h2]
      exact Nat.mod_lt _ (by omega)
    obtain ⟨h3, h4⟩ := ff_mod_mul_small h1 h1 hm (by omega) (ff_mod_pow_mul_lt hlt hlt hm2)
    have h5 : ff_val (ff_mod_mul temp temp m) = B ^ (2 * E) % ff_val m := by
      rw [h4, h2, ← Nat.mul_mod, ← Nat.pow_add, Nat.two_mul]
    have ih := ff_mod_pow_square_spec hm hm1 hm2 B c _ (2 * E) h3 h5
    have e : 2 ^ (c + 1) * E = 2 ^ c * (2 * E) := by
      rw [pow_succ]
      ring
    rw [e]
    exact ih

theorem ff_mod_pow_window_spec {base m : ff_t} (hb : ff_wf base) (hm : ff_wf m)
    (hm1 : 1 < ff_val m) (hm2 : ff_val m < 2 ^ 127) (hbm : ff_val base < ff_val m)
    (w j : Nat) (temp : ff_t) (E : Nat) (h1 : ff_wf temp)
    (h2 : ff_val temp = ff_val base ^ E % ff_val m) :
    ff_wf (ff_mod_pow_window base m w j temp) ∧
      ff_val (ff_mod_pow_window base m w j temp) =
        ff_val base ^ (16 * E + ff_mod_pow_window_exp w j) % ff_val m := by
  obtain ⟨h3, h4⟩ := ff_mod_pow_square_spec hm hm1 hm2 (ff_val base) 4 temp E h1 h2
  have e16 : 2 ^ 4 * E = 16 * E := by norm_num
  rw [e16] at h4
  unfold ff_mod_pow_window ff_mod_pow_window_exp
  by_cases c : (w >>> j) &&& 0xF ≠ 0
  · simp only [if_pos c]
    have hlt : ff_val (ff_mod_pow_square m 4 temp) < ff_val m := by
      rw [h4]
      exact Nat.mod_lt _ (by omega)
    obtain ⟨h5, h6⟩ := ff_mod_mul_small h3 hb hm (by omega) (ff_mod_pow_mul_lt hlt hbm hm2)
    refine ⟨h5, ?_⟩
    rw [h6, h4, Nat.mod_mul_mod, ← pow_succ]
  · simp only [if_neg c]
    exact ⟨h3, by rw [h4, Nat.add_zero]⟩

theorem ff_mod_pow_word_spec {base m : ff_t} (hb : ff_wf base) (hm : ff_wf m)
    (hm1 : 1 < ff_val m) (hm2 : ff_val m < 2 ^ 127) (hbm : ff_val base < ff_val m)
    (w : Nat) : ∀ (c : Nat) (temp : ff_t) (E : Nat), ff_wf temp →
    ff_val temp = ff_val base ^ E % ff_val m →
    ff_wf (ff_mod_pow_word base m w c temp) ∧
      ff_val (ff_mod_pow_word base m w c temp) =
        ff_val base ^ ff_mod_pow_word_exp w c E % ff_val m
  | 0, temp, E, h1, h2 => ⟨h1, h2⟩
  | c + 1, temp, E, h1, h2 => by
    obtain ⟨h3, h4⟩ := ff_mod_pow_window_spec hb hm hm1 hm2 hbm w (4 * c) temp E h1 h2
    rw [ff_mod_pow_word, ff_mod_pow_word_exp]
    exact ff_mod_pow_word_spec hb hm hm1 hm2 hbm w c _ _ h3 h4

theorem ff_mod_pow_loop_spec {base m : ff_t} (hb : ff_wf base) (hm : ff_wf m)
    (hm1 : 1 < ff_val m) (hm2 : ff_val m < 2 ^ 127) (hbm : ff_val base < ff_val m)
    (exp : ff_t) : ∀ (i : Nat) (temp : ff_t) (E : Nat), ff_wf temp →
    ff_val temp = ff_val base ^ E % ff_val m →
    ff_wf (ff_mod_pow_loop base exp m i temp) ∧
      ff_val (ff_mod_pow_loop base exp m i temp) =
        ff_val base ^ ff_mod_pow_loop_exp exp i E % ff_val m
  | 0, temp, E, h1, h2 => ⟨h1, h2⟩
  | i + 1, temp, E, h1, h2 => by
    obtain ⟨h3, h4⟩ := ff_mod_pow_word_spec hb hm hm1 hm2 hbm (word exp i) 8 temp E h1 h2
    rw [ff_mod_pow_loop, ff_mod_pow_loop_exp]
    exact ff_mod_pow_loop_spec hb hm hm1 hm2 hbm exp i _ _ h3 h4

/-- What `ff_mod_pow` computes for `1 < m < 2^127` and `base < m`: the base
raised to `exp` with every non-zero hex digit replaced by 1, modulo `m`. -/
theorem ff_mod_pow_spec {base m : ff_t} (hb : ff_wf base) (hm : ff_wf m)
    (hm1 : 1 < ff_val m) (hm2 : ff_val m < 2 ^ 127) (hbm : ff_val base < ff_val m)
    (exp : ff_t) :
    ff_wf (ff_mod_pow base exp m) ∧
      ff_val (ff_mod_pow base exp m) = ff_val base ^ ff_mod_pow_exp exp % ff_val m := by
  have h1 : ff_val (ff_from_u32 1) = ff_val base ^ 0 % ff_val m := by
    rw [Nat.pow_zero, Nat.mod_eq_of_lt hm1]
    decide
  exact ff_mod_pow_loop_spec hb hm hm1 hm2 hbm exp FF_WORDS (ff_from_u32 1) 0
    (ff_wf_from_u32 1) h1

/-- When every hex digit of the exponent is 0 or 1 the applied exponent is the
exponent itself, e.g. for `exp = 0x11`; for `exp = 2` it is 1. -/
theorem ff_mod_pow_exp_examples :
    ff_mod_pow_exp (ff_from_u32 0x11) = 0x11 ∧ ff_mod_pow_exp (ff_from_u32 2) = 1 ∧
    ff_mod_pow_exp (ff_from_u32 0xf0) = 0x10 := by
  decide

/-- C23 (code defect): `ff_mod_pow` is not modular exponentiation.  With base 2,
exponent 2 and modulus 7 (so `1 < m < 2^127` and `base < m`) it returns 2,
while `2^2 mod 7 = 4`: a non-zero window multiplies the accumulator by the base
itself, whatever the value of the window (see `ff_mod_pow_spec`). -/
theorem ff_mod_pow_defect :
    1 < ff_val (ff_from_u32 7) ∧ ff_val (ff_from_u32 7) < 2 ^ 127 ∧
    ff_val (ff_from_u32 2) < ff_val (ff_from_u32 7) ∧
    ff_mod_pow (ff_from_u32 2) (ff_from_u32 2) (ff_from_u32 7) = ff_from_u32 2 ∧
    ff_val (ff_from_u32 2) ^ ff_val (ff_from_u32 2) % ff_val (ff_from_u32 7) = 4 ∧
    ff_val (ff_from_u32 2) ≠ 4 := by
  obtain ⟨h1, h2⟩ := ff_mod_pow_spec (ff_wf_from_u32 2) (ff_wf_from_u32 7)
    (by decide : 1 < ff_val (ff_from_u32 7)) (by decide : ff_val (ff_from_u32 7) < 2 ^ 127)
    (by decide : ff_val (ff_from_u32 2) < ff_val (ff_from_u32 7)) (ff_from_u32 2)
  refine ⟨by decide, by decide, by decide, ?_, by decide, by decide⟩
  exact ff_val_inj_of_wf h1 (ff_wf_from_u32 2) (h2.trans (by decide!))

end P256
